import Mathlib

/-!
# TypingTrainer: mistake maps and the comparator

A shallow embedding of the mistake-tracking core of the two sources of the
typing trainer (`main.c`, the English version, and `main2.c`, the German
version): the `Map` of `KeyCount` entries with `map_add` / `map_add_char`, and
`compare_and_update`, which turns a reference line and a typed line into a
`CompareResult` and records mistakes in the two maps; further the map files
(`load_map_from_file`, `save_map_to_file`), the ranking of `show_top_map`, the
speed and accuracy metrics, `compute_aggregate_stats`, `trim_newline` and the
character repetition of `training_mode`.

Conventions of the embedding.

* A C string is the list of its bytes before the terminating NUL (`CStr`); a
  `const char *` argument that may be `NULL` is an `Option CStr`.
* A `Map *` argument is passed in and returned: the state is explicit.  A `Map`
  is the list `items[0] .. items[n-1]`; the capacity field of `main.c` and the
  allocation strategy are not observable and are left out, and so is the
  `exit(1)` taken when the allocator fails.
* `size_t` counters are `Nat` (every counter is bounded by a string length);
  the `long` count of an entry is an `Int` (signed overflow is undefined in C
  and cannot be reached by counting keystrokes).
* Loops whose trip count is not a syntactic bound run on fuel and return
  `none` when the fuel runs out; the theorems show that the fuel handed over by
  `compare_and_update` and `load_map_from_file` always suffices.
* A text file is the list of its bytes.  The map files are read as text: a
  line that `fgets` returns is taken as the C string that the line buffer
  holds, so the line step is that of the code for lines without a NUL byte.
* The `double` values of the speed and accuracy metrics are exact rationals.
  The `double` arithmetic of `compute_aggregate_stats` is a parameter of the
  model, and the stats file is read by `fscanf`, directive by directive.
-/

namespace TypingTrainer

/-! ## C strings -/

/-- The NUL byte that terminates every C string. -/
def NUL : Char := Char.ofNat 0

/-- A C string: the bytes before its terminating NUL. -/
abbrev CStr := List Char

/-- The C string held by a character buffer: the bytes before the first NUL. -/
def cstr (buf : List Char) : CStr := buf.takeWhile (fun c => c != NUL)

/-- The `for (i = lo; i < hi; ++i) body` loop over a state `σ`. -/
def for_loop {σ : Type} (lo hi : Nat) (body : Nat → σ → σ) (s : σ) : σ :=
  (List.range' lo (hi - lo)).foldl (fun s i => body i s) s

/-- The libc `isspace` of the "C" locale: space, `\t`, `\n`, `\v`, `\f`, `\r`. -/
def isspace (c : Char) : Bool :=
  c = ' ' || c = '\t' || c = '\n' || c = Char.ofNat 11 || c = Char.ofNat 12 || c = '\r'

/-- The libc `strtok_r(s, delim, &save)` on the string starting at `s`: the
leading delimiters are skipped; at the end of the string the result is `NULL`;
otherwise the token is the run of bytes up to the next delimiter, which is
overwritten by NUL, and `save` is left just behind it (or at the end of the
string when the token reaches it).  The result is the token and `save`. -/
def strtok_r (s delim : CStr) : Option CStr × CStr :=
  match s.dropWhile (fun c => delim.contains c) with
  | [] => (none, [])
  | c :: s1 =>
    (some ((c :: s1).takeWhile (fun c => !delim.contains c)),
      ((c :: s1).dropWhile (fun c => !delim.contains c)).drop 1)

/-! ## The mistake map (`main.c` 61-98, `main2.c` 58-128) -/

/-- The struct `KeyCount`: a key and its count. -/
structure KeyCount where
  key : CStr
  count : Int
deriving DecidableEq, Repr

/-- The struct `Map`: the entries `items[0] .. items[n-1]`, in insertion order. -/
abbrev Map := List KeyCount

/-- The function `map_init`: the empty map. -/
def map_init : Map := []

/-- The scan of `map_add` from the current entry on: the first entry whose key
is `strcmp`-equal to `key` gets `count += delta` and the function returns; when
the scan reaches the end, the entry `(key, delta)` is stored at `items[n]`. -/
def map_add_scan (key : CStr) (delta : Int) : List KeyCount → List KeyCount
  | [] => [⟨key, delta⟩]
  | e :: rest =>
    if e.key = key then ⟨e.key, e.count + delta⟩ :: rest
    else e :: map_add_scan key delta rest

/-- The function `map_add(m, key, delta)`: nothing for a `NULL` key, otherwise the scan. -/
def map_add (m : Map) (key : Option CStr) (delta : Int) : Map :=
  match key with
  | none => m
  | some k => map_add_scan k delta m

/-- The function `map_add_char(m, ch, delta)`: `map_add` with the C string held by the
buffer `buf` of the two bytes `ch` and NUL. -/
def map_add_char (m : Map) (ch : Char) (delta : Int) : Map :=
  map_add m (some (cstr [ch, NUL])) delta

/-- The count stored for `k`: that of the first entry with this key, if any.
(An observer used to state the claims; the sources read entries by index.) -/
def map_get (m : Map) (k : CStr) : Option Int :=
  (m.find? (fun e => e.key = k)).map (fun e => e.count)

/-- The count of `k`, an absent key counting as `0`. -/
def map_count (m : Map) (k : CStr) : Int := (map_get m k).getD 0

/-- The sum of the counts of all entries. -/
def map_total (m : Map) : Int := (m.map (fun e => e.count)).sum

/-- The keys of the entries, in order. -/
def map_keys (m : Map) : List CStr := m.map (fun e => e.key)

/-! ## Reading a map file (`main.c` 109-123, `main2.c` 148-172) -/

/-- The digits of `atol`: the decimal value of the leading run of digits,
continuing the value `acc` read so far. -/
def atol_digits : CStr → Nat → Nat
  | [], acc => acc
  | c :: s, acc =>
    if '0' ≤ c ∧ c ≤ '9' then atol_digits s (acc * 10 + (c.toNat - '0'.toNat)) else acc

/-- The libc `atol`: leading `isspace` bytes are skipped, one sign is taken,
and the run of digits that follows is read; no digits give `0`.  (Values
outside the range of `long`, where `atol` is undefined, are not cut off.) -/
def atol (s : CStr) : Int :=
  match s.dropWhile isspace with
  | '-' :: r => - (atol_digits r 0 : Int)
  | '+' :: r => (atol_digits r 0 : Int)
  | r => (atol_digits r 0 : Int)

/-- The body of the read loop of `load_map_from_file` (`main.c` 114-120,
`main2.c` 156-169) for one line returned by `fgets`: a line without a tab is
skipped; otherwise the key is the text before the first tab, the count is
`atol` of the text behind it, and a count other than `0` is handed to
`map_add`.  The line is the C string in the line buffer: a line of a file
without NUL bytes. -/
def load_map_line (m : Map) (line : CStr) : Map :=
  match line.dropWhile (fun c => c != '\t') with
  | [] => m
  | _ :: num =>
    let key := line.takeWhile (fun c => c != '\t')
    let cnt := atol num
    if cnt ≠ 0 then map_add m (some key) cnt else m

/-! ## The comparator -/

/-- The struct `CompareResult`. -/
structure CompareResult where
  correct_chars : Nat
  total_chars : Nat
  correct_words : Nat
  total_words : Nat
deriving DecidableEq, Repr

/-- The constant `MAX_LINE`. -/
def MAX_LINE : Nat := 512

namespace Main

/-- The word loop of `main.c` (232-241) from the save pointers `rptr`, `tptr`:
`while ((rtok = strtok_r(rptr, " \t", &rptr)) != NULL)`. -/
def word_loop : Nat → CStr → CStr → CompareResult → Map → Option (CompareResult × Map)
  | 0, _, _, _, _ => none
  | fuel + 1, rptr, tptr, res, mwords =>
    match strtok_r rptr [' ', '\t'] with
    | (none, _) => some (res, mwords)
    | (some rtok, rptr1) =>
      let tt := strtok_r tptr [' ', '\t']
      let res1 := { res with total_words := res.total_words + 1 }
      if tt.1 = some rtok then
        word_loop fuel rptr1 tt.2 { res1 with correct_words := res1.correct_words + 1 } mwords
      else
        word_loop fuel rptr1 tt.2 res1 (map_add mwords (some rtok) 1)

/-- The function `compare_and_update` of `main.c` (202-244): the result and the two maps. -/
def compare_and_update (ref typed : Option CStr) (mwords mchars : Map) :
    Option (CompareResult × Map × Map) :=
  let ref := ref.getD []
  let typed := typed.getD []
  let rlen := ref.length
  let tlen := typed.length
  let res0 : CompareResult := ⟨0, rlen, 0, 0⟩
  let minlen := if rlen < tlen then rlen else tlen
  let s1 := for_loop 0 minlen (fun i (s : CompareResult × Map) =>
    if typed.getD i NUL = ref.getD i NUL then
      ({ s.1 with correct_chars := s.1.correct_chars + 1 }, s.2)
    else (s.1, map_add_char s.2 (ref.getD i NUL) 1)) (res0, mchars)
  let mchars2 :=
    if tlen < rlen then
      for_loop tlen rlen (fun i mc => map_add_char mc (ref.getD i NUL) 1) s1.2
    else if tlen > rlen then
      for_loop rlen tlen (fun i mc => map_add_char mc (typed.getD i NUL) 1) s1.2
    else s1.2
  let ref_copy := ref.take (MAX_LINE - 1)
  let typed_copy := typed.take (MAX_LINE - 1)
  match word_loop (ref_copy.length + 1) ref_copy typed_copy s1.1 mwords with
  | none => none
  | some (res, mwords1) => some (res, mwords1, mchars2)

end Main

namespace Main2

/-- The word collector of `main2.c` (307-310, 316-319): bytes are copied into
the word buffer while the string has not ended, the byte is not a space and
the buffer has `room`; the result is the word and the advanced pointer. -/
def collect_word : Nat → CStr → CStr × CStr
  | 0, p => ([], p)
  | _ + 1, [] => ([], [])
  | room + 1, c :: p =>
    if isspace c then ([], c :: p)
    else ((c :: (collect_word room p).1), (collect_word room p).2)

/-- The word loop of `main2.c` (301-338), `while (*rp)`.  The loop test and the
`break` after the spaces of `ref` are skipped leave the loop in the same state,
so they are one case here. -/
def word_loop : Nat → CStr → CStr → CompareResult → Map → Map →
    Option (CompareResult × Map × Map)
  | 0, _, _, _, _, _ => none
  | fuel + 1, rp, tp, res, mwords, mchars =>
    match rp.dropWhile isspace with
    | [] => some (res, mwords, mchars)
    | c :: rp1 =>
      let rw := collect_word 255 (c :: rp1)
      let res1 := { res with total_words := res.total_words + 1 }
      let tw := collect_word 255 (tp.dropWhile isspace)
      let ref_word := rw.1
      let typed_word := tw.1
      if ref_word = typed_word then
        word_loop fuel rw.2 tw.2 { res1 with correct_words := res1.correct_words + 1 }
          mwords mchars
      else
        let mwords1 := map_add mwords (some ref_word) 1
        let rwlen := ref_word.length
        let twlen := typed_word.length
        let minw := if rwlen < twlen then rwlen else twlen
        let mc1 := for_loop 0 minw (fun j mc =>
          if typed_word.getD j NUL ≠ ref_word.getD j NUL then
            map_add_char mc (typed_word.getD j NUL) 1
          else mc) mchars
        let mc2 := for_loop rwlen twlen (fun j mc =>
          map_add_char mc (typed_word.getD j NUL) 1) mc1
        word_loop fuel rw.2 tw.2 res1 mwords1 mc2

/-- The function `compare_and_update` of `main2.c` (268-342): the result and the two maps. -/
def compare_and_update (ref typed : Option CStr) (mwords mchars : Map) :
    Option (CompareResult × Map × Map) :=
  let ref := ref.getD []
  let typed := typed.getD []
  let rlen := ref.length
  let tlen := typed.length
  let res0 : CompareResult := ⟨0, rlen, 0, 0⟩
  let minlen := if rlen < tlen then rlen else tlen
  let res1 := for_loop 0 minlen (fun i (res : CompareResult) =>
    if typed.getD i NUL = ref.getD i NUL then
      { res with correct_chars := res.correct_chars + 1 }
    else res) res0
  word_loop (ref.length + 1) ref typed res1 mwords mchars

end Main2

/-! ## Reading and writing a map file, continued -/

/-- The bytes that `fgets` stores for one call with `room` bytes left in the
buffer: bytes are taken from the stream until the room is used up, the stream
ends, or a newline has been stored.  The result is the stored bytes and the
rest of the stream. -/
def fgets_read : Nat → CStr → CStr × CStr
  | 0, stream => ([], stream)
  | _ + 1, [] => ([], [])
  | room + 1, c :: stream =>
    if c = '\n' then ([c], stream)
    else (c :: (fgets_read room stream).1, (fgets_read room stream).2)

/-- The libc `fgets(line, size, f)` on the unread part of the file: `NULL` at
the end of the file, otherwise a line of at most `size - 1` bytes. -/
def fgets (size : Nat) (stream : CStr) : Option CStr × CStr :=
  match stream with
  | [] => (none, [])
  | _ :: _ => (some (fgets_read (size - 1) stream).1, (fgets_read (size - 1) stream).2)

/-- The read loop of `load_map_from_file`:
`while (fgets(line, sizeof(line), f))` with `char line[MAX_LINE]`. -/
def load_map_loop : Nat → Map → CStr → Option Map
  | 0, _, _ => none
  | fuel + 1, m, stream =>
    match fgets MAX_LINE stream with
    | (none, _) => some m
    | (some line, rest) => load_map_loop fuel (load_map_line m line) rest

/-- The function `load_map_from_file(m, filename)` (`main.c` 109-123,
`main2.c` 148-172): `file` is the text of the file, `none` when it cannot be
opened, which leaves the map as it is. -/
def load_map_from_file (m : Map) (file : Option CStr) : Option Map :=
  match file with
  | none => some m
  | some content => load_map_loop (content.length + 1) m content

/-- The text that `fprintf` writes for `%ld`: a minus sign for a negative
value, and the decimal digits. -/
def print_long (n : Int) : CStr :=
  if n < 0 then '-' :: Nat.toDigits 10 n.natAbs else Nat.toDigits 10 n.toNat

/-- The function `save_map_to_file(m, filename)` (`main.c` 124-131, `main2.c`
174-185) for a file that can be opened: the text written, one
`fprintf(f, "%s\t%ld\n", key, count)` per entry, in the order of the map. -/
def save_map_to_file (m : Map) : CStr :=
  m.flatMap (fun e => e.key ++ ['\t'] ++ print_long e.count ++ ['\n'])

/-! ## Ranking (`main.c` 99-104 and 256-267, `main2.c` 133-145 and 375-409) -/

/-- The sign of the libc `strcmp`: that of the difference of the first two
bytes that differ, taken as unsigned bytes, a string that ends first being the
smaller one; 0 for equal strings.  (C fixes only the sign of the result.) -/
def strcmp : CStr → CStr → Int
  | [], [] => 0
  | [], _ :: _ => -1
  | _ :: _, [] => 1
  | a :: s, b :: t =>
    if a.toNat = b.toNat then strcmp s t else if a.toNat < b.toNat then -1 else 1

/-- The comparator `cmp_kc_desc(a, b)`: the larger count first, equal counts
in `strcmp` order of the keys. -/
def cmp_kc_desc (A B : KeyCount) : Int :=
  if B.count < A.count then -1
  else if B.count > A.count then 1
  else strcmp A.key B.key

/-- The libc `qsort` with comparator `cmp`: the elements in an order in which
`cmp a b <= 0` for every `a` placed before `b`.  (Insertion sort here; for
`cmp_kc_desc` every sorting algorithm gives the same list, see
`qsort_unique`.) -/
def qsort {α : Type} (cmp : α → α → Int) (l : List α) : List α :=
  l.insertionSort (fun a b => cmp a b ≤ 0)

/-- The function `show_top_map(m, n)`: the entries it prints, in the order of
printing; nothing for an empty map (for which it prints `(none)`). -/
def show_top_map (m : Map) (n : Int) : List KeyCount :=
  if m.length = 0 then []
  else
    let copy := qsort cmp_kc_desc m
    let limit : Int := if n < (m.length : Int) then n else (m.length : Int)
    copy.take limit.toNat

/-- The constant `TOP_N`. -/
def TOP_N : Nat := 10

/-- The entries that `training_mode` selects from a map (`main.c` 411-414 and
446-449, `main2.c` 598-609 and 683-694): the first `min(n, TOP_N)` entries of
the sorted copy. -/
def training_selection (m : Map) : List KeyCount :=
  let copy := qsort cmp_kc_desc m
  let n := if m.length < TOP_N then m.length else TOP_N
  copy.take n

/-- The order of the listing: `a` may stand before `b` when its count is
larger, or the counts are equal and the key of `a` is not behind the key of
`b` in the byte-wise order of `strcmp`. -/
def ranked_before (a b : KeyCount) : Prop :=
  b.count < a.count ∨ (a.count = b.count ∧ strcmp a.key b.key ≤ 0)

/-! ## Metrics (`main.c` 345-348 and 380-382, `main2.c` 510-520 and 547-556)

A `double` is modelled as an exact rational number. -/

/-- The gross words per minute of `secs` seconds for `typed_len` typed bytes:
`minutes = secs / 60.0; (minutes > 0.0) ? (typed_len / 5.0) / minutes : 0.0`. -/
def gross_wpm (secs : ℚ) (typed_len : Nat) : ℚ :=
  let minutes := secs / 60
  if minutes > 0 then ((typed_len : ℚ) / 5) / minutes else 0

/-- The accuracy in percent:
`(typed_len > 0) ? correct_chars / typed_len * 100.0 : 0.0`. -/
def accuracy (correct_chars typed_len : Nat) : ℚ :=
  if typed_len > 0 then (correct_chars : ℚ) / (typed_len : ℚ) * 100 else 0

/-! ## Aggregate statistics (`main.c` 147-165, `main2.c` 204-234)

The stats file is the list of its bytes, and `fscanf` reads it with the format
`"%*[^,],%lf,%lf,%ld\n"`, directive by directive.  The values of the type
`double` and the operations on them that `compute_aggregate_stats` uses are
parameters of the model, so that no rounding is assumed to be exact. -/

/-- The arithmetic of the type `double` as far as `compute_aggregate_stats`
uses it: the constant `0.0`, the sum `a + b`, the quotient `a / b`, the
comparison `a > b`, the conversion `(double)n` of a `size_t`, and the value
that the conversion `%lf` stores for the numeral it has read. -/
structure DoubleOps (D : Type) where
  zero : D
  add : D → D → D
  div : D → D → D
  gt : D → D → Bool
  of_size : Nat → D
  strtod : CStr → D

/-- The four results of `compute_aggregate_stats`. -/
structure AggregateStats (D : Type) where
  avg_wpm : D
  best_wpm : D
  avg_acc : D
  sessions : Nat

/-- The libc `isdigit`. -/
def isdigit (c : Char) : Bool := decide ('0' ≤ c ∧ c ≤ '9')

/-- The outcome of one numeric conversion of `fscanf`: `stored text rest` when
the conversion succeeds, `text` being the numeral it has read and `rest` the
stream behind it; `failed` when no number stands at this place of the stream
(a matching failure, or an input failure at the end of the file);
`unmodelled` when the input is in one of the forms of a number that are not
modelled here (an exponent, a hexadecimal number, `inf`, `nan`, a point
without digits on one of its sides). -/
inductive Conversion where
  | stored (text rest : CStr)
  | failed
  | unmodelled
deriving DecidableEq

/-- The optional sign in front of a number: the sign and the stream behind
it. -/
def scan_sign : CStr → CStr × CStr
  | '-' :: r => (['-'], r)
  | '+' :: r => (['+'], r)
  | r => ([], r)

/-- The conversion `%lf`: white space is skipped, then an optional sign, the
digits before the point and, if a point follows, the digits behind it are
read. -/
def scan_double (s : CStr) : Conversion :=
  let p := scan_sign (s.dropWhile isspace)
  let ip := p.2.takeWhile isdigit
  let r1 := p.2.dropWhile isdigit
  if ip = [] then
    match r1 with
    | [] => .failed
    | c :: _ =>
      if c = '.' ∨ c = 'i' ∨ c = 'I' ∨ c = 'n' ∨ c = 'N' then .unmodelled else .failed
  else
    match r1 with
    | [] => .stored (p.1 ++ ip) []
    | '.' :: r2 =>
      let fp := r2.takeWhile isdigit
      let r3 := r2.dropWhile isdigit
      if fp = [] then .unmodelled
      else
        match r3 with
        | [] => .stored (p.1 ++ ip ++ '.' :: fp) []
        | c :: _ =>
          if c = 'e' ∨ c = 'E' then .unmodelled else .stored (p.1 ++ ip ++ '.' :: fp) r3
    | c :: _ =>
      if c = 'e' ∨ c = 'E' ∨ c = 'x' ∨ c = 'X' then .unmodelled else .stored (p.1 ++ ip) r1

/-- The conversion `%ld`: white space is skipped, then an optional sign and
the decimal digits are read; without a digit the conversion fails. -/
def scan_long (s : CStr) : Conversion :=
  let p := scan_sign (s.dropWhile isspace)
  let ds := p.2.takeWhile isdigit
  if ds = [] then .failed else .stored (p.1 ++ ds) (p.2.dropWhile isdigit)

/-- The outcome of one call `fscanf(f, "%*[^,],%lf,%lf,%ld\n", &wpm, &acc,
&ch)`: `row wpm acc ch rest` when the call returns 3, with the numerals read
for the three variables and the stream behind the call; `stop` when it returns
less than 3 or `EOF`; `unmodelled` when a conversion meets a number in a form
that is not modelled. -/
inductive RowScan where
  | row (wpm acc ch rest : CStr)
  | stop
  | unmodelled
deriving DecidableEq

/-- One call `fscanf(f, "%*[^,],%lf,%lf,%ld\n", &wpm, &acc, &ch)` on the
stream: `%*[^,]` reads the longest run of bytes other than the comma, newlines
included, and fails when the run is empty; each `,` of the format must be the
next byte of the stream; the white space at the end of the format skips all
white space that follows the third number. -/
def fscanf_row (stream : CStr) : RowScan :=
  if stream.takeWhile (fun c => c != ',') = [] then .stop
  else
    match stream.dropWhile (fun c => c != ',') with
    | [] => .stop
    | _ :: s1 =>
      match scan_double s1 with
      | .failed => .stop
      | .unmodelled => .unmodelled
      | .stored wpm s2 =>
        match s2 with
        | ',' :: s3 =>
          match scan_double s3 with
          | .failed => .stop
          | .unmodelled => .unmodelled
          | .stored acc s4 =>
            match s4 with
            | ',' :: s5 =>
              match scan_long s5 with
              | .failed => .stop
              | .unmodelled => .unmodelled
              | .stored ch s6 => .row wpm acc ch (s6.dropWhile isspace)
            | _ => .stop
        | _ => .stop

/-- The body of the scan loop of `compute_aggregate_stats` for a row with the
numerals `wpm` and `acc`:
`(*sessions)++; *avg_wpm += wpm; *avg_acc += acc;
if (wpm > *best_wpm) *best_wpm = wpm;`. -/
def stats_step {D : Type} (ops : DoubleOps D) (a : AggregateStats D) (wpm acc : CStr) :
    AggregateStats D :=
  { sessions := a.sessions + 1,
    avg_wpm := ops.add a.avg_wpm (ops.strtod wpm),
    avg_acc := ops.add a.avg_acc (ops.strtod acc),
    best_wpm := if ops.gt (ops.strtod wpm) a.best_wpm then ops.strtod wpm else a.best_wpm }

/-- The scan loop `while (fscanf(...) == 3) { ... }` of
`compute_aggregate_stats` on the stream; the fuel bounds the number of rounds
(`none` when it runs out, and when the input is not modelled). -/
def stats_loop {D : Type} (ops : DoubleOps D) :
    Nat → CStr → AggregateStats D → Option (AggregateStats D)
  | 0, _, _ => none
  | fuel + 1, stream, a =>
    match fscanf_row stream with
    | .stop => some a
    | .unmodelled => none
    | .row wpm acc _ rest => stats_loop ops fuel rest (stats_step ops a wpm acc)

/-- The function `compute_aggregate_stats`: `file` is the content of the stats
file, `none` when the file cannot be opened; the result is `none` when the
file holds a number in a form that is not modelled. -/
def compute_aggregate_stats {D : Type} (ops : DoubleOps D) (file : Option CStr) :
    Option (AggregateStats D) :=
  let a0 : AggregateStats D := ⟨ops.zero, ops.zero, ops.zero, 0⟩
  match file with
  | none => some a0
  | some content =>
    match stats_loop ops (content.length + 1) content a0 with
    | none => none
    | some a =>
      if a.sessions > 0 then
        some { a with avg_wpm := ops.div a.avg_wpm (ops.of_size a.sessions),
                      avg_acc := ops.div a.avg_acc (ops.of_size a.sessions) }
      else some a

/-! ## Line input and character training -/

namespace Main

/-- The function `trim_newline(s)` of `main.c` (170-176) on the buffer that
holds the string `s`: a NUL is written over `s[l-1]` if it is a newline, and
over `s[l-2]` if that byte is a carriage return, where `l` is the length of
`s` on entry; the result is the string the buffer holds afterwards. -/
def trim_newline (s : CStr) : CStr :=
  let l := s.length
  if l = 0 then s
  else
    let buf1 := if s.getD (l - 1) NUL = '\n' then s.set (l - 1) NUL else s
    let buf2 := if l ≥ 2 ∧ buf1.getD (l - 2) NUL = '\r' then buf1.set (l - 2) NUL else buf1
    cstr buf2

end Main

namespace Main2

/-- The function `trim_newline(s)` of `main2.c` (237-251): as in `main.c`, but
the length is decremented when the newline is removed, and the carriage return
is looked for at the new end `s[l-1]`. -/
def trim_newline (s : CStr) : CStr :=
  let l := s.length
  if l = 0 then s
  else
    let buf1 := if s.getD (l - 1) NUL = '\n' then s.set (l - 1) NUL else s
    let l1 := if s.getD (l - 1) NUL = '\n' then l - 1 else l
    let buf2 := if l1 > 0 ∧ buf1.getD (l1 - 1) NUL = '\r' then buf1.set (l1 - 1) NUL else buf1
    cstr buf2

end Main2

/-- One repetition of the character training of `training_mode` (`main.c`
463-472, `main2.c` 724-736) on the two maps: the typed line (`NULL` read as the
empty string) is checked against the target character at its first byte, and
a mismatch is counted with `map_add_char(mchars, target, 1)`. -/
def training_char_rep (mwords mchars : Map) (target : Char) (typed : Option CStr) :
    Map × Map :=
  let typed := typed.getD []
  if typed.getD 0 NUL ≠ target then (mwords, map_add_char mchars target 1)
  else (mwords, mchars)

/-! ## Reachable maps -/

/-- The maps that the program can hold: the empty map of `map_init`, and every
map obtained from such maps by `map_add`, `map_add_char`, `load_map_from_file`
or as the word map or the character map left by `compare_and_update` (of
`main.c` or of `main2.c`). -/
inductive Reachable : Map → Prop
  | init : Reachable map_init
  | add (m : Map) (k : Option CStr) (d : Int) : Reachable m → Reachable (map_add m k d)
  | add_char (m : Map) (ch : Char) (d : Int) : Reachable m → Reachable (map_add_char m ch d)
  | load (m : Map) (file : Option CStr) (m1 : Map) :
      Reachable m → load_map_from_file m file = some m1 → Reachable m1
  | compare_words (ref typed : Option CStr) (mw mc : Map) (res : CompareResult) (mw1 mc1 : Map) :
      Reachable mw → Reachable mc →
      Main.compare_and_update ref typed mw mc = some (res, mw1, mc1) → Reachable mw1
  | compare_chars (ref typed : Option CStr) (mw mc : Map) (res : CompareResult) (mw1 mc1 : Map) :
      Reachable mw → Reachable mc →
      Main.compare_and_update ref typed mw mc = some (res, mw1, mc1) → Reachable mc1
  | compare2_words (ref typed : Option CStr) (mw mc : Map) (res : CompareResult) (mw1 mc1 : Map) :
      Reachable mw → Reachable mc →
      Main2.compare_and_update ref typed mw mc = some (res, mw1, mc1) → Reachable mw1
  | compare2_chars (ref typed : Option CStr) (mw mc : Map) (res : CompareResult) (mw1 mc1 : Map) :
      Reachable mw → Reachable mc →
      Main2.compare_and_update ref typed mw mc = some (res, mw1, mc1) → Reachable mc1

/-! ## Operator input of a count, and the practice session -/

/-- The constant `INT_MAX` of a 32-bit `int`. -/
def INT_MAX : Int := 2147483647

/-- The constant `INT_MIN` of a 32-bit `int`. -/
def INT_MIN : Int := -2147483648

/-- The libc `atoi`: the value that `atol` reads, when it is in the range of
`int`; outside of it the behaviour is undefined (`none`). -/
def atoi (s : CStr) : Option Int :=
  if INT_MIN ≤ atol s ∧ atol s ≤ INT_MAX then some (atol s) else none

/-- The number of items of a practice session chosen by the input line
(`main.c` 309-310, `main2.c` 454-456): `n = atoi(nstr); if (n <= 0) n = 10;`. -/
def practice_item_count (nstr : CStr) : Option Int :=
  (atoi nstr).map (fun n => if n ≤ 0 then 10 else n)

/-- The number of rounds of the word training chosen by the input line
(`main.c` 420, `main2.c` 621-625): `rounds = atoi(s); if (rounds <= 0) rounds = 2;`. -/
def training_rounds (s : CStr) : Option Int :=
  (atoi s).map (fun rounds => if rounds ≤ 0 then 2 else rounds)

/-- The number of repetitions of the character training chosen by the input
line (`main.c` 454, `main2.c` 706-709): `reps = atoi(s); if (reps <= 0) reps = 5;`. -/
def training_reps (s : CStr) : Option Int :=
  (atoi s).map (fun reps => if reps ≤ 0 then 5 else reps)

/-- The running totals of `start_practice`. -/
structure SessionTotals where
  total_chars_typed : Nat
  total_correct_chars : Nat
  total_words : Nat
  total_correct_words : Nat
deriving DecidableEq

namespace Main

/-- The item loop of `start_practice` of `main.c` (318-343) over the reference
items drawn and the lines typed for them: each pair goes through
`compare_and_update` with the two global maps and is added to the totals. -/
def practice_loop : List (CStr × CStr) → SessionTotals → Map → Map →
    Option (SessionTotals × Map × Map)
  | [], t, mwords, mchars => some (t, mwords, mchars)
  | (ref, typed) :: rest, t, mwords, mchars =>
    match compare_and_update (some ref) (some typed) mwords mchars with
    | none => none
    | some (cres, mwords1, mchars1) =>
      practice_loop rest
        { total_chars_typed := t.total_chars_typed + typed.length,
          total_correct_chars := t.total_correct_chars + cres.correct_chars,
          total_words := t.total_words + cres.total_words,
          total_correct_words := t.total_correct_words + cres.correct_words }
        mwords1 mchars1

end Main

namespace Main2

/-- One item of `start_practice` of `main2.c` (500-543): the word mistakes of
the item are recorded in a fresh map `item_mwords`, the character mistakes in
the global character map, and the entries of `item_mwords` are then added to
the global word map with `map_add(mwords, key, count)`, in their order. -/
def practice_item (ref typed : CStr) (mwords mchars : Map) :
    Option (CompareResult × Map × Map) :=
  match compare_and_update (some ref) (some typed) map_init mchars with
  | none => none
  | some (cres, item_mwords, mchars1) =>
    some (cres,
      for_loop 0 item_mwords.length (fun j mw =>
        match item_mwords.get? j with
        | some e => map_add mw (some e.key) e.count
        | none => mw) mwords,
      mchars1)

end Main2

/-! ## Definitions used to state and prove the claims -/

/-- The mistakes recorded by a run of `map_add(m, k, 1)` over the keys `ks`. -/
def add_keys (m : Map) (ks : List CStr) : Map :=
  ks.foldl (fun m k => map_add m (some k) 1) m

/-- The keys recorded by the overlap loop of `main.c` over the indices `l`. -/
def overlap_keys (ref typed : CStr) (l : List Nat) : List CStr :=
  l.filterMap (fun i =>
    if typed.getD i NUL = ref.getD i NUL then none else some (cstr [ref.getD i NUL, NUL]))

namespace Main

/-- The keys that `compare_and_update` of `main.c` records in the character
map, in the order of recording. -/
def char_keys (ref typed : CStr) : List CStr :=
  overlap_keys ref typed (List.range (min ref.length typed.length)) ++
    (if typed.length < ref.length then
      (List.range' typed.length (ref.length - typed.length)).map
        (fun i => cstr [ref.getD i NUL, NUL])
    else if typed.length > ref.length then
      (List.range' ref.length (typed.length - ref.length)).map
        (fun i => cstr [typed.getD i NUL, NUL])
    else [])

/-- The number of overlap positions at which the two strings agree. -/
def agree_count (ref typed : CStr) : Nat :=
  (List.range (min ref.length typed.length)).countP
    (fun i => typed.getD i NUL == ref.getD i NUL)

end Main

/-- The tokens of `s` for the separator test `sep`: `s` is split at every
separator and the empty pieces are dropped, which leaves the maximal runs of
bytes that are not separators. -/
def tokens_by (sep : Char → Bool) (s : CStr) : List CStr :=
  (s.splitOnP sep).filter (fun t => !t.isEmpty)

/-- The delimiter test of `strtok_r(_, " \t", _)`: space or tab. -/
def is_blank (c : Char) : Bool := c = ' ' || c = '\t'

namespace Main

/-- The word comparison of `main.c` over the token lists: the `i`-th reference
token is paired with the `i`-th typed token, if there is one. -/
def pair_words : List CStr → List CStr → CompareResult → Map → CompareResult × Map
  | [], _, res, mwords => (res, mwords)
  | r :: rs, ts, res, mwords =>
    if ts.head? = some r then
      pair_words rs ts.tail
        { res with total_words := res.total_words + 1,
                   correct_words := res.correct_words + 1 } mwords
    else
      pair_words rs ts.tail { res with total_words := res.total_words + 1 }
        (map_add mwords (some r) 1)

/-- The reference tokens that are recorded as word mistakes: those whose typed
partner is missing or different. -/
def word_keys : List CStr → List CStr → List CStr
  | [], _ => []
  | r :: rs, ts =>
    if ts.head? = some r then word_keys rs ts.tail else r :: word_keys rs ts.tail

/-- The number of reference tokens whose typed partner is equal. -/
def word_hits : List CStr → List CStr → Nat
  | [], _ => 0
  | r :: rs, ts =>
    if ts.head? = some r then word_hits rs ts.tail + 1 else word_hits rs ts.tail

/-- The tokens that `main.c` sees in a string: those of the copy of its first
`MAX_LINE - 1` bytes, split at spaces and tabs. -/
def ref_tokens (s : CStr) : List CStr := tokens_by is_blank (s.take (MAX_LINE - 1))

end Main

/-- The growth that claim C1 states for the key of the character `c`: the
mismatched overlap positions whose reference byte is `c`, the reference
positions behind the end of `typed` that hold `c`, and the typed positions
behind the end of `ref` that hold `c`. -/
def char_mistakes (ref typed : CStr) (c : Char) : Nat :=
  (List.range (min ref.length typed.length)).countP
      (fun i => decide (ref.getD i NUL ≠ typed.getD i NUL) && decide (ref.getD i NUL = c)) +
    (List.range ref.length).countP
      (fun i => decide (typed.length ≤ i) && decide (ref.getD i NUL = c)) +
    (List.range typed.length).countP
      (fun i => decide (ref.length ≤ i) && decide (typed.getD i NUL = c))

/-- The growth that claim C1 states for a key of the character map: that of
`char_mistakes` for the key of a character, none for every other key. -/
def char_growth (ref typed : CStr) (k : CStr) : Nat :=
  match k with
  | [c] => char_mistakes ref typed c
  | _ => 0

/-- The number of correct words that claim C3 states for the token lists `rs`
of the reference and `ts` of the typed line: the `i < k` with `i < m` and
`r_i = t_i`. -/
def claimed_correct_words (rs ts : List CStr) : Nat :=
  (List.range rs.length).countP (fun i => decide (i < ts.length) && decide (rs[i]? = ts[i]?))

/-- The growth that claim C3 states for the word `w`: the `i < k` with
`r_i = w` and (`i >= m` or `r_i != t_i`). -/
def claimed_word_mistakes (rs ts : List CStr) (w : CStr) : Nat :=
  (List.range rs.length).countP (fun i =>
    decide (rs[i]? = some w) && (decide (ts.length ≤ i) || !decide (rs[i]? = ts[i]?)))

/-- The lines of a text: each line ends behind its newline; the last line may
lack one. -/
def text_lines : CStr → List CStr
  | [] => []
  | c :: s =>
    if c = '\n' then [c] :: text_lines s
    else
      match text_lines s with
      | [] => [[c]]
      | l :: ls => (c :: l) :: ls

/-- The count field of a line of a map file: the text behind the first tab
(empty when the line has no tab). -/
def count_field (line : CStr) : CStr := (line.dropWhile (fun c => c != '\t')).drop 1

/-- The largest value of the type `long` (64 bits, as on the Linux, macOS and
Cygwin platforms the program is built for). -/
def LONG_MAX : Int := 9223372036854775807

/-- The smallest value of the type `long`. -/
def LONG_MIN : Int := -9223372036854775808

/-- The map files that `load_map_from_file` reads as text: no byte of the file
is NUL (so that the C string in the line buffer is the whole line that
`fgets` has read), every line is at most 511 bytes long, the newline included
(so that `fgets` reads it in one piece), and the number in every count field is
in the range of `long` (where the result of `atol` is defined). -/
def text_map_file (content : CStr) : Prop :=
  NUL ∉ content ∧
  ∀ l ∈ text_lines content,
    l.length ≤ 511 ∧ LONG_MIN ≤ atol (count_field l) ∧ atol (count_field l) ≤ LONG_MAX

/-- The line that `save_map_to_file` writes for an entry. -/
def entry_line (e : KeyCount) : CStr :=
  e.key ++ ['\t'] ++ print_long e.count ++ ['\n']

/-- The merge of `start_practice` of `main2.c` as a fold over the entries. -/
def merge_words (item mwords : Map) : Map :=
  item.foldl (fun m e => map_add m (some e.key) e.count) mwords

/-- The integer that a line of decimal digits denotes. -/
def decimal_value (ds : CStr) : Nat :=
  ds.foldl (fun a c => a * 10 + (c.toNat - '0'.toNat)) 0

/-- A number with a decimal point, as `append_session_stats` writes it with
`%.2f`: the digits before the point and the digits behind it. -/
structure Fixed where
  ip : CStr
  fp : CStr
deriving DecidableEq

/-- A well-formed row of the stats file, as `append_session_stats` writes it
with `"%s,%.2f,%.2f,%ld\n"`: the timestamp, the words per minute, the
accuracy and the number of characters. -/
structure StatsRow where
  ts : CStr
  wpm : Fixed
  acc : Fixed
  ch : CStr
deriving DecidableEq

/-- A non-empty run of decimal digits. -/
abbrev digits (t : CStr) : Prop := t ≠ [] ∧ ∀ c ∈ t, isdigit c = true

/-- The text of a number with a decimal point. -/
def fixed_text (x : Fixed) : CStr := x.ip ++ '.' :: x.fp

/-- The line of the stats file that holds the row, newline included. -/
def row_text (r : StatsRow) : CStr :=
  r.ts ++ ',' :: (fixed_text r.wpm ++ ',' :: (fixed_text r.acc ++ ',' :: (r.ch ++ ['\n'])))

/-- The row is well-formed: the timestamp has no comma and is not blank, and
the three numbers are written in digits. -/
abbrev row_wf (r : StatsRow) : Prop :=
  ',' ∉ r.ts ∧ (∃ c ∈ r.ts, isspace c = false) ∧
  digits r.wpm.ip ∧ digits r.wpm.fp ∧ digits r.acc.ip ∧ digits r.acc.fp ∧ digits r.ch

/-- The stats file that holds the rows, one after the other. -/
def rows_text (rows : List StatsRow) : CStr := rows.flatMap row_text

/-- The accumulators of `compute_aggregate_stats` after the scan loop has
taken the rows in turn. -/
def stats_rows {D : Type} (ops : DoubleOps D) (rows : List StatsRow) (a : AggregateStats D) :
    AggregateStats D :=
  rows.foldl (fun a r => stats_step ops a (fixed_text r.wpm) (fixed_text r.acc)) a

/-- The result of `compute_aggregate_stats` when the scan loop has taken the
rows: the accumulators after the loop, the two sums divided by the number of
sessions when there is one. -/
def stats_result {D : Type} (ops : DoubleOps D) (rows : List StatsRow) : AggregateStats D :=
  let a := stats_rows ops rows ⟨ops.zero, ops.zero, ops.zero, 0⟩
  if a.sessions > 0 then
    { a with avg_wpm := ops.div a.avg_wpm (ops.of_size a.sessions),
             avg_acc := ops.div a.avg_acc (ops.of_size a.sessions) }
  else a

/-- The row with the text `it.1` in front of its timestamp: what `%*[^,]`
reads when the text `it.1`, without a comma, stands in the file before the
row `it.2`. -/
def absorb (it : CStr × StatsRow) : StatsRow := { it.2 with ts := it.1 ++ it.2.ts }

/-- The stats file that holds the rows `it.2`, each behind the text `it.1`. -/
def junk_text (items : List (CStr × StatsRow)) : CStr :=
  items.flatMap (fun it => it.1 ++ row_text it.2)

/-! ## Lemmas -/

theorem map_get_nil (k : CStr) : map_get [] k = none := rfl

theorem map_get_cons (e : KeyCount) (m : Map) (k : CStr) :
    map_get (e :: m) k = if e.key = k then some e.count else map_get m k := by
  unfold map_get
  by_cases h : e.key = k <;> simp [List.find?_cons, h]

theorem map_get_add_scan (m : Map) (k k2 : CStr) (d : Int) :
    map_get (map_add_scan k d m) k2 =
      if k2 = k then some (map_count m k + d) else map_get m k2 := by
  induction m with
  | nil =>
    simp only [map_add_scan, map_get_cons, map_get_nil, map_count, Option.getD_none]
    by_cases h : k2 = k
    · simp [h]
    · have h2 : ¬ k = k2 := fun e => h e.symm
      simp [h, h2]
  | cons e rest ih =>
    unfold map_add_scan
    by_cases he : e.key = k
    · simp only [he, if_true, map_get_cons, map_count]
      by_cases h : k2 = k
      · simp [h]
      · have h2 : ¬ k = k2 := fun e => h e.symm
        simp [h, h2]
    · simp only [he, if_false, map_get_cons, ih, map_count]
      by_cases h : k2 = k
      · subst h
        simp [he]
      · simp [h]

theorem map_count_add_scan (m : Map) (k k2 : CStr) (d : Int) :
    map_count (map_add_scan k d m) k2 = map_count m k2 + (if k2 = k then d else 0) := by
  unfold map_count
  rw [map_get_add_scan]
  by_cases h : k2 = k
  · subst h
    simp [map_count]
  · simp [h]

theorem map_total_add_scan (m : Map) (k : CStr) (d : Int) :
    map_total (map_add_scan k d m) = map_total m + d := by
  induction m with
  | nil => simp [map_add_scan, map_total]
  | cons e rest ih =>
    unfold map_add_scan
    by_cases he : e.key = k
    · simp only [he, if_true, map_total, List.map_cons, List.sum_cons]
      ring
    · simp only [he, if_false]
      simp only [map_total, List.map_cons, List.sum_cons] at ih ⊢
      rw [ih]
      ring

theorem add_keys_nil (m : Map) : add_keys m [] = m := rfl

theorem add_keys_cons (m : Map) (k : CStr) (ks : List CStr) :
    add_keys m (k :: ks) = add_keys (map_add_scan k 1 m) ks := rfl

theorem add_keys_append (m : Map) (ks ks2 : List CStr) :
    add_keys m (ks ++ ks2) = add_keys (add_keys m ks) ks2 := by
  simp [add_keys, List.foldl_append]

theorem map_count_add_keys (m : Map) (ks : List CStr) (k : CStr) :
    map_count (add_keys m ks) k = map_count m k + ks.count k := by
  induction ks generalizing m with
  | nil => simp [add_keys_nil]
  | cons a ks ih =>
    rw [add_keys_cons, ih, map_count_add_scan, List.count_cons]
    by_cases h : k = a
    · subst h
      simp
      ring
    · have h2 : ¬ a = k := fun e => h e.symm
      simp [h, h2]

theorem map_get_add_keys (m : Map) (ks : List CStr) (k : CStr) :
    map_get (add_keys m ks) k =
      if ks.count k = 0 then map_get m k else some (map_count m k + ks.count k) := by
  induction ks generalizing m with
  | nil => simp [add_keys_nil]
  | cons a ks ih =>
    rw [add_keys_cons, ih, map_get_add_scan, map_count_add_scan, List.count_cons]
    by_cases h : k = a
    · subst h
      by_cases hc : List.count k ks = 0
      · simp [hc]
      · simp [hc]
        ring
    · have h2 : ¬ a = k := fun e => h e.symm
      simp [h, h2]

theorem map_total_add_keys (m : Map) (ks : List CStr) :
    map_total (add_keys m ks) = map_total m + ks.length := by
  induction ks generalizing m with
  | nil => simp [add_keys_nil]
  | cons a ks ih =>
    rw [add_keys_cons, ih, map_total_add_scan]
    simp
    ring

theorem cstr_char (c : Char) (h : c ≠ NUL) : cstr [c, NUL] = [c] := by
  simp [cstr, h]

theorem cstr_nul : cstr [NUL, NUL] = [] := by
  simp [cstr]

theorem getD_ne_nul (s : CStr) (hs : NUL ∉ s) (i : Nat) (hi : i < s.length) :
    s.getD i NUL ≠ NUL := by
  intro h
  apply hs
  rw [← h, List.getD_eq_getElem s NUL hi]
  exact List.getElem_mem hi

/-- A loop that records one key per index is a run of `map_add(_, key, 1)`. -/
theorem foldl_map_add_char (f : Nat → Char) (l : List Nat) (mc : Map) :
    l.foldl (fun mc i => map_add_char mc (f i) 1) mc =
      add_keys mc (l.map (fun i => cstr [f i, NUL])) := by
  induction l generalizing mc with
  | nil => rfl
  | cons i l ih =>
    simp only [List.foldl_cons, List.map_cons, add_keys_cons]
    rw [ih]
    rfl

theorem foldl_overlap (ref typed : CStr) (l : List Nat) (res : CompareResult) (mc : Map) :
    l.foldl (fun (s : CompareResult × Map) i =>
      if typed.getD i NUL = ref.getD i NUL then
        ({ s.1 with correct_chars := s.1.correct_chars + 1 }, s.2)
      else (s.1, map_add_char s.2 (ref.getD i NUL) 1)) (res, mc) =
    ({ res with correct_chars :=
        res.correct_chars + l.countP (fun i => typed.getD i NUL == ref.getD i NUL) },
      add_keys mc (overlap_keys ref typed l)) := by
  induction l generalizing res mc with
  | nil => simp [overlap_keys, add_keys_nil]
  | cons i l ih =>
    simp only [List.foldl_cons]
    by_cases h : typed.getD i NUL = ref.getD i NUL
    · simp only [h, if_true]
      rw [ih]
      simp only [overlap_keys, List.filterMap_cons, h, if_true, List.countP_cons, beq_self_eq_true,
        Nat.add_assoc, Nat.add_comm 1]
    · simp only [h, if_false]
      rw [ih]
      have hb : (typed.getD i NUL == ref.getD i NUL) = false := by simpa using h
      simp only [overlap_keys, List.filterMap_cons, h, if_false, List.countP_cons, hb,
        add_keys_cons, map_add_char, map_add, Nat.add_zero, Bool.false_eq_true]

theorem foldl_correct_only (ref typed : CStr) (l : List Nat) (res : CompareResult) :
    l.foldl (fun (res : CompareResult) i =>
      if typed.getD i NUL = ref.getD i NUL then
        { res with correct_chars := res.correct_chars + 1 }
      else res) res =
    { res with correct_chars :=
        res.correct_chars + l.countP (fun i => typed.getD i NUL == ref.getD i NUL) } := by
  induction l generalizing res with
  | nil => simp
  | cons i l ih =>
    simp only [List.foldl_cons]
    by_cases h : typed.getD i NUL = ref.getD i NUL
    · simp only [h, if_true]
      rw [ih]
      simp only [List.countP_cons, h, beq_self_eq_true, if_true, Nat.add_assoc, Nat.add_comm 1]
    · simp only [h, if_false]
      rw [ih]
      have hb : (typed.getD i NUL == ref.getD i NUL) = false := by simpa using h
      simp only [List.countP_cons, hb, Nat.add_zero, Bool.false_eq_true, if_false]

namespace Main

/-- The character part of `compare_and_update` of `main.c` in closed form. -/
theorem compare_and_update_chars (ref typed : CStr) (mwords mchars : Map) :
    compare_and_update (some ref) (some typed) mwords mchars =
      match word_loop ((ref.take (MAX_LINE - 1)).length + 1) (ref.take (MAX_LINE - 1))
          (typed.take (MAX_LINE - 1)) ⟨agree_count ref typed, ref.length, 0, 0⟩ mwords with
      | none => none
      | some (res, mwords1) => some (res, mwords1, add_keys mchars (char_keys ref typed)) := by
  have hmin : (if ref.length < typed.length then ref.length else typed.length) =
      min ref.length typed.length := by
    by_cases h : ref.length < typed.length
    · simp [h, Nat.min_eq_left (Nat.le_of_lt h)]
    · simp [h, Nat.min_eq_right (Nat.le_of_not_lt h)]
  simp only [compare_and_update, Option.getD_some, for_loop, hmin, Nat.sub_zero,
    foldl_overlap, foldl_map_add_char, Nat.zero_add]
  rw [← List.range_eq_range']
  simp only [agree_count, char_keys, add_keys_append]
  by_cases h1 : typed.length < ref.length
  · simp only [h1, if_true]
  · simp only [h1, if_false]
    by_cases h2 : typed.length > ref.length
    · simp only [h2, if_true]
    · simp only [h2, if_false, add_keys_nil]

end Main

theorem tokens_by_nil (sep : Char → Bool) : tokens_by sep [] = [] := by
  simp [tokens_by]

theorem tokens_by_cons_sep (sep : Char → Bool) (c : Char) (s : CStr) (h : sep c = true) :
    tokens_by sep (c :: s) = tokens_by sep s := by
  simp [tokens_by, List.splitOnP_cons, h]

theorem tokens_by_dropWhile (sep : Char → Bool) (s : CStr) :
    tokens_by sep (s.dropWhile sep) = tokens_by sep s := by
  induction s with
  | nil => rfl
  | cons c s ih =>
    by_cases h : sep c = true
    · rw [List.dropWhile_cons_of_pos h, ih, tokens_by_cons_sep sep c s h]
    · rw [List.dropWhile_cons_of_neg h]

theorem splitOnP_run (sep : Char → Bool) (s : CStr) :
    s.splitOnP sep = s.takeWhile (fun c => !sep c) ::
      (match s.dropWhile (fun c => !sep c) with
        | [] => []
        | _ :: r => r.splitOnP sep) := by
  induction s with
  | nil => rfl
  | cons c s ih =>
    rw [List.splitOnP_cons]
    by_cases h : sep c = true
    · simp [h]
    · simp only [h, if_false, Bool.false_eq_true]
      rw [ih]
      simp [h, List.modifyHead]

theorem tokens_by_cons_run (sep : Char → Bool) (c : Char) (s : CStr) (h : ¬ sep c = true) :
    tokens_by sep (c :: s) = (c :: s).takeWhile (fun c => !sep c) ::
      tokens_by sep (((c :: s).dropWhile (fun c => !sep c)).drop 1) := by
  have hrun := splitOnP_run sep (c :: s)
  have htw : (c :: s).takeWhile (fun c => !sep c) = c :: s.takeWhile (fun c => !sep c) := by
    simp [h]
  unfold tokens_by
  rw [hrun, htw, List.filter_cons]
  simp only [List.isEmpty_cons, Bool.not_false, if_true]
  congr 1
  cases hd : (c :: s).dropWhile (fun c => !sep c) with
  | nil => simp
  | cons d r => simp

theorem length_dropWhile_le (q : Char → Bool) (s : CStr) :
    (s.dropWhile q).length ≤ s.length := by
  induction s with
  | nil => simp
  | cons c s ih =>
    by_cases h : q c = true
    · rw [List.dropWhile_cons_of_pos h]
      exact Nat.le_succ_of_le ih
    · rw [List.dropWhile_cons_of_neg h]

theorem dropWhile_head_not (q : Char → Bool) (s : CStr) (c : Char) (s1 : CStr)
    (h : s.dropWhile q = c :: s1) : ¬ q c = true := by
  induction s with
  | nil => simp at h
  | cons a s ih =>
    by_cases ha : q a = true
    · rw [List.dropWhile_cons_of_pos ha] at h
      exact ih h
    · rw [List.dropWhile_cons_of_neg ha] at h
      injection h with h1 _
      rw [← h1]
      exact ha

/-- What `strtok_r` returns, in terms of the tokens of the string: `NULL` when
there is none, otherwise the first token, the save pointer being left on a
strictly shorter string that holds the remaining tokens. -/
theorem strtok_r_spec (s delim : CStr) :
    (strtok_r s delim = (none, []) ∧ tokens_by (fun c => delim.contains c) s = []) ∨
    (∃ tok rest, strtok_r s delim = (some tok, rest) ∧
      tokens_by (fun c => delim.contains c) s =
        tok :: tokens_by (fun c => delim.contains c) rest ∧
      rest.length < s.length) := by
  have hdw := tokens_by_dropWhile (fun c => delim.contains c) s
  have hlen := length_dropWhile_le (fun c => delim.contains c) s
  unfold strtok_r
  cases hd : s.dropWhile (fun c => delim.contains c) with
  | nil =>
    left
    rw [hd, tokens_by_nil] at hdw
    exact ⟨rfl, hdw.symm⟩
  | cons c s1 =>
    right
    have hc : ¬ delim.contains c = true := dropWhile_head_not _ s c s1 hd
    refine ⟨_, _, rfl, ?_, ?_⟩
    · rw [← hdw, hd]
      exact tokens_by_cons_run (fun c => delim.contains c) c s1 hc
    · rw [hd] at hlen
      have h1 : (c :: s1).dropWhile (fun c => !delim.contains c) =
          s1.dropWhile (fun c => !delim.contains c) := by
        apply List.dropWhile_cons_of_pos
        cases hcc : delim.contains c with
        | true => exact absurd hcc hc
        | false => rfl
      rw [h1, List.length_drop]
      have h2 := length_dropWhile_le (fun c => !delim.contains c) s1
      simp only [List.length_cons] at hlen
      omega

theorem contains_blank : (fun c => [' ', '\t'].contains c) = is_blank := by
  funext c
  simp [is_blank]

namespace Main

/-- With more fuel than bytes left in the reference copy, the word loop ends,
and it has compared the tokens of the two copies pairwise. -/
theorem word_loop_eq (fuel : Nat) (rptr tptr : CStr) (res : CompareResult) (mwords : Map)
    (hfuel : rptr.length < fuel) :
    word_loop fuel rptr tptr res mwords =
      some (pair_words (tokens_by is_blank rptr) (tokens_by is_blank tptr) res mwords) := by
  induction fuel generalizing rptr tptr res mwords with
  | zero => omega
  | succ fuel ih =>
    unfold word_loop
    rcases strtok_r_spec rptr [' ', '\t'] with ⟨h1, h2⟩ | ⟨rtok, rest, h1, h2, h3⟩
    · rw [contains_blank] at h2
      rw [h1, h2]
      rfl
    · rw [contains_blank] at h2
      rw [h1, h2]
      simp only
      have hf : rest.length < fuel := by omega
      rcases strtok_r_spec tptr [' ', '\t'] with ⟨t1, t2⟩ | ⟨ttok, trest, t1, t2, _⟩
      · rw [contains_blank] at t2
        rw [t1, t2]
        simp only [ih rest [] _ _ hf, tokens_by_nil, pair_words, List.head?_nil, List.tail_nil]
        simp
      · rw [contains_blank] at t2
        rw [t1, t2]
        simp only [ih rest trest _ _ hf, pair_words, List.head?_cons, List.tail_cons]
        by_cases he : ttok = rtok
        · simp [he]
        · simp [he]

theorem pair_words_eq (rs ts : List CStr) (res : CompareResult) (mwords : Map) :
    pair_words rs ts res mwords =
      ({ res with total_words := res.total_words + rs.length,
                  correct_words := res.correct_words + word_hits rs ts },
        add_keys mwords (word_keys rs ts)) := by
  induction rs generalizing ts res mwords with
  | nil => simp [pair_words, word_hits, word_keys, add_keys_nil]
  | cons r rs ih =>
    unfold pair_words word_hits word_keys
    by_cases h : ts.head? = some r
    · simp only [h, if_true]
      rw [ih]
      simp only [List.length_cons]
      congr 2 <;> omega
    · simp only [h, if_false]
      rw [ih]
      simp only [List.length_cons, add_keys_cons, map_add]
      congr 2
      omega

/-- The closed form of `compare_and_update` of `main.c`: it always returns, and
its result and its effect on both maps are given by the agreeing positions, the
recorded character keys and the pairing of the tokens of the two copies. -/
theorem compare_and_update_eq (ref typed : CStr) (mwords mchars : Map) :
    compare_and_update (some ref) (some typed) mwords mchars =
      some (⟨agree_count ref typed, ref.length,
              word_hits (ref_tokens ref) (ref_tokens typed), (ref_tokens ref).length⟩,
            add_keys mwords (word_keys (ref_tokens ref) (ref_tokens typed)),
            add_keys mchars (char_keys ref typed)) := by
  rw [compare_and_update_chars, word_loop_eq _ _ _ _ _ (Nat.lt_succ_self _), pair_words_eq]
  simp [ref_tokens]

theorem word_hits_eq (rs ts : List CStr) :
    word_hits rs ts =
      (List.range rs.length).countP (fun i => decide (i < ts.length) && decide (rs[i]? = ts[i]?)) := by
  induction rs generalizing ts with
  | nil => simp [word_hits]
  | cons r rs ih =>
    unfold word_hits
    rw [List.length_cons, List.range_succ_eq_map, List.countP_cons, List.countP_map, ih ts.tail]
    cases ts with
    | nil => simp
    | cons t ts =>
      have hfun : ((fun i => decide (i < (t :: ts).length) &&
          decide ((r :: rs)[i]? = (t :: ts)[i]?)) ∘ Nat.succ) =
          (fun i => decide (i < ts.length) && decide (rs[i]? = ts[i]?)) := by
        funext i
        simp
      rw [hfun]
      by_cases h : t = r
      · simp [h]
      · have h2 : ¬ r = t := fun e => h e.symm
        simp [h, h2]

theorem count_word_keys (rs ts : List CStr) (w : CStr) :
    (word_keys rs ts).count w =
      (List.range rs.length).countP (fun i =>
        decide (rs[i]? = some w) && (decide (ts.length ≤ i) || !decide (rs[i]? = ts[i]?))) := by
  induction rs generalizing ts with
  | nil => simp [word_keys]
  | cons r rs ih =>
    unfold word_keys
    rw [List.length_cons, List.range_succ_eq_map, List.countP_cons, List.countP_map]
    cases ts with
    | nil =>
      have hfun : ((fun i => decide ((r :: rs)[i]? = some w) &&
          (decide (([] : List CStr).length ≤ i) || !decide ((r :: rs)[i]? = ([] : List CStr)[i]?)))
            ∘ Nat.succ) =
          (fun i => decide (rs[i]? = some w) &&
            (decide (([] : List CStr).length ≤ i) || !decide (rs[i]? = ([] : List CStr)[i]?))) := by
        funext i
        simp
      rw [hfun]
      have hn : ¬ (([] : List CStr).head? = some r) := by simp
      rw [if_neg hn, List.count_cons, List.tail_nil, ih []]
      by_cases h : r = w
      · simp [h]
      · simp [h]
    | cons t ts =>
      have hfun : ((fun i => decide ((r :: rs)[i]? = some w) &&
          (decide ((t :: ts).length ≤ i) || !decide ((r :: rs)[i]? = (t :: ts)[i]?)))
            ∘ Nat.succ) =
          (fun i => decide (rs[i]? = some w) &&
            (decide (ts.length ≤ i) || !decide (rs[i]? = ts[i]?))) := by
        funext i
        simp
      rw [hfun]
      simp only [List.head?_cons, List.tail_cons]
      by_cases h : t = r
      · simp [h, ih ts]
      · have h2 : ¬ r = t := fun e => h e.symm
        simp only [Option.some.injEq, h, if_false, List.count_cons, ih ts]
        by_cases hw : r = w
        · subst hw
          simp [h2]
        · simp [hw]

end Main

theorem countP_window (a b : Nat) (P : Nat → Bool) :
    (List.range' a (b - a)).countP P =
      (List.range b).countP (fun i => decide (a ≤ i) && P i) := by
  induction b with
  | zero => simp
  | succ b ih =>
    rw [List.range_succ, List.countP_append, ← ih]
    by_cases h : a ≤ b
    · have h1 : b + 1 - a = (b - a) + 1 := by omega
      have h2 : a + (b - a) = b := by omega
      rw [h1, List.range'_concat, List.countP_append]
      simp [h, h2, List.countP_cons]
    · have h1 : b + 1 - a = 0 := by omega
      have h2 : b - a = 0 := by omega
      simp [h, h1, h2]

theorem count_overlap_keys (ref typed : CStr) (hr : NUL ∉ ref) (l : List Nat)
    (hl : ∀ i ∈ l, i < ref.length) (k : CStr) :
    (overlap_keys ref typed l).count k =
      l.countP (fun i => decide (ref.getD i NUL ≠ typed.getD i NUL) &&
        decide ([ref.getD i NUL] = k)) := by
  induction l with
  | nil => simp [overlap_keys]
  | cons i l ih =>
    have hi : i < ref.length := hl i (List.mem_cons_self i l)
    have hl2 : ∀ j ∈ l, j < ref.length := fun j hj => hl j (List.mem_cons_of_mem i hj)
    have ih2 := ih hl2
    unfold overlap_keys at ih2 ⊢
    rw [List.filterMap_cons, List.countP_cons]
    by_cases h : typed.getD i NUL = ref.getD i NUL
    · have h2 : ¬ (ref.getD i NUL ≠ typed.getD i NUL) := fun e => e h.symm
      simp only [h, if_true, ih2]
      simp
    · have h2 : ref.getD i NUL ≠ typed.getD i NUL := fun e => h e.symm
      simp only [h, if_false, List.count_cons, ih2, cstr_char _ (getD_ne_nul ref hr i hi)]
      by_cases hk : [ref.getD i NUL] = k
      · simp only [hk, h2, beq_self_eq_true, if_true, decide_True, Bool.and_self, ne_eq,
          not_false_eq_true]
      · have hb : ([ref.getD i NUL] == k) = false := by simpa using hk
        simp only [hk, hb, decide_False, Bool.and_false, Bool.false_eq_true, if_false]

theorem count_map_keys (s : CStr) (hs : NUL ∉ s) (l : List Nat)
    (hl : ∀ i ∈ l, i < s.length) (k : CStr) :
    (l.map (fun i => cstr [s.getD i NUL, NUL])).count k =
      l.countP (fun i => decide ([s.getD i NUL] = k)) := by
  induction l with
  | nil => simp
  | cons i l ih =>
    have hi : i < s.length := hl i (List.mem_cons_self i l)
    have hl2 : ∀ j ∈ l, j < s.length := fun j hj => hl j (List.mem_cons_of_mem i hj)
    rw [List.map_cons, List.count_cons, List.countP_cons, ih hl2,
      cstr_char _ (getD_ne_nul s hs i hi)]
    by_cases hk : [s.getD i NUL] = k
    · simp only [hk, beq_self_eq_true, if_true, decide_True]
    · have hb : ([s.getD i NUL] == k) = false := by simpa using hk
      simp only [hk, hb, decide_False, Bool.false_eq_true, if_false]

theorem mem_window (a b i : Nat) (h : i ∈ List.range' a (b - a)) : i < b := by
  rw [List.mem_range'_1] at h
  omega

namespace Main

/-- How often `compare_and_update` of `main.c` records the key `k` in the
character map, for NUL-free strings. -/
theorem count_char_keys (ref typed : CStr) (hr : NUL ∉ ref) (ht : NUL ∉ typed) (k : CStr) :
    (char_keys ref typed).count k =
      (List.range (min ref.length typed.length)).countP
          (fun i => decide (ref.getD i NUL ≠ typed.getD i NUL) && decide ([ref.getD i NUL] = k)) +
        (List.range ref.length).countP
          (fun i => decide (typed.length ≤ i) && decide ([ref.getD i NUL] = k)) +
        (List.range typed.length).countP
          (fun i => decide (ref.length ≤ i) && decide ([typed.getD i NUL] = k)) := by
  unfold char_keys
  rw [List.count_append, count_overlap_keys ref typed hr _ (fun i hi => by
    rw [List.mem_range] at hi
    exact Nat.lt_of_lt_of_le hi (Nat.min_le_left _ _)), Nat.add_assoc]
  congr 1
  rw [← countP_window, ← countP_window]
  by_cases h1 : typed.length < ref.length
  · have h0 : typed.length - ref.length = 0 := by omega
    simp only [h1, if_true, h0, List.range'_zero, List.countP_nil, Nat.add_zero]
    exact count_map_keys ref hr _ (fun i hi => mem_window _ _ i hi) k
  · simp only [h1, if_false]
    by_cases h2 : typed.length > ref.length
    · have h0 : ref.length - typed.length = 0 := by omega
      simp only [h2, if_true, h0, List.range'_zero, List.countP_nil, Nat.zero_add]
      exact count_map_keys typed ht _ (fun i hi => mem_window _ _ i hi) k
    · have h0 : ref.length - typed.length = 0 := by omega
      have h3 : typed.length - ref.length = 0 := by omega
      simp [h2, h0, h3]

theorem count_char_keys_char (ref typed : CStr) (hr : NUL ∉ ref) (ht : NUL ∉ typed) (c : Char) :
    (char_keys ref typed).count [c] = char_mistakes ref typed c := by
  rw [count_char_keys ref typed hr ht]
  simp [char_mistakes]

theorem count_char_keys_other (ref typed : CStr) (hr : NUL ∉ ref) (ht : NUL ∉ typed) (k : CStr)
    (hk : ∀ c, k = [c] → char_mistakes ref typed c = 0) :
    (char_keys ref typed).count k = 0 := by
  by_cases h : ∃ c, k = [c]
  · obtain ⟨c, rfl⟩ := h
    rw [count_char_keys_char ref typed hr ht]
    exact hk c rfl
  · rw [count_char_keys ref typed hr ht]
    have hne : ∀ x : Char, ¬ ([x] = k) := fun x e => h ⟨x, e.symm⟩
    simp [hne]

end Main

namespace Main2

theorem collect_word_length_le (room : Nat) (p : CStr) :
    (collect_word room p).2.length ≤ p.length := by
  induction room generalizing p with
  | zero => simp [collect_word]
  | succ room ih =>
    cases p with
    | nil => simp [collect_word]
    | cons c p =>
      unfold collect_word
      by_cases h : isspace c = true
      · simp [h]
      · simp only [h, if_false, Bool.false_eq_true, List.length_cons]
        exact Nat.le_succ_of_le (ih p)

theorem collect_word_progress (room : Nat) (c : Char) (p : CStr) (h : ¬ isspace c = true) :
    (collect_word (room + 1) (c :: p)).2.length < (c :: p).length := by
  unfold collect_word
  simp only [h, if_false, Bool.false_eq_true, List.length_cons]
  exact Nat.lt_succ_of_le (collect_word_length_le room p)

/-- With more fuel than bytes left in `ref`, the word loop of `main2.c` ends,
and it leaves the character fields of the result as they were. -/
theorem word_loop_returns (fuel : Nat) (rp tp : CStr) (res : CompareResult) (mwords mchars : Map)
    (hfuel : rp.length < fuel) :
    ∃ r mw mc, word_loop fuel rp tp res mwords mchars = some (r, mw, mc) ∧
      r.correct_chars = res.correct_chars ∧ r.total_chars = res.total_chars := by
  induction fuel generalizing rp tp res mwords mchars with
  | zero => omega
  | succ fuel ih =>
    unfold word_loop
    cases hd : rp.dropWhile isspace with
    | nil => exact ⟨res, mwords, mchars, rfl, rfl, rfl⟩
    | cons c rp1 =>
      have hc : ¬ isspace c = true := dropWhile_head_not isspace rp c rp1 hd
      have hlen := length_dropWhile_le isspace rp
      rw [hd] at hlen
      have hprog : (collect_word 255 (c :: rp1)).2.length < (c :: rp1).length :=
        collect_word_progress 254 c rp1 hc
      have hf : (collect_word 255 (c :: rp1)).2.length < fuel := by omega
      simp only
      split
      · obtain ⟨r, mw, mc, h1, h2, h3⟩ := ih (collect_word 255 (c :: rp1)).2
          (collect_word 255 (tp.dropWhile isspace)).2
          { res with total_words := res.total_words + 1,
                     correct_words := res.correct_words + 1 } mwords mchars hf
        exact ⟨r, mw, mc, h1, h2, h3⟩
      · obtain ⟨r, mw, mc, h1, h2, h3⟩ := ih (collect_word 255 (c :: rp1)).2
          (collect_word 255 (tp.dropWhile isspace)).2
          { res with total_words := res.total_words + 1 } _ _ hf
        exact ⟨r, mw, mc, h1, h2, h3⟩

/-- Typing the reference itself: the word loop of `main2.c` finds every word
equal and touches neither map. -/
theorem word_loop_self (fuel : Nat) (rp : CStr) (res : CompareResult) (mwords mchars : Map)
    (hfuel : rp.length < fuel) :
    ∃ n, word_loop fuel rp rp res mwords mchars =
      some ({ res with total_words := res.total_words + n,
                       correct_words := res.correct_words + n }, mwords, mchars) := by
  induction fuel generalizing rp res with
  | zero => omega
  | succ fuel ih =>
    unfold word_loop
    cases hd : rp.dropWhile isspace with
    | nil => exact ⟨0, rfl⟩
    | cons c rp1 =>
      have hc : ¬ isspace c = true := dropWhile_head_not isspace rp c rp1 hd
      have hlen := length_dropWhile_le isspace rp
      rw [hd] at hlen
      have hprog : (collect_word 255 (c :: rp1)).2.length < (c :: rp1).length :=
        collect_word_progress 254 c rp1 hc
      have hf : (collect_word 255 (c :: rp1)).2.length < fuel := by omega
      simp only [if_true]
      obtain ⟨n, hn⟩ := ih (collect_word 255 (c :: rp1)).2
        { res with total_words := res.total_words + 1,
                   correct_words := res.correct_words + 1 } hf
      refine ⟨n + 1, ?_⟩
      rw [hn]
      simp only [Nat.add_assoc, Nat.add_comm 1 n]

theorem compare_and_update2_chars (ref typed : CStr) (mwords mchars : Map) :
    compare_and_update (some ref) (some typed) mwords mchars =
      word_loop (ref.length + 1) ref typed ⟨Main.agree_count ref typed, ref.length, 0, 0⟩
        mwords mchars := by
  have hmin : (if ref.length < typed.length then ref.length else typed.length) =
      min ref.length typed.length := by
    by_cases h : ref.length < typed.length
    · simp [h, Nat.min_eq_left (Nat.le_of_lt h)]
    · simp [h, Nat.min_eq_right (Nat.le_of_not_lt h)]
  simp only [compare_and_update, Option.getD_some, for_loop, hmin, Nat.sub_zero,
    foldl_correct_only, Nat.zero_add]
  rw [← List.range_eq_range']
  rfl

end Main2

theorem agree_count_self (ref : CStr) : Main.agree_count ref ref = ref.length := by
  simp [Main.agree_count]

theorem overlap_keys_self (ref : CStr) (l : List Nat) : overlap_keys ref ref l = [] := by
  simp [overlap_keys]

theorem char_keys_self (ref : CStr) : Main.char_keys ref ref = [] := by
  simp [Main.char_keys, overlap_keys_self]

theorem word_keys_self (rs : List CStr) : Main.word_keys rs rs = [] := by
  induction rs with
  | nil => rfl
  | cons r rs ih => simp [Main.word_keys, ih]

theorem word_hits_self (rs : List CStr) : Main.word_hits rs rs = rs.length := by
  induction rs with
  | nil => rfl
  | cons r rs ih => simp [Main.word_hits, ih]

theorem countP_getD_eq_count (s : CStr) (c : Char) :
    (List.range s.length).countP (fun i => decide (s.getD i NUL = c)) = s.count c := by
  induction s with
  | nil => simp
  | cons a s ih =>
    rw [List.length_cons, List.range_succ_eq_map, List.countP_cons, List.countP_map,
      List.count_cons, ← ih]
    have hfun : ((fun i => decide ((a :: s).getD i NUL = c)) ∘ Nat.succ) =
        (fun i => decide (s.getD i NUL = c)) := by
      funext i
      simp
    rw [hfun]
    by_cases h : a = c
    · simp [h]
    · simp [h]

theorem char_growth_count (ref typed : CStr) (hr : NUL ∉ ref) (ht : NUL ∉ typed) (k : CStr) :
    (Main.char_keys ref typed).count k = char_growth ref typed k := by
  by_cases h : ∃ c, k = [c]
  · obtain ⟨c, rfl⟩ := h
    exact Main.count_char_keys_char ref typed hr ht c
  · have h0 : char_growth ref typed k = 0 := by
      unfold char_growth
      split
      · exact absurd ⟨_, rfl⟩ h
      · rfl
    rw [h0]
    exact Main.count_char_keys_other ref typed hr ht k (fun c hc => absurd ⟨c, hc⟩ h)

theorem agree_count_comm (ref typed : CStr) :
    Main.agree_count ref typed =
      (List.range (min ref.length typed.length)).countP
        (fun i => decide (ref.getD i NUL = typed.getD i NUL)) := by
  unfold Main.agree_count
  congr 1
  funext i
  by_cases h : typed.getD i NUL = ref.getD i NUL
  · simp only [h, beq_self_eq_true, decide_True]
  · have h2 : ¬ ref.getD i NUL = typed.getD i NUL := fun e => h e.symm
    have hb : (typed.getD i NUL == ref.getD i NUL) = false := by simpa using h
    simp only [hb, h2, decide_False]

theorem splitOnP_append_sep (p : Char → Bool) (a b : CStr) (c : Char) (hc : p c = true) :
    (a ++ c :: b).splitOnP p = a.splitOnP p ++ b.splitOnP p := by
  induction a with
  | nil => simp [List.splitOnP_cons, hc]
  | cons d a ih =>
    rw [List.cons_append, List.splitOnP_cons, List.splitOnP_cons, ih]
    by_cases hd : p d = true
    · simp [hd]
    · simp only [hd, if_false, Bool.false_eq_true]
      cases hL : a.splitOnP p with
      | nil => exact absurd hL (List.splitOnP_ne_nil p a)
      | cons h t => rfl

theorem tokens_by_append_sep (p : Char → Bool) (a b : CStr) (c : Char) (hc : p c = true) :
    tokens_by p (a ++ c :: b) = tokens_by p a ++ tokens_by p b := by
  unfold tokens_by
  rw [splitOnP_append_sep p a b c hc, List.filter_append]

theorem tokens_append_le_aux (p : Char → Bool) (a b : CStr) :
    (tokens_by p a).length ≤ (tokens_by p (a ++ b)).length ∧
    (((a.splitOnP p).tail).filter (fun t => !t.isEmpty)).length ≤
      ((((a ++ b).splitOnP p).tail).filter (fun t => !t.isEmpty)).length := by
  induction a with
  | nil => simp [tokens_by]
  | cons d a ih =>
    obtain ⟨ih1, ih2⟩ := ih
    unfold tokens_by at ih1 ⊢
    rw [List.cons_append, List.splitOnP_cons, List.splitOnP_cons]
    by_cases hd : p d = true
    · simp only [hd, if_true, List.tail_cons]
      refine ⟨?_, ih1⟩
      simpa using ih1
    · simp only [hd, if_false, Bool.false_eq_true]
      cases hL : a.splitOnP p with
      | nil => exact absurd hL (List.splitOnP_ne_nil p a)
      | cons h t =>
        cases hM : (a ++ b).splitOnP p with
        | nil => exact absurd hM (List.splitOnP_ne_nil p (a ++ b))
        | cons h2 t2 =>
          rw [hL, hM] at ih2
          simp only [List.tail_cons] at ih2
          simp only [List.modifyHead, List.tail_cons, List.filter_cons, List.isEmpty_cons,
            Bool.not_false, if_true, List.length_cons]
          exact ⟨Nat.succ_le_succ ih2, ih2⟩

/-- A prefix of a string has at most as many tokens as the string. -/
theorem tokens_by_take_length_le (p : Char → Bool) (s : CStr) (n : Nat) :
    (tokens_by p (s.take n)).length ≤ (tokens_by p s).length := by
  have h := (tokens_append_le_aux p (s.take n) (s.drop n)).1
  rwa [List.take_append_drop] at h

namespace Main

theorem word_hits_append (rs ts xs : List CStr) (h : rs.length ≤ ts.length) :
    word_hits rs (ts ++ xs) = word_hits rs ts := by
  induction rs generalizing ts with
  | nil => rfl
  | cons r rs ih =>
    cases ts with
    | nil => simp at h
    | cons t ts =>
      have h2 : rs.length ≤ ts.length := by simpa using h
      simp only [word_hits, List.cons_append, List.head?_cons, List.tail_cons, ih ts h2]

theorem word_keys_append (rs ts xs : List CStr) (h : rs.length ≤ ts.length) :
    word_keys rs (ts ++ xs) = word_keys rs ts := by
  induction rs generalizing ts with
  | nil => rfl
  | cons r rs ih =>
    cases ts with
    | nil => simp at h
    | cons t ts =>
      have h2 : rs.length ≤ ts.length := by simpa using h
      simp only [word_keys, List.cons_append, List.head?_cons, List.tail_cons, ih ts h2]

/-- The tokens of the typed copy after a space and further text are appended
to `typed`: those of the copy of `typed`, followed by further tokens. -/
theorem ref_tokens_append (typed x : CStr) :
    ref_tokens (typed ++ [' '] ++ x) = ref_tokens typed ∨
    (ref_tokens typed = tokens_by is_blank typed ∧
      ∃ xs, ref_tokens (typed ++ [' '] ++ x) = ref_tokens typed ++ xs) := by
  unfold ref_tokens
  by_cases h : MAX_LINE - 1 ≤ typed.length
  · left
    rw [List.append_assoc, List.take_append_of_le_length h]
  · right
    have hlt : typed.length < MAX_LINE - 1 := Nat.lt_of_not_le h
    have htake : typed.take (MAX_LINE - 1) = typed := List.take_of_length_le (Nat.le_of_lt hlt)
    refine ⟨by rw [htake], ?_⟩
    rw [htake, List.append_assoc, List.take_append_eq_append_take, htake]
    have hpos : MAX_LINE - 1 - typed.length = (MAX_LINE - 1 - typed.length - 1) + 1 := by omega
    rw [hpos]
    simp only [List.singleton_append, List.take_succ_cons]
    exact ⟨_, tokens_by_append_sep is_blank typed _ ' ' (by decide)⟩

end Main

theorem map_add_scan_absent (m : Map) (k : CStr) (d : Int) (h : ∀ e ∈ m, e.key ≠ k) :
    map_add_scan k d m = m ++ [⟨k, d⟩] := by
  induction m with
  | nil => rfl
  | cons e m ih =>
    have he : e.key ≠ k := h e (List.mem_cons_self e m)
    have hm : ∀ e2 ∈ m, e2.key ≠ k := fun e2 h2 => h e2 (List.mem_cons_of_mem e h2)
    simp only [map_add_scan, he, if_false, ih hm, List.cons_append]

theorem map_add_scan_present (m : Map) (k : CStr) (d : Int) (hu : (map_keys m).Nodup)
    (i : Nat) (hi : i < m.length) (hk : (m.get ⟨i, hi⟩).key = k) :
    map_add_scan k d m = m.set i ⟨k, (m.get ⟨i, hi⟩).count + d⟩ := by
  induction m generalizing i with
  | nil => simp at hi
  | cons e m ih =>
    have hu2 : e.key ∉ map_keys m ∧ (map_keys m).Nodup := by
      simpa [map_keys] using hu
    cases i with
    | zero =>
      have he : e.key = k := by simpa using hk
      simp [map_add_scan, he]
    | succ i =>
      have hi2 : i < m.length := by simpa using hi
      have hk2 : (m.get ⟨i, hi2⟩).key = k := by simpa using hk
      have he : e.key ≠ k := by
        intro he
        apply hu2.1
        rw [he, ← hk2]
        exact List.mem_map_of_mem _ (List.get_mem m i hi2)
      simp only [map_add_scan, he, if_false, List.set_cons_succ, List.get_cons_succ]
      rw [ih hu2.2 i hi2 hk2]

theorem mem_keys_map_add_scan (m : Map) (k : CStr) (d : Int) (x : CStr) :
    x ∈ map_keys (map_add_scan k d m) ↔ x ∈ map_keys m ∨ x = k := by
  induction m with
  | nil => simp [map_add_scan, map_keys]
  | cons e rest ih =>
    unfold map_add_scan
    by_cases he : e.key = k
    · simp only [he, if_true, map_keys, List.map_cons, List.mem_cons]
      constructor
      · intro h
        exact Or.inl h
      · rintro (h | h)
        · exact h
        · exact Or.inl h
    · simp only [he, if_false]
      simp only [map_keys, List.map_cons, List.mem_cons] at ih ⊢
      rw [ih]
      tauto

theorem nodup_map_add_scan (m : Map) (k : CStr) (d : Int) (h : (map_keys m).Nodup) :
    (map_keys (map_add_scan k d m)).Nodup := by
  induction m with
  | nil => simp [map_add_scan, map_keys]
  | cons e rest ih =>
    have h2 : e.key ∉ map_keys rest ∧ (map_keys rest).Nodup := by
      simpa [map_keys] using h
    unfold map_add_scan
    by_cases he : e.key = k
    · simp only [he, if_true]
      rw [← he]
      exact h
    · simp only [he, if_false]
      have hcons : map_keys (e :: map_add_scan k d rest) =
          e.key :: map_keys (map_add_scan k d rest) := rfl
      rw [hcons, List.nodup_cons]
      refine ⟨?_, ih h2.2⟩
      rw [mem_keys_map_add_scan]
      rintro (hm | hm)
      · exact h2.1 hm
      · exact he hm

theorem nodup_map_add (m : Map) (k : Option CStr) (d : Int) (h : (map_keys m).Nodup) :
    (map_keys (map_add m k d)).Nodup := by
  cases k with
  | none => exact h
  | some k => exact nodup_map_add_scan m k d h

theorem foldl_keeps {ι : Type} (P : Map → Prop) (f : Map → ι → Map)
    (hf : ∀ m i, P m → P (f m i)) (l : List ι) (m : Map) (h : P m) :
    P (l.foldl f m) := by
  induction l generalizing m with
  | nil => exact h
  | cons i l ih => exact ih (f m i) (hf m i h)

theorem add_keys_keeps (P : Map → Prop) (hP : ∀ m k d, P m → P (map_add m k d))
    (m : Map) (ks : List CStr) (h : P m) : P (add_keys m ks) :=
  foldl_keeps P _ (fun m k hm => hP m (some k) 1 hm) ks m h

theorem load_map_line_keeps (P : Map → Prop) (hP : ∀ m k d, P m → P (map_add m k d))
    (m : Map) (line : CStr) (h : P m) : P (load_map_line m line) := by
  unfold load_map_line
  split
  · exact h
  · simp only
    split
    · exact hP _ _ _ h
    · exact h

theorem load_map_loop_keeps (P : Map → Prop) (hP : ∀ m k d, P m → P (map_add m k d))
    (fuel : Nat) (m : Map) (stream : CStr) (m1 : Map) (h : P m)
    (hl : load_map_loop fuel m stream = some m1) : P m1 := by
  induction fuel generalizing m stream with
  | zero => simp [load_map_loop] at hl
  | succ fuel ih =>
    unfold load_map_loop at hl
    split at hl
    · injection hl with hl
      rw [← hl]
      exact h
    · exact ih _ _ (load_map_line_keeps P hP m _ h) hl

theorem load_map_from_file_keeps (P : Map → Prop) (hP : ∀ m k d, P m → P (map_add m k d))
    (m : Map) (file : Option CStr) (m1 : Map) (h : P m)
    (hl : load_map_from_file m file = some m1) : P m1 := by
  cases file with
  | none =>
    simp only [load_map_from_file] at hl
    injection hl with hl
    rw [← hl]
    exact h
  | some content => exact load_map_loop_keeps P hP _ m content m1 h hl

namespace Main

theorem compare_and_update_option (ref typed : Option CStr) (mwords mchars : Map) :
    compare_and_update ref typed mwords mchars =
      compare_and_update (some (ref.getD [])) (some (typed.getD [])) mwords mchars := rfl

theorem compare_and_update_keeps (P : Map → Prop) (hP : ∀ m k d, P m → P (map_add m k d))
    (ref typed : Option CStr) (mw mc : Map) (res : CompareResult) (mw1 mc1 : Map)
    (hw : P mw) (hc : P mc) (h : compare_and_update ref typed mw mc = some (res, mw1, mc1)) :
    P mw1 ∧ P mc1 := by
  rw [compare_and_update_option, compare_and_update_eq] at h
  injection h with h
  injection h with _ h
  injection h with h1 h2
  rw [← h1, ← h2]
  exact ⟨add_keys_keeps P hP _ _ hw, add_keys_keeps P hP _ _ hc⟩

end Main

namespace Main2

theorem word_loop2_keeps (P : Map → Prop) (hP : ∀ m k d, P m → P (map_add m k d))
    (fuel : Nat) (rp tp : CStr) (res : CompareResult) (mw mc : Map)
    (r1 : CompareResult) (mw1 mc1 : Map) (hw : P mw) (hc : P mc)
    (h : word_loop fuel rp tp res mw mc = some (r1, mw1, mc1)) : P mw1 ∧ P mc1 := by
  induction fuel generalizing rp tp res mw mc with
  | zero => simp [word_loop] at h
  | succ fuel ih =>
    unfold word_loop at h
    split at h
    · injection h with h
      injection h with _ h
      injection h with h1 h2
      rw [← h1, ← h2]
      exact ⟨hw, hc⟩
    · simp only at h
      split at h
      · exact ih _ _ _ _ _ hw hc h
      · refine ih _ _ _ _ _ (hP _ _ _ hw) ?_ h
        unfold for_loop
        apply foldl_keeps P _ (fun m i hm => hP m _ 1 hm)
        apply foldl_keeps P _ (fun m i hm => by
          simp only
          split
          · exact hP m _ 1 hm
          · exact hm)
        exact hc

theorem compare_and_update2_keeps (P : Map → Prop) (hP : ∀ m k d, P m → P (map_add m k d))
    (ref typed : Option CStr) (mw mc : Map) (res : CompareResult) (mw1 mc1 : Map)
    (hw : P mw) (hc : P mc) (h : compare_and_update ref typed mw mc = some (res, mw1, mc1)) :
    P mw1 ∧ P mc1 :=
  word_loop2_keeps P hP _ _ _ _ mw mc res mw1 mc1 hw hc h

end Main2

theorem reachable_keeps (P : Map → Prop) (h0 : P map_init)
    (hP : ∀ m k d, P m → P (map_add m k d)) (m : Map) (h : Reachable m) : P m := by
  induction h with
  | init => exact h0
  | add m k d _ ih => exact hP m k d ih
  | add_char m ch d _ ih => exact hP m _ d ih
  | load m file m1 _ hl ih => exact load_map_from_file_keeps P hP m file m1 ih hl
  | compare_words ref typed mw mc res mw1 mc1 _ _ hc ihw ihc =>
    exact (Main.compare_and_update_keeps P hP ref typed mw mc res mw1 mc1 ihw ihc hc).1
  | compare_chars ref typed mw mc res mw1 mc1 _ _ hc ihw ihc =>
    exact (Main.compare_and_update_keeps P hP ref typed mw mc res mw1 mc1 ihw ihc hc).2
  | compare2_words ref typed mw mc res mw1 mc1 _ _ hc ihw ihc =>
    exact (Main2.compare_and_update2_keeps P hP ref typed mw mc res mw1 mc1 ihw ihc hc).1
  | compare2_chars ref typed mw mc res mw1 mc1 _ _ hc ihw ihc =>
    exact (Main2.compare_and_update2_keeps P hP ref typed mw mc res mw1 mc1 ihw ihc hc).2

theorem char_toNat_inj (a b : Char) (h : a.toNat = b.toNat) : a = b := by
  apply Char.ext
  cases a with
  | mk va ha =>
    cases b with
    | mk vb hb =>
      simp only [Char.toNat] at h
      exact UInt32.ext (by simpa using h)

theorem strcmp_self (a : CStr) : strcmp a a = 0 := by
  induction a with
  | nil => rfl
  | cons x a ih => simp [strcmp, ih]

theorem strcmp_total (a b : CStr) : strcmp a b ≤ 0 ∨ strcmp b a ≤ 0 := by
  induction a generalizing b with
  | nil => cases b <;> simp [strcmp]
  | cons x a ih =>
    cases b with
    | nil => simp [strcmp]
    | cons y b =>
      simp only [strcmp]
      by_cases h : x.toNat = y.toNat
      · simp only [h, if_true]
        exact ih b
      · have h2 : ¬ y.toNat = x.toNat := fun e => h e.symm
        simp only [h, h2, if_false]
        by_cases h3 : x.toNat < y.toNat
        · simp [h3]
        · have h4 : y.toNat < x.toNat := by omega
          simp [h4]

theorem strcmp_antisymm (a b : CStr) (h1 : strcmp a b ≤ 0) (h2 : strcmp b a ≤ 0) : a = b := by
  induction a generalizing b with
  | nil =>
    cases b with
    | nil => rfl
    | cons y b => simp [strcmp] at h2
  | cons x a ih =>
    cases b with
    | nil => simp [strcmp] at h1
    | cons y b =>
      simp only [strcmp] at h1 h2
      by_cases h : x.toNat = y.toNat
      · simp only [h, if_true] at h1 h2
        rw [char_toNat_inj x y h, ih b h1 h2]
      · have h3 : ¬ y.toNat = x.toNat := fun e => h e.symm
        simp only [h, h3, if_false] at h1 h2
        by_cases h4 : x.toNat < y.toNat
        · have h5 : ¬ y.toNat < x.toNat := by omega
          simp [h5] at h2
        · simp [h4] at h1

theorem strcmp_trans (a b c : CStr) (h1 : strcmp a b ≤ 0) (h2 : strcmp b c ≤ 0) :
    strcmp a c ≤ 0 := by
  induction a generalizing b c with
  | nil => cases c <;> simp [strcmp]
  | cons x a ih =>
    cases b with
    | nil => simp [strcmp] at h1
    | cons y b =>
      cases c with
      | nil => simp [strcmp] at h2
      | cons z c =>
        simp only [strcmp] at h1 h2 ⊢
        by_cases hxy : x.toNat = y.toNat
        · by_cases hyz : y.toNat = z.toNat
          · have hxz : x.toNat = z.toNat := by omega
            simp only [hxy, hyz, hxz, if_true] at h1 h2 ⊢
            exact ih b c h1 h2
          · have hxz : ¬ x.toNat = z.toNat := by omega
            simp only [hyz, if_false] at h2
            simp only [hxz, if_false]
            by_cases hlt : y.toNat < z.toNat
            · have hlt2 : x.toNat < z.toNat := by omega
              simp [hlt2]
            · simp [hlt] at h2
        · simp only [hxy, if_false] at h1
          by_cases hlt : x.toNat < y.toNat
          · by_cases hyz : y.toNat = z.toNat
            · have hxz : ¬ x.toNat = z.toNat := by omega
              have hlt2 : x.toNat < z.toNat := by omega
              simp [hxz, hlt2]
            · simp only [hyz, if_false] at h2
              by_cases hlt3 : y.toNat < z.toNat
              · have hxz : ¬ x.toNat = z.toNat := by omega
                have hlt2 : x.toNat < z.toNat := by omega
                simp [hxz, hlt2]
              · simp [hlt3] at h2
          · simp [hlt] at h1

theorem cmp_kc_desc_le_iff (a b : KeyCount) :
    cmp_kc_desc a b ≤ 0 ↔ ranked_before a b := by
  unfold cmp_kc_desc ranked_before
  by_cases h1 : b.count < a.count
  · simp [h1]
  · by_cases h2 : b.count > a.count
    · have h3 : ¬ a.count = b.count := by omega
      simp [h1, h2, h3]
    · have h3 : a.count = b.count := by omega
      simp [h1, h2, h3]

theorem ranked_before_total (a b : KeyCount) : ranked_before a b ∨ ranked_before b a := by
  unfold ranked_before
  rcases lt_trichotomy a.count b.count with h | h | h
  · exact Or.inr (Or.inl h)
  · rcases strcmp_total a.key b.key with hs | hs
    · exact Or.inl (Or.inr ⟨h, hs⟩)
    · exact Or.inr (Or.inr ⟨h.symm, hs⟩)
  · exact Or.inl (Or.inl h)

theorem ranked_before_trans (a b c : KeyCount) (h1 : ranked_before a b)
    (h2 : ranked_before b c) : ranked_before a c := by
  unfold ranked_before at h1 h2 ⊢
  rcases h1 with h1 | ⟨h1, s1⟩
  · rcases h2 with h2 | ⟨h2, _⟩
    · exact Or.inl (by omega)
    · exact Or.inl (by omega)
  · rcases h2 with h2 | ⟨h2, s2⟩
    · exact Or.inl (by omega)
    · exact Or.inr ⟨by omega, strcmp_trans _ _ _ s1 s2⟩

theorem ranked_before_antisymm (a b : KeyCount) (h1 : ranked_before a b)
    (h2 : ranked_before b a) : a = b := by
  unfold ranked_before at h1 h2
  rcases h1 with h1 | ⟨h1, s1⟩
  · rcases h2 with h2 | ⟨h2, _⟩
    · omega
    · omega
  · rcases h2 with h2 | ⟨_, s2⟩
    · omega
    · cases a with
      | mk ka ca =>
        cases b with
        | mk kb cb =>
          simp only at h1 s1 s2
          rw [strcmp_antisymm ka kb s1 s2, h1]

theorem qsort_perm (l : List KeyCount) : (qsort cmp_kc_desc l).Perm l :=
  List.perm_insertionSort _ l

theorem qsort_sorted_cmp (l : List KeyCount) :
    (qsort cmp_kc_desc l).Pairwise (fun a b => cmp_kc_desc a b ≤ 0) :=
  @List.sorted_insertionSort _ (fun a b => cmp_kc_desc a b ≤ 0) _
    ⟨fun a b => by
      simp only [cmp_kc_desc_le_iff]
      exact ranked_before_total a b⟩
    ⟨fun a b c h1 h2 => by
      simp only [cmp_kc_desc_le_iff] at h1 h2 ⊢
      exact ranked_before_trans a b c h1 h2⟩ l

theorem qsort_sorted (l : List KeyCount) : (qsort cmp_kc_desc l).Pairwise ranked_before :=
  (qsort_sorted_cmp l).imp (fun h => (cmp_kc_desc_le_iff _ _).mp h)

/-- The result of `qsort` with `cmp_kc_desc` does not depend on the sorting
algorithm: it is the only arrangement of the entries that is in order. -/
theorem qsort_unique (l s : List KeyCount) (hp : s.Perm l) (hs : s.Pairwise ranked_before) :
    s = qsort cmp_kc_desc l :=
  @List.eq_of_perm_of_sorted _ ranked_before ⟨ranked_before_antisymm⟩ _ _
    (hp.trans (qsort_perm l).symm) hs (qsort_sorted l)

theorem show_top_map_eq (m : Map) (n : Nat) :
    show_top_map m (n : Int) = (qsort cmp_kc_desc m).take (min n m.length) := by
  unfold show_top_map
  by_cases h0 : m.length = 0
  · have hm : m = [] := List.length_eq_zero.mp h0
    subst hm
    simp [qsort]
  · simp only [h0, if_false]
    by_cases h : (n : Int) < (m.length : Int)
    · have h2 : n < m.length := by exact_mod_cast h
      simp only [h, if_true, Int.toNat_ofNat]
      rw [Nat.min_eq_left (Nat.le_of_lt h2)]
    · have h2 : m.length ≤ n := by
        have : ¬ n < m.length := fun e => h (by exact_mod_cast e)
        omega
      simp only [h, if_false, Int.toNat_ofNat]
      rw [Nat.min_eq_right h2]

theorem text_lines_eq_nil (s : CStr) (h : text_lines s = []) : s = [] := by
  cases s with
  | nil => rfl
  | cons c s =>
    unfold text_lines at h
    split at h
    · simp at h
    · split at h <;> simp at h

theorem fgets_read_nil (room : Nat) : fgets_read room [] = ([], []) := by
  cases room <;> rfl

theorem fgets_read_length_le (room : Nat) (s : CStr) :
    (fgets_read room s).2.length ≤ s.length := by
  induction room generalizing s with
  | zero => simp [fgets_read]
  | succ room ih =>
    cases s with
    | nil => simp [fgets_read]
    | cons c s =>
      unfold fgets_read
      by_cases h : c = '\n'
      · simp [h]
      · simp only [h, if_false, List.length_cons]
        exact Nat.le_succ_of_le (ih s)

theorem fgets_read_progress (room : Nat) (c : Char) (s : CStr) :
    (fgets_read (room + 1) (c :: s)).2.length < (c :: s).length := by
  unfold fgets_read
  by_cases h : c = '\n'
  · simp [h]
  · simp only [h, if_false, List.length_cons]
    exact Nat.lt_succ_of_le (fgets_read_length_le room s)

/-- A line that fits the buffer is read by one `fgets`. -/
theorem fgets_read_line (room : Nat) (s l : CStr) (ls : List CStr)
    (h : text_lines s = l :: ls) (hl : l.length ≤ room) :
    (fgets_read room s).1 = l ∧ text_lines (fgets_read room s).2 = ls := by
  induction s generalizing room l ls with
  | nil => simp [text_lines] at h
  | cons c s ih =>
    unfold text_lines at h
    by_cases hc : c = '\n'
    · simp only [hc, if_true, List.cons.injEq] at h
      obtain ⟨h1, h2⟩ := h
      subst h1
      cases room with
      | zero => simp at hl
      | succ room => simp [fgets_read, hc, h2]
    · simp only [hc, if_false] at h
      cases hs : text_lines s with
      | nil =>
        rw [hs] at h
        simp only [List.cons.injEq] at h
        obtain ⟨h1, h2⟩ := h
        have hnil : s = [] := text_lines_eq_nil s hs
        subst hnil
        subst h1
        cases room with
        | zero => simp at hl
        | succ room => simp [fgets_read, hc, fgets_read_nil, h2.symm, text_lines]
      | cons l1 ls1 =>
        rw [hs] at h
        simp only [List.cons.injEq] at h
        obtain ⟨h1, h2⟩ := h
        subst h1
        subst h2
        cases room with
        | zero => simp at hl
        | succ room =>
          have hl1 : l1.length ≤ room := by simpa using hl
          obtain ⟨i1, i2⟩ := ih room l1 ls1 hs hl1
          simp [fgets_read, hc, i1, i2]

theorem load_map_loop_lines (fuel : Nat) (m : Map) (s : CStr)
    (hfuel : s.length < fuel) (hl : ∀ l ∈ text_lines s, l.length ≤ MAX_LINE - 1) :
    load_map_loop fuel m s = some ((text_lines s).foldl load_map_line m) := by
  induction fuel generalizing m s with
  | zero => omega
  | succ fuel ih =>
    unfold load_map_loop
    cases s with
    | nil => rfl
    | cons c s =>
      simp only [fgets]
      cases hs : text_lines (c :: s) with
      | nil => exact absurd (text_lines_eq_nil _ hs) (by simp)
      | cons l ls =>
        have hlen : l.length ≤ MAX_LINE - 1 := hl l (by rw [hs]; exact List.mem_cons_self l ls)
        obtain ⟨h1, h2⟩ := fgets_read_line (MAX_LINE - 1) (c :: s) l ls hs hlen
        have hprog : (fgets_read (MAX_LINE - 1) (c :: s)).2.length < (c :: s).length :=
          fgets_read_progress 510 c s
        rw [ih (load_map_line m (fgets_read (MAX_LINE - 1) (c :: s)).1)
          (fgets_read (MAX_LINE - 1) (c :: s)).2 (by omega) (by
            intro l2 hl2
            rw [h2] at hl2
            exact hl l2 (by rw [hs]; exact List.mem_cons_of_mem l hl2))]
        rw [h1, h2, List.foldl_cons]

theorem load_map_line_no_tab (m : Map) (line : CStr) (h : '\t' ∉ line) :
    load_map_line m line = m := by
  have hd : line.dropWhile (fun c => c != '\t') = [] := by
    rw [List.dropWhile_eq_nil_iff]
    intro c hc
    have : c ≠ '\t' := fun e => h (e ▸ hc)
    simpa using this
  simp [load_map_line, hd]

theorem load_map_line_tab (m : Map) (key num : CStr) (h : '\t' ∉ key) :
    load_map_line m (key ++ '\t' :: num) =
      if atol num = 0 then m else map_add m (some key) (atol num) := by
  have hall : ∀ c ∈ key, (c != '\t') = true := by
    intro c hc
    have : c ≠ '\t' := fun e => h (e ▸ hc)
    simpa using this
  have hd : (key ++ '\t' :: num).dropWhile (fun c => c != '\t') = '\t' :: num := by
    rw [List.dropWhile_append_of_pos hall]
    simp
  have ht : (key ++ '\t' :: num).takeWhile (fun c => c != '\t') = key := by
    rw [List.takeWhile_append_of_pos hall]
    simp
  unfold load_map_line
  rw [hd]
  simp only [ht]
  by_cases h0 : atol num = 0
  · simp [h0]
  · simp [h0]

theorem atol_not_number (c : Char) (rest : CStr) (hs : isspace c = false)
    (hm : c ≠ '-') (hp : c ≠ '+') (hd : ¬ ('0' ≤ c ∧ c ≤ '9')) : atol (c :: rest) = 0 := by
  unfold atol
  have h1 : (c :: rest).dropWhile isspace = c :: rest := by
    simp [List.dropWhile_cons, hs]
  rw [h1]
  split
  · rename_i h
    injection h with h _
    exact absurd h hm
  · rename_i h
    injection h with h _
    exact absurd h hp
  · simp [atol_digits, hd]

theorem map_add_char_ne (m : Map) (c : Char) : map_add_char m c 1 ≠ m := by
  intro h
  have ht := map_total_add_scan m (cstr [c, NUL]) 1
  have h2 : map_add_scan (cstr [c, NUL]) 1 m = m := h
  rw [h2] at ht
  omega

theorem digitChar_digit (k : Nat) (hk : k < 10) :
    ('0' ≤ Nat.digitChar k ∧ Nat.digitChar k ≤ '9') ∧
    (Nat.digitChar k).toNat - '0'.toNat = k := by
  interval_cases k <;> decide

theorem foldl_digits_shift (ds : CStr) (a : Nat) :
    ds.foldl (fun a c => a * 10 + (c.toNat - '0'.toNat)) a =
      a * 10 ^ ds.length + ds.foldl (fun a c => a * 10 + (c.toNat - '0'.toNat)) 0 := by
  induction ds generalizing a with
  | nil => simp
  | cons c ds ih =>
    simp only [List.foldl_cons, List.length_cons]
    rw [ih (a * 10 + (c.toNat - '0'.toNat)), ih (0 * 10 + (c.toNat - '0'.toNat))]
    ring

theorem toDigitsCore_value (fuel n : Nat) (ds : CStr) (h : n < fuel) :
    (Nat.toDigitsCore 10 fuel n ds).foldl (fun a c => a * 10 + (c.toNat - '0'.toNat)) 0 =
      n * 10 ^ ds.length + ds.foldl (fun a c => a * 10 + (c.toNat - '0'.toNat)) 0 := by
  induction fuel generalizing n ds with
  | zero => omega
  | succ fuel ih =>
    have hd := (digitChar_digit (n % 10) (Nat.mod_lt n (by decide))).2
    have hn : 10 * (n / 10) + n % 10 = n := Nat.div_add_mod n 10
    simp only [Nat.toDigitsCore]
    by_cases h0 : n / 10 = 0
    · simp only [h0, if_true, List.foldl_cons]
      rw [foldl_digits_shift, hd]
      have : n % 10 = n := by omega
      rw [this]
      ring
    · simp only [h0, if_false]
      rw [ih (n / 10) _ (by omega)]
      simp only [List.foldl_cons, List.length_cons]
      rw [foldl_digits_shift ds, hd]
      have e : n / 10 * 10 ^ (ds.length + 1) + ((0 * 10 + n % 10) * 10 ^ ds.length +
          ds.foldl (fun a c => a * 10 + (c.toNat - '0'.toNat)) 0) =
          (10 * (n / 10) + n % 10) * 10 ^ ds.length +
            ds.foldl (fun a c => a * 10 + (c.toNat - '0'.toNat)) 0 := by ring
      rw [e, hn]

theorem toDigitsCore_digits (fuel n : Nat) (ds : CStr)
    (hds : ∀ c ∈ ds, '0' ≤ c ∧ c ≤ '9') :
    ∀ c ∈ Nat.toDigitsCore 10 fuel n ds, '0' ≤ c ∧ c ≤ '9' := by
  induction fuel generalizing n ds with
  | zero => simpa [Nat.toDigitsCore] using hds
  | succ fuel ih =>
    have hd := (digitChar_digit (n % 10) (Nat.mod_lt n (by decide))).1
    have hcons : ∀ c ∈ Nat.digitChar (n % 10) :: ds, '0' ≤ c ∧ c ≤ '9' := by
      intro c hc
      rcases List.mem_cons.mp hc with h | h
      · rw [h]
        exact hd
      · exact hds c h
    simp only [Nat.toDigitsCore]
    split
    · exact hcons
    · exact ih _ _ hcons

theorem toDigitsCore_ne_nil (fuel n : Nat) (ds : CStr) (h : 0 < fuel) :
    Nat.toDigitsCore 10 fuel n ds ≠ [] := by
  induction fuel generalizing n ds with
  | zero => omega
  | succ fuel ih =>
    simp only [Nat.toDigitsCore]
    split
    · simp
    · cases fuel with
      | zero => simp [Nat.toDigitsCore]
      | succ fuel => exact ih _ _ (by omega)

theorem atol_digits_run (ds rest : CStr) (acc : Nat)
    (hds : ∀ c ∈ ds, '0' ≤ c ∧ c ≤ '9') (hrest : ∀ c ∈ rest.head?, ¬ ('0' ≤ c ∧ c ≤ '9')) :
    atol_digits (ds ++ rest) acc =
      ds.foldl (fun a c => a * 10 + (c.toNat - '0'.toNat)) acc := by
  induction ds generalizing acc with
  | nil =>
    cases rest with
    | nil => rfl
    | cons c rest =>
      have hc := hrest c (by simp)
      simp [atol_digits, hc]
  | cons d ds ih =>
    have hd := hds d (List.mem_cons_self d ds)
    simp only [List.cons_append, atol_digits, hd, and_self, if_true, List.foldl_cons]
    exact ih _ (fun c hc => hds c (List.mem_cons_of_mem d hc))

theorem atol_digits_toDigits (k : Nat) (rest : CStr) :
    atol_digits (Nat.toDigits 10 k ++ '\n' :: rest) 0 = k := by
  have hrun := atol_digits_run (Nat.toDigitsCore 10 (k + 1) k []) ('\n' :: rest) 0
    (toDigitsCore_digits _ _ [] (by simp)) (by
      intro c hc
      simp only [List.head?_cons, Option.mem_def, Option.some.injEq] at hc
      rw [← hc]
      decide)
  have h := toDigitsCore_value (k + 1) k [] (Nat.lt_succ_self k)
  unfold Nat.toDigits
  rw [hrun, h]
  simp

theorem digit_facts (c : Char) (h : '0' ≤ c ∧ c ≤ '9') :
    isspace c = false ∧ c ≠ '-' ∧ c ≠ '+' ∧ c ≠ '\n' ∧ c ≠ '\t' := by
  have h1 : ('0' : Char).toNat ≤ c.toNat := h.1
  have h2 : c.toNat ≤ ('9' : Char).toNat := h.2
  have e0 : ('0' : Char).toNat = 48 := by decide
  have e9 : ('9' : Char).toNat = 57 := by decide
  rw [e0] at h1
  rw [e9] at h2
  have hne : ∀ d : Char, d.toNat < 48 → c ≠ d := by
    intro d hd e
    rw [e] at h1
    omega
  have hsp : c ≠ ' ' := hne ' ' (by decide)
  have htab : c ≠ '\t' := hne '\t' (by decide)
  have hnl : c ≠ '\n' := hne '\n' (by decide)
  have hvt : c ≠ Char.ofNat 11 := hne (Char.ofNat 11) (by decide)
  have hff : c ≠ Char.ofNat 12 := hne (Char.ofNat 12) (by decide)
  have hcr : c ≠ '\r' := hne '\r' (by decide)
  refine ⟨?_, hne '-' (by decide), hne '+' (by decide), hnl, htab⟩
  simp [isspace, hsp, htab, hnl, hvt, hff, hcr]

/-- Reading back a printed count: `atol` of the text that `%ld` writes,
followed by the newline of the line, is the count. -/
theorem atol_print_long (n : Int) (rest : CStr) :
    atol (print_long n ++ '\n' :: rest) = n := by
  unfold print_long
  by_cases hneg : n < 0
  · simp only [hneg, if_true, List.cons_append]
    have hs : isspace '-' = false := by decide
    have hdw : ('-' :: (Nat.toDigits 10 n.natAbs ++ '\n' :: rest)).dropWhile isspace =
        '-' :: (Nat.toDigits 10 n.natAbs ++ '\n' :: rest) := by
      simp [List.dropWhile_cons, hs]
    unfold atol
    rw [hdw]
    simp only [atol_digits_toDigits]
    omega
  · simp only [hneg, if_false]
    cases hD : Nat.toDigits 10 n.toNat with
    | nil => exact absurd hD (toDigitsCore_ne_nil _ _ [] (Nat.succ_pos _))
    | cons d D =>
      have hdig : '0' ≤ d ∧ d ≤ '9' := by
        have := toDigitsCore_digits (n.toNat + 1) n.toNat [] (by simp) d
        apply this
        have hD2 : Nat.toDigitsCore 10 (n.toNat + 1) n.toNat [] = d :: D := hD
        rw [hD2]
        exact List.mem_cons_self d D
      obtain ⟨f1, f2, f3, _, _⟩ := digit_facts d hdig
      have hdw : ((d :: D) ++ '\n' :: rest).dropWhile isspace = (d :: D) ++ '\n' :: rest := by
        simp [List.dropWhile_cons, f1]
      have hval := atol_digits_toDigits n.toNat rest
      rw [hD] at hval
      unfold atol
      rw [hdw]
      split
      · rename_i h
        injection h with h _
        exact absurd h f2
      · rename_i h
        injection h with h _
        exact absurd h f3
      · rw [hval]
        omega

theorem print_long_no_newline (n : Int) : '\n' ∉ print_long n := by
  have hd : ∀ k : Nat, '\n' ∉ Nat.toDigits 10 k := by
    intro k hmem
    have := toDigitsCore_digits (k + 1) k [] (by simp) '\n' hmem
    exact absurd this (by decide)
  unfold print_long
  split
  · intro hmem
    rcases List.mem_cons.mp hmem with h | h
    · exact absurd h (by decide)
    · exact hd _ h
  · exact hd _

theorem text_lines_append_newline (l rest : CStr) (h : '\n' ∉ l) :
    text_lines (l ++ '\n' :: rest) = (l ++ ['\n']) :: text_lines rest := by
  induction l with
  | nil => simp [text_lines]
  | cons c l ih =>
    have hc : c ≠ '\n' := fun e => h (e ▸ List.mem_cons_self c l)
    have hl : '\n' ∉ l := fun e => h (List.mem_cons_of_mem c e)
    have e : (c :: l) ++ '\n' :: rest = c :: (l ++ '\n' :: rest) := rfl
    rw [e]
    simp only [text_lines, hc, if_false]
    rw [ih hl]
    rfl

theorem save_map_to_file_cons (e : KeyCount) (m : Map) :
    save_map_to_file (e :: m) = entry_line e ++ save_map_to_file m := by
  simp [save_map_to_file, entry_line]

theorem text_lines_save (m : Map) (hk : ∀ e ∈ m, '\n' ∉ e.key) :
    text_lines (save_map_to_file m) = m.map entry_line := by
  induction m with
  | nil => rfl
  | cons e m ih =>
    have he : '\n' ∉ e.key := hk e (List.mem_cons_self e m)
    have hm : ∀ e2 ∈ m, '\n' ∉ e2.key := fun e2 h2 => hk e2 (List.mem_cons_of_mem e h2)
    have hbody : '\n' ∉ e.key ++ ['\t'] ++ print_long e.count := by
      intro hmem
      simp only [List.mem_append, List.mem_singleton] at hmem
      rcases hmem with (h | h) | h
      · exact he h
      · exact absurd h (by decide)
      · exact print_long_no_newline _ h
    rw [save_map_to_file_cons, List.map_cons, ← ih hm]
    have : entry_line e ++ save_map_to_file m =
        (e.key ++ ['\t'] ++ print_long e.count) ++ '\n' :: save_map_to_file m := by
      simp [entry_line]
    rw [this, text_lines_append_newline _ _ hbody]
    rfl

theorem load_entry_line (acc : Map) (e : KeyCount) (ht : '\t' ∉ e.key) :
    load_map_line acc (entry_line e) =
      if e.count = 0 then acc else map_add acc (some e.key) e.count := by
  have h : entry_line e = e.key ++ '\t' :: (print_long e.count ++ '\n' :: []) := by
    simp [entry_line]
  rw [h, load_map_line_tab acc e.key _ ht, atol_print_long]

theorem foldl_load_entries (m acc : Map) (ht : ∀ e ∈ m, '\t' ∉ e.key)
    (hu : (map_keys m).Nodup) (hd : ∀ e ∈ m, e.key ∉ map_keys acc) :
    (m.map entry_line).foldl load_map_line acc =
      acc ++ m.filter (fun e => decide (e.count ≠ 0)) := by
  induction m generalizing acc with
  | nil => simp
  | cons e m ih =>
    have hu2 : e.key ∉ map_keys m ∧ (map_keys m).Nodup := by
      simpa [map_keys] using hu
    have hte : '\t' ∉ e.key := ht e (List.mem_cons_self e m)
    have htm : ∀ e2 ∈ m, '\t' ∉ e2.key := fun e2 h2 => ht e2 (List.mem_cons_of_mem e h2)
    have hde : e.key ∉ map_keys acc := hd e (List.mem_cons_self e m)
    have hdm : ∀ e2 ∈ m, e2.key ∉ map_keys acc :=
      fun e2 h2 => hd e2 (List.mem_cons_of_mem e h2)
    simp only [List.map_cons, List.foldl_cons]
    rw [load_entry_line acc e hte]
    by_cases h0 : e.count = 0
    · simp only [h0, if_true]
      rw [ih acc htm hu2.2 hdm]
      simp [h0]
    · simp only [h0, if_false, map_add]
      have habs : map_add_scan e.key e.count acc = acc ++ [⟨e.key, e.count⟩] :=
        map_add_scan_absent acc e.key e.count (fun e2 h2 heq =>
          hde (heq ▸ List.mem_map_of_mem (fun e => e.key) h2))
      rw [habs, ih _ htm hu2.2 (by
        intro e2 h2
        simp only [map_keys, List.map_append, List.map_cons, List.map_nil, List.mem_append,
          List.mem_singleton]
        rintro (h | h)
        · exact hdm e2 h2 h
        · exact hu2.1 (h ▸ List.mem_map_of_mem (fun e => e.key) h2))]
      simp [h0]

theorem merge_loop_offset (pre l : Map) (m : Map) :
    (List.range' pre.length l.length).foldl (fun mw j =>
      match (pre ++ l).get? j with
      | some e => map_add mw (some e.key) e.count
      | none => mw) m = merge_words l m := by
  induction l generalizing pre m with
  | nil => rfl
  | cons e l ih =>
    have hget : (pre ++ e :: l).get? pre.length = some e := by
      rw [List.get?_eq_getElem?, List.getElem?_append_right (Nat.le_refl _)]
      simp
    have hpre : pre ++ e :: l = (pre ++ [e]) ++ l := by simp
    have hlen : (pre ++ [e]).length = pre.length + 1 := by simp
    simp only [List.length_cons, List.range'_succ, List.foldl_cons, hget, merge_words]
    have h := ih (pre ++ [e]) (map_add m (some e.key) e.count)
    rw [hlen, ← hpre] at h
    exact h

theorem merge_loop_eq (item m : Map) :
    for_loop 0 item.length (fun j mw =>
      match item.get? j with
      | some e => map_add mw (some e.key) e.count
      | none => mw) m = merge_words item m := by
  have h := merge_loop_offset [] item m
  simpa [for_loop] using h

theorem map_add_scan_twice (m : Map) (k : CStr) (c d : Int) :
    map_add_scan k (c + d) m = map_add_scan k d (map_add_scan k c m) := by
  induction m with
  | nil => simp [map_add_scan]
  | cons e m ih =>
    by_cases he : e.key = k
    · simp [map_add_scan, he, Int.add_assoc]
    · simp [map_add_scan, he, ih]

theorem map_add_scan_comm (m : Map) (k k2 : CStr) (d d2 : Int) (hk : k ∈ map_keys m) :
    map_add_scan k2 d2 (map_add_scan k d m) = map_add_scan k d (map_add_scan k2 d2 m) := by
  induction m with
  | nil => simp [map_keys] at hk
  | cons e m ih =>
    by_cases he : e.key = k
    · by_cases he2 : e.key = k2
      · have hkk : k = k2 := he.symm.trans he2
        subst hkk
        simp only [map_add_scan, he, if_true]
        congr 2
        ring
      · have hne : ¬ k = k2 := fun h => he2 (he.trans h)
        simp [map_add_scan, he, he2, hne]
    · have hk2 : k ∈ map_keys m := by
        simp only [map_keys, List.map_cons, List.mem_cons] at hk
        rcases hk with h | h
        · exact absurd h.symm he
        · exact h
      by_cases he2 : e.key = k2
      · have hne : ¬ k2 = k := fun h => he (he2.trans h)
        simp [map_add_scan, he, he2, hne]
      · simp [map_add_scan, he, he2, ih hk2]

theorem merge_words_add_present (item m : Map) (k : CStr) (d : Int) (hk : k ∈ map_keys m) :
    merge_words item (map_add_scan k d m) = map_add_scan k d (merge_words item m) := by
  induction item generalizing m with
  | nil => rfl
  | cons e item ih =>
    simp only [merge_words, List.foldl_cons, map_add]
    have h1 := map_add_scan_comm m k e.key d e.count hk
    rw [h1]
    have hk2 : k ∈ map_keys (map_add_scan e.key e.count m) :=
      (mem_keys_map_add_scan m e.key e.count k).mpr (Or.inl hk)
    exact ih (map_add_scan e.key e.count m) hk2

theorem merge_words_add (item m : Map) (k : CStr) (d : Int) :
    merge_words (map_add_scan k d item) m = map_add_scan k d (merge_words item m) := by
  induction item generalizing m with
  | nil => rfl
  | cons e item ih =>
    by_cases he : e.key = k
    · simp only [map_add_scan, he, if_true]
      have hstep : merge_words (⟨k, e.count + d⟩ :: item) m =
          merge_words item (map_add_scan k (e.count + d) m) := rfl
      have hstep2 : merge_words (e :: item) m =
          merge_words item (map_add_scan k e.count m) := by
        simp [merge_words, map_add, he]
      rw [hstep, hstep2, map_add_scan_twice]
      exact merge_words_add_present item _ k d
        ((mem_keys_map_add_scan m k e.count k).mpr (Or.inr rfl))
    · simp only [map_add_scan, he, if_false]
      have hstep : merge_words (e :: map_add_scan k d item) m =
          merge_words (map_add_scan k d item) (map_add_scan e.key e.count m) := rfl
      have hstep2 : merge_words (e :: item) m =
          merge_words item (map_add_scan e.key e.count m) := rfl
      rw [hstep, hstep2]
      exact ih _

theorem merge_words_add_keys (ks : List CStr) (item m : Map) :
    merge_words (add_keys item ks) m = add_keys (merge_words item m) ks := by
  induction ks generalizing item with
  | nil => rfl
  | cons k ks ih =>
    rw [add_keys_cons, ih, merge_words_add, ← add_keys_cons]

theorem foldl_cond_map_add_char (c : Nat → Bool) (f : Nat → Char) (l : List Nat) (mc : Map) :
    l.foldl (fun mc i => if c i = true then map_add_char mc (f i) 1 else mc) mc =
      add_keys mc ((l.filter c).map (fun i => cstr [f i, NUL])) := by
  induction l generalizing mc with
  | nil => rfl
  | cons i l ih =>
    simp only [List.foldl_cons, List.filter_cons]
    by_cases h : c i = true
    · simp only [h, if_true, List.map_cons, add_keys_cons]
      rw [ih]
      rfl
    · simp only [h, if_false, Bool.false_eq_true]
      exact ih mc

namespace Main2

/-- The word loop of `main2.c` ends with more fuel than bytes left in `ref`;
its result does not depend on the maps, which receive runs of
`map_add(_, key, 1)`; the character fields of the result are kept and
`correct_words <= total_words` is kept. -/
theorem word_loop_closed (fuel : Nat) (rp tp : CStr) (res : CompareResult)
    (hfuel : rp.length < fuel) :
    ∃ (r : CompareResult) (wk ck : List CStr),
      r.correct_chars = res.correct_chars ∧ r.total_chars = res.total_chars ∧
      (res.correct_words ≤ res.total_words → r.correct_words ≤ r.total_words) ∧
      ∀ mw mc, word_loop fuel rp tp res mw mc = some (r, add_keys mw wk, add_keys mc ck) := by
  induction fuel generalizing rp tp res with
  | zero => omega
  | succ fuel ih =>
    cases hd : rp.dropWhile isspace with
    | nil =>
      refine ⟨res, [], [], rfl, rfl, fun h => h, ?_⟩
      intro mw mc
      unfold word_loop
      rw [hd]
      rfl
    | cons c rp1 =>
      have hc : ¬ isspace c = true := dropWhile_head_not isspace rp c rp1 hd
      have hlen := length_dropWhile_le isspace rp
      rw [hd] at hlen
      have hprog : (collect_word 255 (c :: rp1)).2.length < (c :: rp1).length :=
        collect_word_progress 254 c rp1 hc
      have hf : (collect_word 255 (c :: rp1)).2.length < fuel := by omega
      by_cases heq : (collect_word 255 (c :: rp1)).1 =
          (collect_word 255 (tp.dropWhile isspace)).1
      · obtain ⟨r, wk, ck, h1, h2, h3, h4⟩ := ih (collect_word 255 (c :: rp1)).2
          (collect_word 255 (tp.dropWhile isspace)).2
          { res with total_words := res.total_words + 1,
                     correct_words := res.correct_words + 1 } hf
        refine ⟨r, wk, ck, h1, h2, fun h => h3 (by simp only; omega), ?_⟩
        intro mw mc
        unfold word_loop
        rw [hd]
        simp only [heq, if_true]
        exact h4 mw mc
      · obtain ⟨r, wk, ck, h1, h2, h3, h4⟩ := ih (collect_word 255 (c :: rp1)).2
          (collect_word 255 (tp.dropWhile isspace)).2
          { res with total_words := res.total_words + 1 } hf
        refine ⟨r, (collect_word 255 (c :: rp1)).1 :: wk, ?_, h1, h2,
          fun h => h3 (by simp only; omega), ?_⟩
        · exact (((List.range' 0 ((if (collect_word 255 (c :: rp1)).1.length <
              (collect_word 255 (tp.dropWhile isspace)).1.length then
                (collect_word 255 (c :: rp1)).1.length
              else (collect_word 255 (tp.dropWhile isspace)).1.length) - 0)).filter
            (fun j => decide ((collect_word 255 (tp.dropWhile isspace)).1.getD j NUL ≠
              (collect_word 255 (c :: rp1)).1.getD j NUL))).map
            (fun j => cstr [(collect_word 255 (tp.dropWhile isspace)).1.getD j NUL, NUL]) ++
            (List.range' (collect_word 255 (c :: rp1)).1.length
              ((collect_word 255 (tp.dropWhile isspace)).1.length -
                (collect_word 255 (c :: rp1)).1.length)).map
            (fun j => cstr [(collect_word 255 (tp.dropWhile isspace)).1.getD j NUL, NUL])) ++ ck
        · intro mw mc
          unfold word_loop
          rw [hd]
          simp only [heq, if_false]
          rw [h4]
          simp only [for_loop, add_keys_append, add_keys_cons, map_add, foldl_map_add_char]
          congr 3
          have hcond := foldl_cond_map_add_char
            (fun j => decide ((collect_word 255 (tp.dropWhile isspace)).1.getD j NUL ≠
              (collect_word 255 (c :: rp1)).1.getD j NUL))
            (fun j => (collect_word 255 (tp.dropWhile isspace)).1.getD j NUL)
          simp only [decide_eq_true_eq] at hcond
          rw [hcond]

end Main2

theorem length_takeWhile_le (q : Char → Bool) (s : CStr) :
    (s.takeWhile q).length ≤ s.length := by
  induction s with
  | nil => simp
  | cons c s ih =>
    by_cases h : q c = true
    · rw [List.takeWhile_cons_of_pos h]
      simpa using ih
    · rw [List.takeWhile_cons_of_neg h]
      simp

theorem tokens_by_drop_one (p : Char → Bool) (s : CStr) :
    tokens_by p ((s.dropWhile (fun c => !p c)).drop 1) =
      tokens_by p (s.dropWhile (fun c => !p c)) := by
  cases hd : s.dropWhile (fun c => !p c) with
  | nil => rfl
  | cons x rest =>
    have hx := dropWhile_head_not (fun c => !p c) s x rest hd
    have hp : p x = true := by
      cases hpx : p x with
      | true => rfl
      | false => simp [hpx] at hx
    rw [List.drop_one, List.tail_cons, tokens_by_cons_sep p x rest hp]

theorem tokens_by_cons_token (p : Char → Bool) (c : Char) (s : CStr) (h : ¬ p c = true) :
    tokens_by p (c :: s) = (c :: s).takeWhile (fun c => !p c) ::
      tokens_by p ((c :: s).dropWhile (fun c => !p c)) := by
  rw [tokens_by_cons_run p c s h, tokens_by_drop_one]

theorem tokens_by_congr (p q : Char → Bool) (s : CStr) (h : ∀ c ∈ s, p c = q c) :
    tokens_by p s = tokens_by q s := by
  have hsplit : s.splitOnP p = s.splitOnP q := by
    induction s with
    | nil => rfl
    | cons c s ih =>
      rw [List.splitOnP_cons, List.splitOnP_cons, h c (List.mem_cons_self c s),
        ih (fun d hd => h d (List.mem_cons_of_mem c hd))]
  unfold tokens_by
  rw [hsplit]

theorem takeWhile_word_cons (c : Char) (s : CStr) (hc : ¬ isspace c = true) :
    (c :: s).takeWhile (fun c => !isspace c) = c :: s.takeWhile (fun c => !isspace c) := by
  simp [hc]

theorem dropWhile_word_cons (c : Char) (s : CStr) (hc : ¬ isspace c = true) :
    (c :: s).dropWhile (fun c => !isspace c) = s.dropWhile (fun c => !isspace c) := by
  simp [hc]

namespace Main2

theorem collect_word_eq (room : Nat) (s : CStr)
    (h : (s.takeWhile (fun c => !isspace c)).length ≤ room) :
    collect_word room s =
      (s.takeWhile (fun c => !isspace c), s.dropWhile (fun c => !isspace c)) := by
  induction s generalizing room with
  | nil => cases room <;> rfl
  | cons c s ih =>
    by_cases hc : isspace c = true
    · cases room with
      | zero => simp [collect_word, hc]
      | succ room => simp [collect_word, hc]
    · rw [takeWhile_word_cons c s hc] at h
      rw [takeWhile_word_cons c s hc, dropWhile_word_cons c s hc]
      cases room with
      | zero => simp at h
      | succ room =>
        have h2 : (s.takeWhile (fun c => !isspace c)).length ≤ room := by simpa using h
        simp only [collect_word, hc, if_false, Bool.false_eq_true, ih room h2]

/-- On strings of at most 255 bytes the word loop of `main2.c` pairs the
`isspace`-delimited tokens of `ref` and `typed` as the word loop of `main.c`
pairs its tokens: same result and same word map. -/
theorem word_loop_tokens (fuel : Nat) (rp tp : CStr) (res : CompareResult) (mw mc : Map)
    (hfuel : rp.length < fuel) (hr : rp.length ≤ 255) (ht : tp.length ≤ 255) :
    ∃ mc1, word_loop fuel rp tp res mw mc =
      some ((Main.pair_words (tokens_by isspace rp) (tokens_by isspace tp) res mw).1,
            (Main.pair_words (tokens_by isspace rp) (tokens_by isspace tp) res mw).2, mc1) := by
  induction fuel generalizing rp tp res mw mc with
  | zero => omega
  | succ fuel ih =>
    unfold word_loop
    have htr := tokens_by_dropWhile isspace rp
    have htt := tokens_by_dropWhile isspace tp
    cases hd : rp.dropWhile isspace with
    | nil =>
      rw [hd, tokens_by_nil] at htr
      rw [← htr]
      exact ⟨mc, rfl⟩
    | cons c rp1 =>
      have hc : ¬ isspace c = true := dropWhile_head_not isspace rp c rp1 hd
      have hlen := length_dropWhile_le isspace rp
      rw [hd] at hlen
      have hrw := collect_word_eq 255 (c :: rp1)
        (Nat.le_trans (length_takeWhile_le _ _) (Nat.le_trans hlen hr))
      have hprog : (collect_word 255 (c :: rp1)).2.length < (c :: rp1).length :=
        collect_word_progress 254 c rp1 hc
      have hf : (collect_word 255 (c :: rp1)).2.length < fuel := by omega
      have hr2 : (collect_word 255 (c :: rp1)).2.length ≤ 255 := by omega
      have htlen := length_dropWhile_le isspace tp
      have htw := collect_word_eq 255 (tp.dropWhile isspace)
        (Nat.le_trans (length_takeWhile_le _ _) (Nat.le_trans htlen ht))
      have ht2 : (collect_word 255 (tp.dropWhile isspace)).2.length ≤ 255 := by
        rw [htw]
        exact Nat.le_trans (length_dropWhile_le _ _) (Nat.le_trans htlen ht)
      have hrtok : tokens_by isspace rp = (collect_word 255 (c :: rp1)).1 ::
          tokens_by isspace (collect_word 255 (c :: rp1)).2 := by
        rw [← htr, hd, hrw]
        exact tokens_by_cons_token isspace c rp1 hc
      have hne : (collect_word 255 (c :: rp1)).1 ≠ [] := by
        rw [hrw, takeWhile_word_cons c rp1 hc]
        simp
      rw [hrtok]
      simp only
      cases htd : tp.dropWhile isspace with
      | nil =>
        have htnil : tokens_by isspace tp = [] := by
          rw [← htt, htd, tokens_by_nil]
        have hcw : collect_word 255 ([] : CStr) = ([], []) := rfl
        rw [htnil, hcw]
        have hneq : ¬ (collect_word 255 (c :: rp1)).1 = [] := hne
        simp only [hneq, if_false, Main.pair_words, List.head?_nil, List.tail_nil]
        obtain ⟨mc1, h1⟩ := ih (collect_word 255 (c :: rp1)).2 []
          { res with total_words := res.total_words + 1 }
          (map_add mw (some (collect_word 255 (c :: rp1)).1) 1) _ hf hr2 (by simp)
        rw [tokens_by_nil] at h1
        refine ⟨mc1, ?_⟩
        rw [h1]
        simp
      | cons d tp2 =>
        have hdn : ¬ isspace d = true := dropWhile_head_not isspace tp d tp2 htd
        rw [htd] at htw ht2
        have httok : tokens_by isspace tp = (collect_word 255 (d :: tp2)).1 ::
            tokens_by isspace (collect_word 255 (d :: tp2)).2 := by
          rw [← htt, htd, htw]
          exact tokens_by_cons_token isspace d tp2 hdn
        rw [httok]
        simp only [Main.pair_words, List.head?_cons, List.tail_cons, Option.some.injEq]
        by_cases heq : (collect_word 255 (c :: rp1)).1 = (collect_word 255 (d :: tp2)).1
        · have heq2 : (collect_word 255 (d :: tp2)).1 = (collect_word 255 (c :: rp1)).1 :=
            heq.symm
          simp only [heq, if_true]
          obtain ⟨mc1, h1⟩ := ih (collect_word 255 (c :: rp1)).2 (collect_word 255 (d :: tp2)).2
            { res with total_words := res.total_words + 1,
                       correct_words := res.correct_words + 1 } mw mc hf hr2 ht2
          exact ⟨mc1, h1⟩
        · have heq2 : ¬ (collect_word 255 (d :: tp2)).1 = (collect_word 255 (c :: rp1)).1 :=
            fun e => heq e.symm
          simp only [heq, heq2, if_false]
          obtain ⟨mc1, h1⟩ := ih (collect_word 255 (c :: rp1)).2 (collect_word 255 (d :: tp2)).2
            { res with total_words := res.total_words + 1 }
            (map_add mw (some (collect_word 255 (c :: rp1)).1) 1) _ hf hr2 ht2
          exact ⟨mc1, h1⟩

end Main2

theorem atol_all_digits (line : CStr) (h : ∀ c ∈ line, '0' ≤ c ∧ c ≤ '9') :
    atol line = (decimal_value line : Int) := by
  cases line with
  | nil => simp [atol, atol_digits, decimal_value]
  | cons d D =>
    have hd := h d (List.mem_cons_self d D)
    obtain ⟨f1, f2, f3, _, _⟩ := digit_facts d hd
    have hdw : (d :: D).dropWhile isspace = d :: D := by
      simp [List.dropWhile_cons, f1]
    have hrun := atol_digits_run (d :: D) [] 0 h (by simp)
    rw [List.append_nil] at hrun
    unfold atol
    rw [hdw]
    split
    · rename_i e
      injection e with e _
      exact absurd e f2
    · rename_i e
      injection e with e _
      exact absurd e f3
    · rw [hrun]
      rfl

theorem atoi_value (line : CStr) (v : Int) (hv : atoi line = some v) : v = atol line := by
  unfold atoi at hv
  split at hv
  · injection hv with hv
    exact hv.symm
  · simp at hv

theorem agree_count_le (ref typed : CStr) :
    Main.agree_count ref typed ≤ min ref.length typed.length := by
  unfold Main.agree_count
  exact Nat.le_trans (List.countP_le_length _) (by simp)

theorem word_hits_le (rs ts : List CStr) : Main.word_hits rs ts ≤ rs.length := by
  induction rs generalizing ts with
  | nil => simp [Main.word_hits]
  | cons r rs ih =>
    unfold Main.word_hits
    have := ih ts.tail
    split
    · simp only [List.length_cons]
      omega
    · simp only [List.length_cons]
      omega

theorem accuracy_bounds (correct_chars typed_len : Nat) (h : correct_chars ≤ typed_len)
    (hpos : 0 < typed_len) :
    0 ≤ accuracy correct_chars typed_len ∧ accuracy correct_chars typed_len ≤ 100 := by
  unfold accuracy
  simp only [gt_iff_lt, hpos, if_true]
  have hn : (0 : ℚ) < (typed_len : ℚ) := by exact_mod_cast hpos
  have hc : (correct_chars : ℚ) ≤ (typed_len : ℚ) := by exact_mod_cast h
  have hc0 : (0 : ℚ) ≤ (correct_chars : ℚ) := by exact_mod_cast Nat.zero_le correct_chars
  constructor
  · exact mul_nonneg (div_nonneg hc0 (le_of_lt hn)) (by norm_num)
  · have h1 : (correct_chars : ℚ) / (typed_len : ℚ) ≤ 1 := (div_le_one hn).mpr hc
    calc (correct_chars : ℚ) / (typed_len : ℚ) * 100 ≤ 1 * 100 :=
          mul_le_mul_of_nonneg_right h1 (by norm_num)
      _ = 100 := by norm_num

namespace Main

theorem practice_loop_totals (items : List (CStr × CStr)) (t : SessionTotals)
    (mwords mchars : Map) (h : t.total_correct_chars ≤ t.total_chars_typed)
    (hw : t.total_correct_words ≤ t.total_words) :
    ∃ t1 mw1 mc1, practice_loop items t mwords mchars = some (t1, mw1, mc1) ∧
      t1.total_correct_chars ≤ t1.total_chars_typed ∧
      t1.total_correct_words ≤ t1.total_words := by
  induction items generalizing t mwords mchars with
  | nil => exact ⟨t, mwords, mchars, rfl, h, hw⟩
  | cons p items ih =>
    obtain ⟨ref, typed⟩ := p
    unfold practice_loop
    rw [compare_and_update_eq]
    simp only
    apply ih
    · have h1 := agree_count_le ref typed
      have h2 : min ref.length typed.length ≤ typed.length := Nat.min_le_right _ _
      simp only
      omega
    · have h1 := word_hits_le (ref_tokens ref) (ref_tokens typed)
      simp only
      omega

end Main

theorem is_blank_isspace (c : Char) (h : is_blank c = true) : isspace c = true := by
  simp only [is_blank, Bool.or_eq_true, decide_eq_true_eq] at h
  rcases h with h | h
  · rw [h]
    decide
  · rw [h]
    decide

theorem tokens_isspace_eq_blank (s : CStr)
    (h : ∀ c ∈ s, isspace c = true → c = ' ' ∨ c = '\t') :
    tokens_by isspace s = tokens_by is_blank s := by
  apply tokens_by_congr
  intro c hc
  cases hs : isspace c with
  | true =>
    rcases h c hc hs with e | e
    · rw [e]
      decide
    · rw [e]
      decide
  | false =>
    cases hb : is_blank c with
    | true =>
      have := is_blank_isspace c hb
      rw [hs] at this
      exact absurd this (by simp)
    | false => rfl

theorem ref_tokens_short (s : CStr) (h : s.length ≤ 255) :
    Main.ref_tokens s = tokens_by is_blank s := by
  unfold Main.ref_tokens
  rw [List.take_of_length_le (by simp only [MAX_LINE]; omega)]

theorem add_keys_ne (m : Map) (ks : List CStr) (h : ks ≠ []) : add_keys m ks ≠ m := by
  intro he
  have ht := map_total_add_keys m ks
  rw [he] at ht
  have hl : 0 < ks.length := List.length_pos.mpr h
  omega

theorem word_keys_length (rs ts : List CStr) :
    (Main.word_keys rs ts).length + Main.word_hits rs ts = rs.length := by
  induction rs generalizing ts with
  | nil => rfl
  | cons r rs ih =>
    unfold Main.word_keys Main.word_hits
    by_cases h : ts.head? = some r
    · simp only [h, if_true, List.length_cons]
      have := ih ts.tail
      omega
    · simp only [h, if_false, List.length_cons]
      have := ih ts.tail
      omega

theorem overlap_keys_length (ref typed : CStr) (l : List Nat) :
    (overlap_keys ref typed l).length +
      l.countP (fun i => typed.getD i NUL == ref.getD i NUL) = l.length := by
  induction l with
  | nil => rfl
  | cons i l ih =>
    by_cases h : typed.getD i NUL = ref.getD i NUL
    · simp only [overlap_keys, List.filterMap_cons, h, if_true, List.countP_cons,
        beq_self_eq_true, List.length_cons] at ih ⊢
      omega
    · have hb : (typed.getD i NUL == ref.getD i NUL) = false := by simpa using h
      simp only [overlap_keys, List.filterMap_cons, h, if_false, List.countP_cons, hb,
        List.length_cons, Bool.false_eq_true] at ih ⊢
      omega

theorem char_keys_length (ref typed : CStr) :
    (Main.char_keys ref typed).length + Main.agree_count ref typed =
      max ref.length typed.length := by
  have h := overlap_keys_length ref typed (List.range (min ref.length typed.length))
  rw [List.length_range] at h
  unfold Main.char_keys Main.agree_count
  rw [List.length_append]
  by_cases h1 : typed.length < ref.length
  · simp only [h1, if_true, List.length_map, List.length_range']
    omega
  · by_cases h2 : typed.length > ref.length
    · simp only [h1, h2, if_true, if_false, List.length_map, List.length_range']
      omega
    · simp only [h1, h2, if_false, List.length_nil]
      omega

theorem takeWhile_append_stop (p : Char → Bool) (xs : CStr) (c : Char) (rest : CStr)
    (h : ∀ x ∈ xs, p x = true) (hc : p c = false) :
    (xs ++ c :: rest).takeWhile p = xs ∧ (xs ++ c :: rest).dropWhile p = c :: rest := by
  induction xs with
  | nil => simp [List.takeWhile, List.dropWhile, hc]
  | cons x xs ih =>
    have hx : p x = true := h x (List.mem_cons_self x xs)
    have ih2 := ih (fun y hy => h y (List.mem_cons_of_mem x hy))
    simp [List.takeWhile, List.dropWhile, hx, ih2.1, ih2.2]

theorem dropWhile_append_stop (p : Char → Bool) (xs : CStr) (c : Char) (rest : CStr)
    (hc : p c = false) :
    (xs ++ c :: rest).dropWhile p = xs.dropWhile p ++ c :: rest := by
  induction xs with
  | nil => simp [List.dropWhile, hc]
  | cons x xs ih =>
    by_cases hx : p x = true
    · simp [List.dropWhile, hx, ih]
    · have hx2 : p x = false := by simpa using hx
      simp [List.dropWhile, hx2]

theorem dropWhile_ne_nil (p : Char → Bool) (xs : CStr) (h : ∃ c ∈ xs, p c = false) :
    xs.dropWhile p ≠ [] := by
  induction xs with
  | nil =>
    obtain ⟨c, hc, _⟩ := h
    simp at hc
  | cons x xs ih =>
    by_cases hx : p x = true
    · obtain ⟨c, hc, hpc⟩ := h
      have hcx : c ∈ xs := by
        rcases List.mem_cons.mp hc with rfl | hc2
        · rw [hx] at hpc
          exact absurd hpc (by simp)
        · exact hc2
      simpa [List.dropWhile, hx] using ih ⟨c, hcx, hpc⟩
    · have hx2 : p x = false := by simpa using hx
      simp [List.dropWhile, hx2]

theorem not_mem_dropWhile (p : Char → Bool) (xs : CStr) (c : Char) (h : c ∉ xs) :
    c ∉ xs.dropWhile p :=
  fun hc => h ((List.dropWhile_sublist p).subset hc)

theorem isdigit_facts (c : Char) (h : isdigit c = true) :
    isspace c = false ∧ c ≠ '-' ∧ c ≠ '+' ∧ c ≠ ',' ∧ c ≠ '.' := by
  refine ⟨?_, ?_, ?_, ?_, ?_⟩
  · cases hs : isspace c with
    | false => rfl
    | true =>
      simp only [isspace, Bool.or_eq_true, decide_eq_true_eq] at hs
      rcases hs with ((((rfl | rfl) | rfl) | rfl) | rfl) | rfl <;> exact absurd h (by decide)
  all_goals
    rintro rfl
    exact absurd h (by decide)

theorem scan_sign_digit (c : Char) (r : CStr) (h : isdigit c = true) :
    scan_sign (c :: r) = ([], c :: r) := by
  obtain ⟨_, h1, h2, _, _⟩ := isdigit_facts c h
  unfold scan_sign
  split
  · rename_i heq
    simp only [List.cons.injEq] at heq
    exact absurd heq.1 h1
  · rename_i heq
    simp only [List.cons.injEq] at heq
    exact absurd heq.1 h2
  · rfl

theorem scan_double_fixed (x : Fixed) (hip : digits x.ip) (hfp : digits x.fp) (r : CStr) :
    scan_double (fixed_text x ++ ',' :: r) = .stored (fixed_text x) (',' :: r) := by
  obtain ⟨ip, fp⟩ := x
  obtain ⟨hne, hd⟩ := hip
  obtain ⟨hne2, hd2⟩ := hfp
  simp only at hne hd hne2 hd2
  cases ip with
  | nil => exact absurd rfl hne
  | cons d ip =>
    have hdd : isdigit d = true := hd d (List.mem_cons_self d ip)
    obtain ⟨hsp, _, _, _, _⟩ := isdigit_facts d hdd
    have h1 := takeWhile_append_stop isdigit (d :: ip) '.' (fp ++ ',' :: r) hd (by decide)
    have h2 := takeWhile_append_stop isdigit fp ',' r hd2 (by decide)
    have hdrop : (d :: (ip ++ '.' :: (fp ++ ',' :: r))).dropWhile isspace =
        d :: (ip ++ '.' :: (fp ++ ',' :: r)) := by
      simp [List.dropWhile, hsp]
    have htext : fixed_text ⟨d :: ip, fp⟩ ++ ',' :: r = d :: (ip ++ '.' :: (fp ++ ',' :: r)) := by
      simp [fixed_text]
    have happ : (d :: ip) ++ '.' :: (fp ++ ',' :: r) = d :: (ip ++ '.' :: (fp ++ ',' :: r)) := rfl
    rw [happ] at h1
    rw [htext]
    unfold scan_double
    simp only [hdrop, scan_sign_digit d _ hdd, h1.1, h1.2, h2.1, h2.2]
    simp [hne2, fixed_text]

theorem scan_long_digits (ds : CStr) (hd : digits ds) (r : CStr) :
    scan_long (ds ++ '\n' :: r) = .stored ds ('\n' :: r) := by
  obtain ⟨hne, hd⟩ := hd
  cases ds with
  | nil => exact absurd rfl hne
  | cons d ds =>
    have hdd : isdigit d = true := hd d (List.mem_cons_self d ds)
    obtain ⟨hsp, _, _, _, _⟩ := isdigit_facts d hdd
    have h1 := takeWhile_append_stop isdigit (d :: ds) '\n' r hd (by decide)
    have happ : (d :: ds) ++ '\n' :: r = d :: (ds ++ '\n' :: r) := rfl
    rw [happ] at h1 ⊢
    have hdrop : (d :: (ds ++ '\n' :: r)).dropWhile isspace = d :: (ds ++ '\n' :: r) := by
      simp [List.dropWhile, hsp]
    unfold scan_long
    simp only [hdrop, scan_sign_digit d _ hdd, h1.1, h1.2]
    simp

theorem fscanf_row_fields (ts : CStr) (hts : ',' ∉ ts) (hne : ts ≠ []) (w a : Fixed)
    (hw1 : digits w.ip) (hw2 : digits w.fp) (ha1 : digits a.ip) (ha2 : digits a.fp)
    (ch : CStr) (hch : digits ch) (rest : CStr) :
    fscanf_row (ts ++ ',' :: (fixed_text w ++ ',' :: (fixed_text a ++ ',' ::
      (ch ++ '\n' :: rest)))) =
      .row (fixed_text w) (fixed_text a) ch (rest.dropWhile isspace) := by
  have h1 := takeWhile_append_stop (fun c => c != ',') ts ','
    (fixed_text w ++ ',' :: (fixed_text a ++ ',' :: (ch ++ '\n' :: rest)))
    (fun x hx => by
      have : x ≠ ',' := fun e => hts (e ▸ hx)
      simpa using this) (by decide)
  unfold fscanf_row
  simp only [h1.1, h1.2, hne, if_false, scan_double_fixed w hw1 hw2, scan_double_fixed a ha1 ha2,
    scan_long_digits ch hch]
  simp [List.dropWhile, isspace]

theorem scan_double_not_number (c : Char) (s : CStr) (hsp : isspace c = false)
    (hd : isdigit c = false) (hc : c ∉ ['+', '-', '.', 'i', 'I', 'n', 'N']) :
    scan_double (c :: s) = .failed := by
  simp only [List.mem_cons, List.mem_singleton, List.not_mem_nil, or_false, not_or] at hc
  obtain ⟨h1, h2, h3, h4, h5, h6, h7⟩ := hc
  have hsign : scan_sign (c :: s) = ([], c :: s) := by
    unfold scan_sign
    split
    · rename_i heq
      simp only [List.cons.injEq] at heq
      exact absurd heq.1 h2
    · rename_i heq
      simp only [List.cons.injEq] at heq
      exact absurd heq.1 h1
    · rfl
  unfold scan_double
  simp [List.dropWhile, List.takeWhile, hsp, hsign, hd, h3, h4, h5, h6, h7]

theorem fscanf_row_no_comma (s : CStr) (h : ',' ∉ s) : fscanf_row s = .stop := by
  have hd : s.dropWhile (fun c => c != ',') = [] := by
    rw [List.dropWhile_eq_nil_iff]
    intro x hx
    have : x ≠ ',' := fun e => h (e ▸ hx)
    simpa using this
  unfold fscanf_row
  split
  · rfl
  · rw [hd]

theorem fscanf_row_bad (ts after : CStr) (hts : ',' ∉ ts) (h : scan_double after = .failed) :
    fscanf_row (ts ++ ',' :: after) = .stop := by
  have h1 := takeWhile_append_stop (fun c => c != ',') ts ',' after
    (fun x hx => by
      have : x ≠ ',' := fun e => hts (e ▸ hx)
      simpa using this) (by decide)
  unfold fscanf_row
  split
  · rfl
  · rw [h1.2]
    simp only [h]

theorem stats_rows_sessions {D : Type} (ops : DoubleOps D) (rows : List StatsRow)
    (a : AggregateStats D) : (stats_rows ops rows a).sessions = a.sessions + rows.length := by
  induction rows generalizing a with
  | nil => rfl
  | cons r rows ih =>
    have h := ih (stats_step ops a (fixed_text r.wpm) (fixed_text r.acc))
    simp only [stats_rows, List.foldl_cons, List.length_cons] at h ⊢
    rw [h]
    simp only [stats_step]
    omega

theorem stats_loop_rows {D : Type} (ops : DoubleOps D) (rows : List StatsRow)
    (hwf : ∀ r ∈ rows, row_wf r) (tail : CStr)
    (ht1 : fscanf_row tail = .stop) (ht2 : fscanf_row (tail.dropWhile isspace) = .stop) :
    ∀ (fuel : Nat) (s : CStr) (a : AggregateStats D),
      (s = rows_text rows ++ tail ∨ s = (rows_text rows ++ tail).dropWhile isspace) →
      (rows_text rows ++ tail).length < fuel →
      stats_loop ops fuel s a = some (stats_rows ops rows a) := by
  induction rows with
  | nil =>
    intro fuel s a hs hf
    cases fuel with
    | zero => omega
    | succ n =>
      have hstop : fscanf_row s = .stop := by
        rcases hs with rfl | rfl
        · simpa [rows_text] using ht1
        · simpa [rows_text] using ht2
      simp [stats_loop, hstop, stats_rows]
  | cons r rows ih =>
    intro fuel s a hs hf
    obtain ⟨hts, hex, hw1, hw2, ha1, ha2, hch⟩ := hwf r (List.mem_cons_self r rows)
    have hX : rows_text (r :: rows) ++ tail =
        r.ts ++ ',' :: (fixed_text r.wpm ++ ',' :: (fixed_text r.acc ++ ',' ::
          (r.ch ++ '\n' :: (rows_text rows ++ tail)))) := by
      simp [rows_text, row_text]
    have hne : r.ts ≠ [] := by
      obtain ⟨c, hc, _⟩ := hex
      exact List.ne_nil_of_mem hc
    cases fuel with
    | zero => omega
    | succ n =>
      have hrow : fscanf_row s = .row (fixed_text r.wpm) (fixed_text r.acc) r.ch
          ((rows_text rows ++ tail).dropWhile isspace) := by
        rcases hs with rfl | rfl
        · rw [hX]
          exact fscanf_row_fields r.ts hts hne r.wpm r.acc hw1 hw2 ha1 ha2 r.ch hch _
        · rw [hX, dropWhile_append_stop isspace r.ts ',' _ (by decide)]
          exact fscanf_row_fields (r.ts.dropWhile isspace) (not_mem_dropWhile _ _ _ hts)
            (dropWhile_ne_nil _ _ hex) r.wpm r.acc hw1 hw2 ha1 ha2 r.ch hch _
      have hlen : (rows_text rows ++ tail).length < n := by
        rw [hX] at hf
        simp only [List.length_append, List.length_cons] at hf
        simp only [List.length_append]
        omega
      simp only [stats_loop, hrow]
      rw [ih (fun r2 hr => hwf r2 (List.mem_cons_of_mem _ hr)) n _ _ (Or.inr rfl) hlen]
      simp [stats_rows]

/-- On a stats file of well-formed rows followed by a text at which `fscanf`
does not return 3 (before and after white space is skipped),
`compute_aggregate_stats` returns the result for the rows. -/
theorem compute_rows_tail {D : Type} (ops : DoubleOps D) (rows : List StatsRow)
    (hwf : ∀ r ∈ rows, row_wf r) (tail : CStr)
    (ht1 : fscanf_row tail = .stop) (ht2 : fscanf_row (tail.dropWhile isspace) = .stop) :
    compute_aggregate_stats ops (some (rows_text rows ++ tail)) =
      some (stats_result ops rows) := by
  have h1 := stats_loop_rows ops rows hwf tail ht1 ht2 ((rows_text rows ++ tail).length + 1)
    _ ⟨ops.zero, ops.zero, ops.zero, 0⟩ (Or.inl rfl) (Nat.lt_succ_self _)
  unfold compute_aggregate_stats stats_result
  simp only [h1]
  by_cases hpos : (stats_rows ops rows ⟨ops.zero, ops.zero, ops.zero, 0⟩).sessions > 0
  · simp only [hpos, if_true]
  · simp only [hpos, if_false]

theorem compute_rows {D : Type} (ops : DoubleOps D) (rows : List StatsRow)
    (hwf : ∀ r ∈ rows, row_wf r) :
    compute_aggregate_stats ops (some (rows_text rows)) = some (stats_result ops rows) := by
  have h := compute_rows_tail ops rows hwf [] (by decide) (by decide)
  rw [List.append_nil] at h
  exact h

theorem stats_result_sessions {D : Type} (ops : DoubleOps D) (rows : List StatsRow) :
    (stats_result ops rows).sessions = rows.length := by
  have hs := stats_rows_sessions ops rows ⟨ops.zero, ops.zero, ops.zero, 0⟩
  simp only [Nat.zero_add] at hs
  unfold stats_result
  by_cases hpos : (stats_rows ops rows ⟨ops.zero, ops.zero, ops.zero, 0⟩).sessions > 0
  · simp only [hpos, if_true]
    exact hs
  · simp only [hpos, if_false]
    exact hs

theorem row_text_absorb (it : CStr × StatsRow) :
    row_text (absorb it) = it.1 ++ row_text it.2 := by
  simp [row_text, absorb]

theorem row_wf_absorb (it : CStr × StatsRow) (hj : ',' ∉ it.1) (hr : row_wf it.2) :
    row_wf (absorb it) := by
  obtain ⟨hts, ⟨c, hc, hsp⟩, hrest⟩ := hr
  refine ⟨?_, ⟨c, ?_, hsp⟩, hrest⟩
  · simp only [absorb, List.mem_append, not_or]
    exact ⟨hj, hts⟩
  · simp only [absorb, List.mem_append]
    exact Or.inr hc

theorem junk_text_eq (items : List (CStr × StatsRow)) :
    junk_text items = rows_text (items.map absorb) := by
  induction items with
  | nil => rfl
  | cons it items ih =>
    simp only [junk_text, rows_text, List.flatMap_cons, List.map_cons] at ih ⊢
    rw [ih, row_text_absorb]

theorem stats_rows_absorb {D : Type} (ops : DoubleOps D) (items : List (CStr × StatsRow))
    (a : AggregateStats D) :
    stats_rows ops (items.map absorb) a = stats_rows ops (items.map Prod.snd) a := by
  induction items generalizing a with
  | nil => rfl
  | cons it items ih =>
    simp only [stats_rows, List.map_cons, List.foldl_cons] at ih ⊢
    exact ih _

theorem stats_result_absorb {D : Type} (ops : DoubleOps D) (items : List (CStr × StatsRow)) :
    stats_result ops (items.map absorb) = stats_result ops (items.map Prod.snd) := by
  unfold stats_result
  rw [stats_rows_absorb]

theorem dropWhile_isspace_no_comma (s : CStr) (h : ',' ∉ s) :
    fscanf_row s = .stop ∧ fscanf_row (s.dropWhile isspace) = .stop :=
  ⟨fscanf_row_no_comma s h, fscanf_row_no_comma _ (not_mem_dropWhile _ _ _ h)⟩

theorem fscanf_row_bad_both (ts after : CStr) (hts : ',' ∉ ts)
    (h : scan_double after = .failed) :
    fscanf_row (ts ++ ',' :: after) = .stop ∧
    fscanf_row ((ts ++ ',' :: after).dropWhile isspace) = .stop := by
  refine ⟨fscanf_row_bad ts after hts h, ?_⟩
  rw [dropWhile_append_stop isspace ts ',' after (by decide)]
  exact fscanf_row_bad _ after (not_mem_dropWhile _ _ _ hts) h

/-- On a stats file of well-formed rows, each behind a text without a comma,
followed by a text at which `fscanf` does not return 3,
`compute_aggregate_stats` returns the result for the rows. -/
theorem compute_junk_tail {D : Type} (ops : DoubleOps D) (items : List (CStr × StatsRow))
    (hitems : ∀ it ∈ items, ',' ∉ it.1 ∧ row_wf it.2) (tail : CStr)
    (ht1 : fscanf_row tail = .stop) (ht2 : fscanf_row (tail.dropWhile isspace) = .stop) :
    compute_aggregate_stats ops (some (junk_text items ++ tail)) =
      some (stats_result ops (items.map Prod.snd)) := by
  have hwf : ∀ r ∈ items.map absorb, row_wf r := by
    intro r hr
    obtain ⟨it, hit, rfl⟩ := List.mem_map.mp hr
    exact row_wf_absorb it (hitems it hit).1 (hitems it hit).2
  rw [junk_text_eq, compute_rows_tail ops _ hwf tail ht1 ht2, stats_result_absorb]

/-- Without a row, `compute_aggregate_stats` returns what it starts from: for
a file that cannot be opened and for an empty file the three values are `0.0`
and `sessions` is 0. -/
theorem compute_no_rows {D : Type} (ops : DoubleOps D) :
    compute_aggregate_stats ops none = some ⟨ops.zero, ops.zero, ops.zero, 0⟩ ∧
    compute_aggregate_stats ops (some []) = some ⟨ops.zero, ops.zero, ops.zero, 0⟩ :=
  ⟨rfl, rfl⟩

/-! ## The claims -/

set_option maxRecDepth 20000

/-- C1: for NUL-free (that is, C) strings `ref` and `typed` and every initial
character map, `compare_and_update` of `main.c` returns, and the count of the
key of each character `c` has grown by exactly the number of mismatched overlap
positions whose reference byte is `c`, plus the reference positions behind the
end of `typed` that hold `c`, plus the typed positions behind the end of `ref`
that hold `c`; a key that grows is present afterwards, and every key with no
growth (every key that is not a single character among them) is looked up as
before: it is neither created nor changed. -/
theorem C1_char_mistakes_recorded (ref typed : CStr) (mwords mchars : Map)
    (hr : NUL ∉ ref) (ht : NUL ∉ typed) :
    ∃ res mw mc,
      Main.compare_and_update (some ref) (some typed) mwords mchars = some (res, mw, mc) ∧
      (∀ c, map_count mc [c] = map_count mchars [c] + char_mistakes ref typed c) ∧
      (∀ k, map_get mc k =
        if char_growth ref typed k = 0 then map_get mchars k
        else some (map_count mchars k + char_growth ref typed k)) := by
  refine ⟨_, _, _, Main.compare_and_update_eq ref typed mwords mchars, ?_, ?_⟩
  · intro c
    rw [map_count_add_keys, Main.count_char_keys_char ref typed hr ht]
  · intro k
    rw [map_get_add_keys, char_growth_count ref typed hr ht]

/-- C1, witness: reference "the", typed "teh", empty maps: the keys `h` and `e`
each grow by one. -/
theorem C1_char_mistakes_recorded_witness :
    NUL ∉ "the".toList ∧ NUL ∉ "teh".toList ∧
    ∃ res mw mc,
      Main.compare_and_update (some "the".toList) (some "teh".toList) [] [] =
        some (res, mw, mc) ∧
      map_count mc ['h'] = 1 ∧ map_count mc ['e'] = 1 ∧ map_count mc ['t'] = 0 := by
  obtain ⟨res, mw, mc, h, hc, _⟩ :=
    C1_char_mistakes_recorded "the".toList "teh".toList [] [] (by decide) (by decide)
  refine ⟨by decide, by decide, res, mw, mc, h, ?_, ?_, ?_⟩
  · rw [hc 'h']; decide
  · rw [hc 'e']; decide
  · rw [hc 't']; decide

/-- C2: for every `ref` and `typed`, `compare_and_update` returns (in `main.c`
and in `main2.c`) a result with `total_chars = length(ref)` and with
`correct_chars` the number of positions `i < min(length(ref), length(typed))`
at which `ref[i] = typed[i]`. -/
theorem C2_char_totals (ref typed : CStr) (mwords mchars : Map) :
    (∃ res mw mc,
      Main.compare_and_update (some ref) (some typed) mwords mchars = some (res, mw, mc) ∧
      res.total_chars = ref.length ∧
      res.correct_chars = (List.range (min ref.length typed.length)).countP
        (fun i => decide (ref.getD i NUL = typed.getD i NUL))) ∧
    (∃ res mw mc,
      Main2.compare_and_update (some ref) (some typed) mwords mchars = some (res, mw, mc) ∧
      res.total_chars = ref.length ∧
      res.correct_chars = (List.range (min ref.length typed.length)).countP
        (fun i => decide (ref.getD i NUL = typed.getD i NUL))) := by
  constructor
  · exact ⟨_, _, _, Main.compare_and_update_eq ref typed mwords mchars, rfl,
      agree_count_comm ref typed⟩
  · obtain ⟨r, mw, mc, h1, h2, h3⟩ := Main2.word_loop_returns (ref.length + 1) ref typed
      ⟨Main.agree_count ref typed, ref.length, 0, 0⟩ mwords mchars (Nat.lt_succ_self _)
    refine ⟨r, mw, mc, ?_, h3, ?_⟩
    · rw [Main2.compare_and_update2_chars, h1]
    · rw [h2]
      exact agree_count_comm ref typed

/-- C3, as stated, fails: with the whitespace-delimited tokens (`isspace`) of
`ref = "a\nb"` and `typed = "a"` the claim gives one correct word (`a = a`) and
a mistake for `b`; `main.c` splits at space and tab only, compares the single
token `a\nb` with `a`, returns no correct word and records `a\nb`.  And with
`ref = "a b"` and `typed` an `a`, 510 spaces and a `b` (512 bytes) the claim
gives two correct words, while `main.c` tokenises the first 511 bytes of
`typed`, finds one correct word and records `b`. -/
theorem C3_word_pairing_counterexample :
    (Main.compare_and_update (some ['a', '\n', 'b']) (some ['a']) [] [] =
        some (⟨1, 3, 0, 1⟩, [⟨['a', '\n', 'b'], 1⟩], [⟨['\n'], 1⟩, ⟨['b'], 1⟩]) ∧
      claimed_correct_words (tokens_by isspace ['a', '\n', 'b']) (tokens_by isspace ['a']) = 1 ∧
      claimed_word_mistakes (tokens_by isspace ['a', '\n', 'b']) (tokens_by isspace ['a'])
        ['a', '\n', 'b'] = 0) ∧
    ((Main.compare_and_update (some ['a', ' ', 'b'])
          (some ('a' :: (List.replicate 510 ' ' ++ ['b']))) [] []).map
        (fun r => (r.1.correct_words, r.2.1)) = some (1, [⟨['b'], 1⟩]) ∧
      claimed_correct_words (tokens_by isspace ['a', ' ', 'b'])
        (tokens_by isspace ('a' :: (List.replicate 510 ' ' ++ ['b']))) = 2) := by
  refine ⟨⟨by decide, by decide, by decide⟩, ?_, ?_⟩
  · decide
  · decide

/-- C3, amended: for every `ref` and `typed`, with `r_0 .. r_{k-1}` the tokens
that runs of spaces and tabs delimit in the first 511 bytes of `ref` and
`t_0 .. t_{m-1}` those of the first 511 bytes of `typed`, `compare_and_update`
of `main.c` returns `correct_words` = the number of `i < k` with `i < m` and
`r_i = t_i`, and for every word `w` the count of `w` in the word map grows by
the number of `i < k` with `r_i = w` and (`i >= m` or `r_i != t_i`): a word
that grows is present afterwards, every other key is looked up as before. -/
theorem C3_word_pairing_amended (ref typed : CStr) (mwords mchars : Map) :
    ∃ res mw mc,
      Main.compare_and_update (some ref) (some typed) mwords mchars = some (res, mw, mc) ∧
      res.correct_words =
        claimed_correct_words (tokens_by is_blank (ref.take 511))
          (tokens_by is_blank (typed.take 511)) ∧
      (∀ w, map_count mw w = map_count mwords w +
        claimed_word_mistakes (tokens_by is_blank (ref.take 511))
          (tokens_by is_blank (typed.take 511)) w) ∧
      (∀ w, map_get mw w =
        if claimed_word_mistakes (tokens_by is_blank (ref.take 511))
            (tokens_by is_blank (typed.take 511)) w = 0 then map_get mwords w
        else some (map_count mwords w +
          claimed_word_mistakes (tokens_by is_blank (ref.take 511))
            (tokens_by is_blank (typed.take 511)) w)) := by
  refine ⟨_, _, _, Main.compare_and_update_eq ref typed mwords mchars, ?_, ?_, ?_⟩
  · exact Main.word_hits_eq _ _
  · intro w
    rw [map_count_add_keys, Main.count_word_keys]
    rfl
  · intro w
    rw [map_get_add_keys, Main.count_word_keys]
    rfl

/-- C4, as stated, fails: `ref = "a\nb"` has two maximal runs of
non-whitespace bytes, and `main.c` returns `total_words = 1` (a newline is no
delimiter of its `strtok_r`); `ref` = 511 times `a`, a space and `b` has two
tokens, and `main.c` returns `total_words = 1` (it tokenises the first 511
bytes). -/
theorem C4_total_words_counterexample :
    ((Main.compare_and_update (some ['a', '\n', 'b']) (some []) [] []).map
        (fun r => r.1.total_words) = some 1 ∧
      (tokens_by isspace ['a', '\n', 'b']).length = 2) ∧
    ((Main.compare_and_update (some (List.replicate 511 'a' ++ [' ', 'b'])) (some []) [] []).map
        (fun r => r.1.total_words) = some 1 ∧
      (tokens_by isspace (List.replicate 511 'a' ++ [' ', 'b'])).length = 2 ∧
      (tokens_by is_blank (List.replicate 511 'a' ++ [' ', 'b'])).length = 2) := by
  refine ⟨⟨by decide, by decide⟩, ?_, ?_, ?_⟩
  · decide
  · decide
  · decide

/-- C4, amended: for every `ref`, `compare_and_update` of `main.c` returns
`total_words` equal to the number of tokens obtained by splitting the first
511 bytes of `ref` on runs of spaces and tabs. -/
theorem C4_total_words_amended (ref typed : CStr) (mwords mchars : Map) :
    ∃ res mw mc,
      Main.compare_and_update (some ref) (some typed) mwords mchars = some (res, mw, mc) ∧
      res.total_words = (tokens_by is_blank (ref.take 511)).length :=
  ⟨_, _, _, Main.compare_and_update_eq ref typed mwords mchars, rfl⟩

/-- C5: for every string `ref` and every pair of initial maps,
`compare_and_update(ref, ref, words, chars)` returns `correct_chars =
length(ref)` and `correct_words = total_words` and leaves both maps exactly as
they were, in `main.c` and in `main2.c`; for `ref = "cat dog"` and empty maps
both return 7/7 characters, 2/2 words and empty maps. -/
theorem C5_self_typing (ref : CStr) (mwords mchars : Map) :
    (∃ res, Main.compare_and_update (some ref) (some ref) mwords mchars =
        some (res, mwords, mchars) ∧
      res.correct_chars = ref.length ∧ res.correct_words = res.total_words) ∧
    (∃ res, Main2.compare_and_update (some ref) (some ref) mwords mchars =
        some (res, mwords, mchars) ∧
      res.correct_chars = ref.length ∧ res.correct_words = res.total_words) ∧
    Main.compare_and_update (some "cat dog".toList) (some "cat dog".toList) [] [] =
      some (⟨7, 7, 2, 2⟩, [], []) ∧
    Main2.compare_and_update (some "cat dog".toList) (some "cat dog".toList) [] [] =
      some (⟨7, 7, 2, 2⟩, [], []) := by
  refine ⟨?_, ?_, by decide, by decide⟩
  · refine ⟨⟨Main.agree_count ref ref, ref.length,
      Main.word_hits (Main.ref_tokens ref) (Main.ref_tokens ref),
      (Main.ref_tokens ref).length⟩, ?_, ?_, ?_⟩
    · rw [Main.compare_and_update_eq, word_keys_self, char_keys_self, add_keys_nil, add_keys_nil]
    · exact agree_count_self ref
    · exact word_hits_self _
  · obtain ⟨n, hn⟩ := Main2.word_loop_self (ref.length + 1) ref
      ⟨Main.agree_count ref ref, ref.length, 0, 0⟩ mwords mchars (Nat.lt_succ_self _)
    refine ⟨⟨Main.agree_count ref ref, ref.length, 0 + n, 0 + n⟩, ?_, ?_, ?_⟩
    · rw [Main2.compare_and_update2_chars, hn]
    · exact agree_count_self ref
    · rfl

/-- C6: for every NUL-free (that is, C) string `ref` of length `L` and the
empty typed string, `compare_and_update` of `main.c` returns `correct_chars =
0`, the sum of all counts of the character map grows by `L`, the count of each
character `c` grows by the number of occurrences of `c` in `ref`, and a key
that is not a single character is looked up as before. -/
theorem C6_empty_typed (ref : CStr) (mwords mchars : Map) (hr : NUL ∉ ref) :
    ∃ res mw mc,
      Main.compare_and_update (some ref) (some []) mwords mchars = some (res, mw, mc) ∧
      res.correct_chars = 0 ∧
      map_total mc = map_total mchars + ref.length ∧
      (∀ c, map_count mc [c] = map_count mchars [c] + ref.count c) ∧
      (∀ k, k.length ≠ 1 → map_get mc k = map_get mchars k) := by
  have hnil : NUL ∉ ([] : CStr) := by simp
  refine ⟨_, _, _, Main.compare_and_update_eq ref [] mwords mchars, ?_, ?_, ?_, ?_⟩
  · simp [Main.agree_count]
  · rw [map_total_add_keys]
    by_cases h : 0 < ref.length
    · simp [Main.char_keys, overlap_keys, h]
    · have h0 : ref.length = 0 := by omega
      simp [Main.char_keys, overlap_keys, h0]
  · intro c
    rw [map_count_add_keys, Main.count_char_keys_char ref [] hr hnil]
    simp only [char_mistakes, List.length_nil, Nat.min_zero, List.range_zero, List.countP_nil,
      Nat.zero_add, Nat.add_zero, Nat.zero_le, decide_True, Bool.true_and]
    rw [countP_getD_eq_count]
  · intro k hk
    rw [map_get_add_keys, char_growth_count ref [] hr hnil]
    have h0 : char_growth ref [] k = 0 := by
      unfold char_growth
      split
      · simp at hk
      · rfl
    simp [h0]

/-- C6, witness: reference "the" and the empty typed string from empty maps:
no correct character, three character mistakes, one for each of `t`, `h`, `e`. -/
theorem C6_empty_typed_witness :
    NUL ∉ "the".toList ∧
    ∃ res mw mc,
      Main.compare_and_update (some "the".toList) (some []) [] [] = some (res, mw, mc) ∧
      res.correct_chars = 0 ∧ map_total mc = 3 ∧
      map_count mc ['t'] = 1 ∧ map_count mc ['h'] = 1 ∧ map_count mc ['e'] = 1 ∧
      map_get mc ['t', 'h'] = none := by
  obtain ⟨res, mw, mc, h, h0, ht, hc, hk⟩ :=
    C6_empty_typed "the".toList [] [] (by decide)
  refine ⟨by decide, res, mw, mc, h, h0, ?_, ?_, ?_, ?_, ?_⟩
  · rw [ht]; decide
  · rw [hc 't']; decide
  · rw [hc 'h']; decide
  · rw [hc 'e']; decide
  · rw [hk ['t', 'h'] (by decide)]; rfl

/-- C7, as stated, fails: for `ref` = "a b", `typed` = "a", carriage return,
"b" and the extra token "b", `typed` has as many whitespace-separated tokens
as `ref` (two), and the extra token is non-empty and without whitespace; yet
`compare_and_update(ref, typed)` of `main.c` returns 0 correct words of 2 and
records the word mistakes `a` and `b`, and `compare_and_update(ref, typed ++
" " ++ x)` returns 1 correct word of 2 and records the word mistake `a` only:
`main.c` does not split at the carriage return, so that the extra token is
paired with the second reference token. -/
theorem C7_extra_typed_tokens_counterexample :
    (tokens_by isspace "a b".toList).length ≤ (tokens_by isspace ['a', '\r', 'b']).length ∧
    "b".toList ≠ [] ∧ (∀ c ∈ "b".toList, isspace c = false) ∧
    Main.compare_and_update (some "a b".toList) (some ['a', '\r', 'b']) [] [] =
      some (⟨2, 3, 0, 2⟩, [⟨['a'], 1⟩, ⟨['b'], 1⟩], [⟨[' '], 1⟩]) ∧
    Main.compare_and_update (some "a b".toList) (some (['a', '\r', 'b'] ++ [' '] ++ "b".toList))
        [] [] =
      some (⟨2, 3, 1, 2⟩, [⟨['a'], 1⟩], [⟨[' '], 2⟩, ⟨['b'], 1⟩]) := by
  refine ⟨by decide, by decide, by decide, by decide, by decide⟩

/-- C7, amended: typed tokens beyond the reference token count do not affect
word accuracy when the tokens are counted as `main.c` splits them off, at
spaces and tabs: for every `ref`, `typed` and `x` (so for every non-empty `x`
without whitespace), if `typed` already has at least as many space- or
tab-separated tokens as `ref`, then `compare_and_update(ref, typed ++ " " ++
x)` of `main.c` returns the same `correct_words` and `total_words` as
`compare_and_update(ref, typed)` and leaves the same word map. -/
theorem C7_extra_typed_tokens_ignored (ref typed x : CStr) (mwords mchars : Map)
    (h : (tokens_by is_blank ref).length ≤ (tokens_by is_blank typed).length) :
    ∃ res1 mw1 mc1 res2 mc2,
      Main.compare_and_update (some ref) (some typed) mwords mchars = some (res1, mw1, mc1) ∧
      Main.compare_and_update (some ref) (some (typed ++ [' '] ++ x)) mwords mchars =
        some (res2, mw1, mc2) ∧
      res2.correct_words = res1.correct_words ∧ res2.total_words = res1.total_words := by
  have hhits : Main.word_hits (Main.ref_tokens ref) (Main.ref_tokens (typed ++ [' '] ++ x)) =
        Main.word_hits (Main.ref_tokens ref) (Main.ref_tokens typed) ∧
      Main.word_keys (Main.ref_tokens ref) (Main.ref_tokens (typed ++ [' '] ++ x)) =
        Main.word_keys (Main.ref_tokens ref) (Main.ref_tokens typed) := by
    rcases Main.ref_tokens_append typed x with he | ⟨hfull, xs, hxs⟩
    · rw [he]
      exact ⟨rfl, rfl⟩
    · have hle : (Main.ref_tokens ref).length ≤ (Main.ref_tokens typed).length := by
        rw [hfull]
        exact Nat.le_trans (tokens_by_take_length_le is_blank ref _) h
      rw [hxs]
      exact ⟨Main.word_hits_append _ _ xs hle, Main.word_keys_append _ _ xs hle⟩
  have h1 := Main.compare_and_update_eq ref typed mwords mchars
  have h2 := Main.compare_and_update_eq ref (typed ++ [' '] ++ x) mwords mchars
  rw [hhits.1, hhits.2] at h2
  exact ⟨_, _, _, _, _, h1, h2, rfl, rfl⟩

/-- C7, amended, witness: reference "a b", typed "a c", extra token "b": one correct
word of two and the word map `b -> 1`, with and without the extra token. -/
theorem C7_extra_typed_tokens_ignored_witness :
    (tokens_by is_blank "a b".toList).length ≤ (tokens_by is_blank "a c".toList).length ∧
    ∃ res1 mw1 mc1 res2 mc2,
      Main.compare_and_update (some "a b".toList) (some "a c".toList) [] [] =
        some (res1, mw1, mc1) ∧
      Main.compare_and_update (some "a b".toList) (some ("a c".toList ++ [' '] ++ "b".toList))
        [] [] = some (res2, mw1, mc2) ∧
      res2.correct_words = res1.correct_words ∧ res2.total_words = res1.total_words :=
  ⟨by decide, C7_extra_typed_tokens_ignored "a b".toList "a c".toList "b".toList [] []
    (by decide)⟩

/-- C8: `compare_and_update` of `main.c` is cumulative, not idempotent: for
every `ref`, `typed` and initial maps, two calls in a row with the same `ref`
and `typed` return the same `CompareResult`, and for every key of either map
the increase of its count after the two calls is exactly twice the increase
after one call.  The increase after one call is the number of mistakes the
call records: the counts of the word map grow in all by the number of
reference tokens that are not correct words, those of the character map by the
number of positions of the longer string that are not correct characters, and
the second call adds as much again, so that it leaves both maps as the first
call left them only if there is no mistake to record.  For "the" typed as
"teh" on empty maps the first call leaves `the -> 1` and `h -> 1, e -> 1`, the
second `the -> 2` and `h -> 2, e -> 2`. -/
theorem C8_cumulative (ref typed : CStr) (mwords mchars : Map) :
    (∃ res mw1 mc1 mw2 mc2,
      Main.compare_and_update (some ref) (some typed) mwords mchars = some (res, mw1, mc1) ∧
      Main.compare_and_update (some ref) (some typed) mw1 mc1 = some (res, mw2, mc2) ∧
      (∀ k, map_count mw2 k - map_count mwords k =
        2 * (map_count mw1 k - map_count mwords k)) ∧
      (∀ k, map_count mc2 k - map_count mchars k =
        2 * (map_count mc1 k - map_count mchars k)) ∧
      map_total mw1 - map_total mwords = (res.total_words : Int) - res.correct_words ∧
      map_total mw2 - map_total mw1 = (res.total_words : Int) - res.correct_words ∧
      map_total mc1 - map_total mchars =
        ((max ref.length typed.length : Nat) : Int) - res.correct_chars ∧
      map_total mc2 - map_total mc1 =
        ((max ref.length typed.length : Nat) : Int) - res.correct_chars ∧
      (mw2 = mw1 ↔ res.correct_words = res.total_words) ∧
      (mc2 = mc1 ↔ res.correct_chars = max ref.length typed.length)) ∧
    Main.compare_and_update (some "the".toList) (some "teh".toList) [] [] =
      some (⟨1, 3, 0, 1⟩, [⟨"the".toList, 1⟩], [⟨['h'], 1⟩, ⟨['e'], 1⟩]) ∧
    Main.compare_and_update (some "the".toList) (some "teh".toList)
        [⟨"the".toList, 1⟩] [⟨['h'], 1⟩, ⟨['e'], 1⟩] =
      some (⟨1, 3, 0, 1⟩, [⟨"the".toList, 2⟩], [⟨['h'], 2⟩, ⟨['e'], 2⟩]) := by
  have hw := word_keys_length (Main.ref_tokens ref) (Main.ref_tokens typed)
  have hc := char_keys_length ref typed
  refine ⟨⟨_, _, _, _, _, Main.compare_and_update_eq ref typed mwords mchars,
    Main.compare_and_update_eq ref typed _ _, ?_, ?_, ?_, ?_, ?_, ?_, ?_, ?_⟩, by decide,
    by decide⟩
  · intro k
    rw [map_count_add_keys, map_count_add_keys]
    ring
  · intro k
    rw [map_count_add_keys, map_count_add_keys]
    ring
  · rw [map_total_add_keys]
    simp only
    omega
  · rw [map_total_add_keys]
    simp only
    omega
  · rw [map_total_add_keys]
    simp only
    omega
  · rw [map_total_add_keys]
    simp only
    omega
  · simp only
    constructor
    · intro h
      by_contra hne
      have hk : Main.word_keys (Main.ref_tokens ref) (Main.ref_tokens typed) ≠ [] := by
        intro h0
        rw [h0] at hw
        simp only [List.length_nil, Nat.zero_add] at hw
        exact hne hw
      exact add_keys_ne _ _ hk h
    · intro h
      have h0 : Main.word_keys (Main.ref_tokens ref) (Main.ref_tokens typed) = [] := by
        apply List.eq_nil_of_length_eq_zero
        omega
      rw [h0]
      rfl
  · simp only
    constructor
    · intro h
      by_contra hne
      have hk : Main.char_keys ref typed ≠ [] := by
        intro h0
        rw [h0] at hc
        simp only [List.length_nil, Nat.zero_add] at hc
        exact hne hc
      exact add_keys_ne _ _ hk h
    · intro h
      have h0 : Main.char_keys ref typed = [] := by
        apply List.eq_nil_of_length_eq_zero
        omega
      rw [h0]
      rfl

/-- C9: for every map with unique keys, non-null key `k` and delta `d` of
either sign: if the entry at an index `i` has key `k`, `map_add(m, k, d)` is
`m` with that entry's count replaced by `count + d`, every other entry and the
order being as before; if no entry has key `k`, it is `m` with the one entry
`(k, d)` appended. -/
theorem C9_map_add_increments_or_appends (m : Map) (k : CStr) (d : Int)
    (hu : (map_keys m).Nodup) :
    (∀ (i : Nat) (hi : i < m.length), (m.get ⟨i, hi⟩).key = k →
      map_add m (some k) d = m.set i ⟨k, (m.get ⟨i, hi⟩).count + d⟩) ∧
    ((∀ e ∈ m, e.key ≠ k) → map_add m (some k) d = m ++ [⟨k, d⟩]) :=
  ⟨fun i hi hk => map_add_scan_present m k d hu i hi hk,
   fun h => map_add_scan_absent m k d h⟩

/-- C9, witness: in the map `a -> 1, b -> 2`, adding `-3` to `b` gives
`a -> 1, b -> -1`, and adding `4` to the absent key `c` appends `c -> 4`. -/
theorem C9_map_add_increments_or_appends_witness :
    (map_keys [⟨['a'], 1⟩, ⟨['b'], 2⟩]).Nodup ∧
    map_add [⟨['a'], 1⟩, ⟨['b'], 2⟩] (some ['b']) (-3) = [⟨['a'], 1⟩, ⟨['b'], -1⟩] ∧
    map_add [⟨['a'], 1⟩, ⟨['b'], 2⟩] (some ['c']) 4 =
      [⟨['a'], 1⟩, ⟨['b'], 2⟩, ⟨['c'], 4⟩] :=
  ⟨by decide,
   (C9_map_add_increments_or_appends [⟨['a'], 1⟩, ⟨['b'], 2⟩] ['b'] (-3) (by decide)).1 1
     (by decide) (by decide),
   (C9_map_add_increments_or_appends [⟨['a'], 1⟩, ⟨['b'], 2⟩] ['c'] 4 (by decide)).2
     (by decide)⟩

/-- C10, as stated, fails: `map_add(m, "", 1)` on the empty map creates the
entry `("", 1)`, and so do `map_add_char` with the NUL character and
`load_map_from_file` on the line `"\t5\n"` (entry `("", 5)`). -/
theorem C10_empty_key_counterexample :
    map_add map_init (some []) 1 = [⟨[], 1⟩] ∧
    map_add map_init (some []) 1 ≠ map_init ∧
    map_add_char map_init NUL 1 = [⟨[], 1⟩] ∧
    load_map_line map_init ['\t', '5', '\n'] = [⟨[], 5⟩] := by
  refine ⟨by decide, by decide, by decide, by decide⟩

/-- C10, amended: `map_add` is a no-op when the key is absent: `map_add(m,
NULL, d)` leaves `m` unchanged.  The empty key is a key like every other:
after `map_add(m, "", d)` the empty key holds its former count (0 if it was
absent) plus `d` and every other key is looked up as before; `map_add_char`
with the NUL character is `map_add` with the empty key, and so is
`load_map_from_file` on a line that starts with a tab and whose count is not
zero. -/
theorem C10_null_key_amended (m : Map) (d : Int) :
    map_add m none d = m ∧
    (∀ k, map_get (map_add m (some []) d) k =
      if k = [] then some (map_count m [] + d) else map_get m k) ∧
    map_add_char m NUL d = map_add m (some []) d ∧
    (∀ num, load_map_line m ('\t' :: num) =
      if atol num ≠ 0 then map_add m (some []) (atol num) else m) := by
  refine ⟨rfl, ?_, ?_, ?_⟩
  · intro k
    exact map_get_add_scan m [] k d
  · simp [map_add_char, cstr_nul]
  · intro num
    simp [load_map_line]

/-- C11: key uniqueness is an invariant of the map: if no two entries of `m`
have equal keys, none do after `map_add(m, k, d)`, for every `k` (`NULL` and
the empty key included) and `d`; and every map reachable from `map_init` by
`map_add`, `map_add_char`, `load_map_from_file` and `compare_and_update` calls
has at most one entry per key. -/
theorem C11_key_uniqueness (m : Map) :
    (∀ k d, (map_keys m).Nodup → (map_keys (map_add m k d)).Nodup) ∧
    (Reachable m → (map_keys m).Nodup) :=
  ⟨fun k d h => nodup_map_add m k d h,
   fun h => reachable_keeps (fun m => (map_keys m).Nodup) (by simp [map_init, map_keys])
     (fun m k d hm => nodup_map_add m k d hm) m h⟩

/-- C11, witness: the map `a -> 1` is reachable (one `map_add` on the empty
map), has unique keys, and keeps them when `b` is added. -/
theorem C11_key_uniqueness_witness :
    (map_keys [⟨['a'], 1⟩]).Nodup ∧ Reachable [⟨['a'], 1⟩] ∧
    (map_keys (map_add [⟨['a'], 1⟩] (some ['b']) 2)).Nodup ∧
    (map_keys [⟨['a'], 1⟩]).Nodup :=
  ⟨by decide, Reachable.add map_init (some ['a']) 1 Reachable.init,
   (C11_key_uniqueness [⟨['a'], 1⟩]).1 (some ['b']) 2 (by decide),
   (C11_key_uniqueness [⟨['a'], 1⟩]).2 (Reachable.add map_init (some ['a']) 1 Reachable.init)⟩

/-- C12: `map_add` is cumulative: for every key `k` (every non-empty key among
them), delta `d` and `n >= 1`, `n` calls of `map_add(m, k, d)` on a freshly
initialised map leave exactly one entry, `(k, n * d)`. -/
theorem C12_add_cumulative (k : CStr) (d : Int) (n : Nat) (hn : 1 ≤ n) :
    Nat.iterate (fun m => map_add m (some k) d) n map_init = [⟨k, (n : Int) * d⟩] := by
  induction n with
  | zero => omega
  | succ n ih =>
    rw [Function.iterate_succ_apply']
    cases n with
    | zero => simp [map_add, map_add_scan, map_init]
    | succ n =>
      rw [ih (by omega)]
      simp only [map_add, map_add_scan, if_true]
      congr 2
      push_cast
      ring

/-- C12, witness: three calls of `map_add(m, k, 1)` on a fresh map, for the
key "the", yield exactly the entry `the -> 3`. -/
theorem C12_add_cumulative_witness :
    1 ≤ 3 ∧
    map_add (map_add (map_add map_init (some "the".toList) 1) (some "the".toList) 1)
      (some "the".toList) 1 = [⟨"the".toList, 3⟩] :=
  ⟨by decide, C12_add_cumulative "the".toList 1 3 (by decide)⟩

/-- C13: for every map (with unique keys or not) and every `n >= 0`, the
entries listed by `show_top_map(m, n)` are exactly the first `min(n, size(m))`
elements of the entries of the map arranged by count descending with ties
broken by ascending `strcmp` order of the keys: they are the prefix of that
length of every arrangement of the entries that is so ordered, the listed
sequence is so ordered, it has `min(n, size(m))` elements, every entry left
out has a count no greater than every entry listed, an empty map lists
nothing, and the selection for training is the listing for `TOP_N`. -/
theorem C13_top_entries (m : Map) (n : Nat) :
    (∀ s : List KeyCount, s.Perm m → s.Pairwise ranked_before →
      show_top_map m (n : Int) = s.take (min n m.length)) ∧
    (show_top_map m (n : Int)).Pairwise ranked_before ∧
    (show_top_map m (n : Int)).length = min n m.length ∧
    (∀ e ∈ m, e ∉ show_top_map m (n : Int) →
      ∀ f ∈ show_top_map m (n : Int), e.count ≤ f.count) ∧
    (m = [] → show_top_map m (n : Int) = []) ∧
    training_selection m = show_top_map m (TOP_N : Int) := by
  refine ⟨?_, ?_, ?_, ?_, ?_, ?_⟩
  · intro s hp hs
    rw [show_top_map_eq, qsort_unique m s hp hs]
  · rw [show_top_map_eq]
    exact (qsort_sorted m).sublist (List.take_sublist _ _)
  · rw [show_top_map_eq, List.length_take, (qsort_perm m).length_eq]
    omega
  · intro e he hne f hf
    rw [show_top_map_eq] at hne hf
    have hmem : e ∈ qsort cmp_kc_desc m := (qsort_perm m).mem_iff.mpr he
    rw [← List.take_append_drop (min n m.length) (qsort cmp_kc_desc m), List.mem_append] at hmem
    have hdrop : e ∈ (qsort cmp_kc_desc m).drop (min n m.length) := by
      rcases hmem with h | h
      · exact absurd h hne
      · exact h
    have hs := qsort_sorted m
    rw [← List.take_append_drop (min n m.length) (qsort cmp_kc_desc m),
      List.pairwise_append] at hs
    have hr := hs.2.2 f hf e hdrop
    unfold ranked_before at hr
    rcases hr with h | ⟨h, _⟩
    · omega
    · omega
  · intro h
    subst h
    rfl
  · rw [show_top_map_eq]
    unfold training_selection
    by_cases h : m.length < TOP_N
    · simp only [h, if_true]
      rw [Nat.min_eq_right (Nat.le_of_lt h)]
    · simp only [h, if_false]
      rw [Nat.min_eq_left (Nat.le_of_not_lt h)]

/-- C13, witness: in the map `b -> 2, a -> 2, c -> 5, d -> 1` the two top
entries are `c -> 5` and then `a -> 2` (the tie with `b` goes to `a`); the
entry `d -> 1` is left out and its count is not above that of `c`. -/
theorem C13_top_entries_witness :
    show_top_map [⟨['b'], 2⟩, ⟨['a'], 2⟩, ⟨['c'], 5⟩, ⟨['d'], 1⟩] 2 =
      [⟨['c'], 5⟩, ⟨['a'], 2⟩] ∧
    (1 : Int) ≤ 5 ∧
    show_top_map [] 2 = [] := by
  have h := C13_top_entries [⟨['b'], 2⟩, ⟨['a'], 2⟩, ⟨['c'], 5⟩, ⟨['d'], 1⟩] 2
  refine ⟨?_, ?_, ?_⟩
  · exact h.1 [⟨['c'], 5⟩, ⟨['a'], 2⟩, ⟨['b'], 2⟩, ⟨['d'], 1⟩] (by decide)
      (by simp [ranked_before, strcmp])
  · exact h.2.2.2.1 ⟨['d'], 1⟩ (by decide) (by decide) ⟨['c'], 5⟩ (by decide)
  · exact (C13_top_entries [] 2).2.2.2.2.1 rfl

/-- C14, as stated, fails: the character map that `compare_and_update` of
`main.c` leaves for the reference "cat" and the typed line "cat" with a tab
appended holds the key made of the tab; `save_map_to_file` writes it as the
line of two tabs, `1` and a newline, from which `load_map_from_file` reads the
empty key with count 1 into a fresh map: the pair (tab, 1) does not come
back. -/
theorem C14_round_trip_counterexample :
    Main.compare_and_update (some "cat".toList) (some ("cat".toList ++ ['\t'])) [] [] =
      some (⟨3, 3, 1, 1⟩, [], [⟨['\t'], 1⟩]) ∧
    (map_keys [⟨['\t'], 1⟩]).Nodup ∧
    save_map_to_file [⟨['\t'], 1⟩] = ['\t', '\t', '1', '\n'] ∧
    load_map_from_file map_init (some (save_map_to_file [⟨['\t'], 1⟩])) = some [⟨[], 1⟩] := by
  refine ⟨by decide, by decide, by decide, by decide⟩

/-- C14, amended: for every map `m` with unique keys whose keys contain
neither a tab nor a newline and whose lines (key, tab, count, newline) are at
most 511 bytes long, writing `m` with `save_map_to_file` and reading the
written text with `load_map_from_file` into a freshly initialised map yields
the entries of `m` whose count is not 0, in the order of `m`: the set of (key,
count) pairs of `m` minus the entries whose count is 0. -/
theorem C14_round_trip_amended (m : Map) (hu : (map_keys m).Nodup)
    (hk : ∀ e ∈ m, '\t' ∉ e.key ∧ '\n' ∉ e.key)
    (hlen : ∀ e ∈ m, e.key.length + (print_long e.count).length + 2 ≤ 511) :
    load_map_from_file map_init (some (save_map_to_file m)) =
      some (m.filter (fun e => decide (e.count ≠ 0))) ∧
    (∀ e, e ∈ m.filter (fun e => decide (e.count ≠ 0)) ↔ e ∈ m ∧ e.count ≠ 0) := by
  have hlines := text_lines_save m (fun e he => (hk e he).2)
  constructor
  · have hloop := load_map_loop_lines ((save_map_to_file m).length + 1) map_init
      (save_map_to_file m) (Nat.lt_succ_self _) (by
        rw [hlines]
        intro l hl
        obtain ⟨e, he, rfl⟩ := List.mem_map.mp hl
        have := hlen e he
        simp only [entry_line, List.length_append, List.length_singleton, MAX_LINE]
        omega)
    have hfold := foldl_load_entries m map_init (fun e he => (hk e he).1) hu (by
      intro e _
      simp [map_init, map_keys])
    rw [hlines, hfold] at hloop
    exact hloop
  · intro e
    simp

/-- C14, witness: the map `the -> 3, e -> 0, h -> -2` is written as three
lines and read back as `the -> 3, h -> -2`. -/
theorem C14_round_trip_amended_witness :
    (map_keys [⟨"the".toList, 3⟩, ⟨['e'], 0⟩, ⟨['h'], -2⟩]).Nodup ∧
    save_map_to_file [⟨"the".toList, 3⟩, ⟨['e'], 0⟩, ⟨['h'], -2⟩] =
      "the\t3\ne\t0\nh\t-2\n".toList ∧
    load_map_from_file map_init
        (some (save_map_to_file [⟨"the".toList, 3⟩, ⟨['e'], 0⟩, ⟨['h'], -2⟩])) =
      some [⟨"the".toList, 3⟩, ⟨['h'], -2⟩] :=
  ⟨by decide, by decide,
   (C14_round_trip_amended [⟨"the".toList, 3⟩, ⟨['e'], 0⟩, ⟨['h'], -2⟩] (by decide)
     (by decide) (by decide)).1⟩

/-- C15, as stated, fails: the file of the one line made of 511 times `a`, a
tab, `5` and a newline is read by `fgets` in two pieces, the 511 `a` (no tab:
skipped) and the rest, which adds the empty key with count 5; the fold over
the lines of the file applies `map_add` with the key of 511 `a`. -/
theorem C15_load_fold_counterexample :
    load_map_from_file map_init (some (List.replicate 511 'a' ++ ['\t', '5', '\n'])) =
      some [⟨[], 5⟩] ∧
    (text_lines (List.replicate 511 'a' ++ ['\t', '5', '\n'])).foldl load_map_line map_init =
      [⟨List.replicate 511 'a', 5⟩] := by
  refine ⟨by decide, by decide⟩

/-- C15, amended: for every map file that is read as text (no NUL byte, lines
of at most 511 bytes with the newline, counts in the range of `long`),
`load_map_from_file` returns the left fold of the line step over the lines of
the file (a file that cannot be opened leaves the map unchanged); on every
line of the file the step leaves the map unchanged if the line has no tab or
if its count field, the text behind the first tab, parses to zero, as it does
when it is not a number; for every other line it applies `map_add(text before
the first tab, parsed count)`. -/
theorem C15_load_fold_amended (m : Map) (content : CStr) (h : text_map_file content) :
    load_map_from_file m (some content) = some ((text_lines content).foldl load_map_line m) ∧
    load_map_from_file m none = some m ∧
    (∀ (m2 : Map), ∀ l ∈ text_lines content,
      ('\t' ∉ l → load_map_line m2 l = m2) ∧
      (∀ (key num : CStr), l = key ++ '\t' :: num → '\t' ∉ key →
        load_map_line m2 l =
          if atol num = 0 then m2 else map_add m2 (some key) (atol num))) ∧
    (∀ (c : Char) (rest : CStr), isspace c = false → c ≠ '-' → c ≠ '+' →
      ¬ ('0' ≤ c ∧ c ≤ '9') → atol (c :: rest) = 0) :=
  ⟨load_map_loop_lines _ m content (Nat.lt_succ_self _) (fun l hl => (h.2 l hl).1), rfl,
   fun m2 l _ => ⟨fun ht => load_map_line_no_tab m2 l ht,
     fun key num he ht => he ▸ load_map_line_tab m2 key num ht⟩,
   fun c rest hs hm hp hd => atol_not_number c rest hs hm hp hd⟩

/-- C15, amended, witness: the file of the lines `a<tab>2`, `zz`, `b<tab>x`,
`a<tab>3` loads into the empty map as `a -> 5`: the second line has no tab,
the count of the third is not a number, and the fourth line is still
processed. -/
theorem C15_load_fold_amended_witness :
    text_map_file "a\t2\nzz\nb\tx\na\t3\n".toList ∧
    load_map_from_file [] (some "a\t2\nzz\nb\tx\na\t3\n".toList) = some [⟨['a'], 5⟩] ∧
    load_map_line [⟨['a'], 2⟩] "zz\n".toList = [⟨['a'], 2⟩] ∧
    load_map_line [⟨['a'], 2⟩] "b\tx\n".toList = [⟨['a'], 2⟩] ∧
    load_map_line [⟨['a'], 2⟩] "a\t3\n".toList = [⟨['a'], 5⟩] ∧
    atol "x\n".toList = 0 :=
  have hf : text_map_file "a\t2\nzz\nb\tx\na\t3\n".toList := ⟨by decide, by decide⟩
  ⟨hf,
   (C15_load_fold_amended [] "a\t2\nzz\nb\tx\na\t3\n".toList hf).1,
   ((C15_load_fold_amended [] "a\t2\nzz\nb\tx\na\t3\n".toList hf).2.2.1 [⟨['a'], 2⟩]
     "zz\n".toList (by decide)).1 (by decide),
   ((C15_load_fold_amended [] "a\t2\nzz\nb\tx\na\t3\n".toList hf).2.2.1 [⟨['a'], 2⟩]
     "b\tx\n".toList (by decide)).2 "b".toList "x\n".toList rfl (by decide),
   ((C15_load_fold_amended [] "a\t2\nzz\nb\tx\na\t3\n".toList hf).2.2.1 [⟨['a'], 2⟩]
     "a\t3\n".toList (by decide)).2 "a".toList "3\n".toList rfl (by decide),
   (C15_load_fold_amended [] "a\t2\nzz\nb\tx\na\t3\n".toList hf).2.2.2 'x' ['\n']
     (by decide) (by decide) (by decide) (by decide)⟩

/-- C16: over exact rational arithmetic, the gross words per minute are
`(typedLength / 5) / (elapsedSeconds / 60)` when `elapsedSeconds > 0` and 0
otherwise, and the accuracy in percent is `correctChars / typedLength * 100`
when `typedLength > 0` and 0 otherwise (per item and, with the totals, per
session); for 60 seconds, 25 typed bytes and 20 correct ones they are 5 and
80. -/
theorem C16_metrics (secs : ℚ) (typed_len correct_chars : Nat) :
    gross_wpm secs typed_len =
      (if secs > 0 then ((typed_len : ℚ) / 5) / (secs / 60) else 0) ∧
    accuracy correct_chars typed_len =
      (if typed_len > 0 then (correct_chars : ℚ) / (typed_len : ℚ) * 100 else 0) ∧
    gross_wpm 60 25 = 5 ∧ accuracy 20 25 = 80 := by
  refine ⟨?_, rfl, ?_, ?_⟩
  · unfold gross_wpm
    have h : (secs / 60 > 0) ↔ (secs > 0) := by
      constructor
      · intro h
        have := mul_pos h (by norm_num : (0 : ℚ) < 60)
        simpa using this
      · intro h
        exact div_pos h (by norm_num)
    simp only [h]
  · unfold gross_wpm
    norm_num
  · unfold accuracy
    norm_num

/-- C18, as stated, fails: in the stats file of the three lines
`2024-01-01T10:00:00,40.00,90.00,100`, `x,abc,1,1` and
`2024-01-02T10:00:00,60.00,80.00,100` the second row is malformed (its wpm
field is not a number); `compute_aggregate_stats` returns `sessions = 1` for
it, whatever the arithmetic of `double`, and `sessions = 2` for the file
without the malformed row: the well-formed row that follows the malformed one
is not counted. -/
theorem C18_malformed_rows_counterexample :
    (∀ (D : Type) (ops : DoubleOps D),
      (compute_aggregate_stats ops (some
        ("2024-01-01T10:00:00,40.00,90.00,100\n".toList ++ "x,abc,1,1\n".toList ++
          "2024-01-02T10:00:00,60.00,80.00,100\n".toList))).map (fun a => a.sessions) =
        some 1) ∧
    (∀ (D : Type) (ops : DoubleOps D),
      (compute_aggregate_stats ops (some
        ("2024-01-01T10:00:00,40.00,90.00,100\n".toList ++
          "2024-01-02T10:00:00,60.00,80.00,100\n".toList))).map (fun a => a.sessions) =
        some 2) := by
  constructor
  · intro D ops
    have h := compute_rows_tail ops
      [⟨"2024-01-01T10:00:00".toList, ⟨['4', '0'], ['0', '0']⟩, ⟨['9', '0'], ['0', '0']⟩,
        ['1', '0', '0']⟩]
      (by decide) ("x,abc,1,1\n".toList ++ "2024-01-02T10:00:00,60.00,80.00,100\n".toList)
      (by decide) (by decide)
    have he : rows_text [⟨"2024-01-01T10:00:00".toList, ⟨['4', '0'], ['0', '0']⟩,
          ⟨['9', '0'], ['0', '0']⟩, ['1', '0', '0']⟩] ++
        ("x,abc,1,1\n".toList ++ "2024-01-02T10:00:00,60.00,80.00,100\n".toList) =
        "2024-01-01T10:00:00,40.00,90.00,100\n".toList ++ "x,abc,1,1\n".toList ++
          "2024-01-02T10:00:00,60.00,80.00,100\n".toList := by decide
    rw [he] at h
    rw [h, Option.map_some', stats_result_sessions]
    rfl
  · intro D ops
    have h := compute_rows ops
      [⟨"2024-01-01T10:00:00".toList, ⟨['4', '0'], ['0', '0']⟩, ⟨['9', '0'], ['0', '0']⟩,
        ['1', '0', '0']⟩,
       ⟨"2024-01-02T10:00:00".toList, ⟨['6', '0'], ['0', '0']⟩, ⟨['8', '0'], ['0', '0']⟩,
        ['1', '0', '0']⟩]
      (by decide)
    have he : rows_text
        [⟨"2024-01-01T10:00:00".toList, ⟨['4', '0'], ['0', '0']⟩, ⟨['9', '0'], ['0', '0']⟩,
          ['1', '0', '0']⟩,
         ⟨"2024-01-02T10:00:00".toList, ⟨['6', '0'], ['0', '0']⟩, ⟨['8', '0'], ['0', '0']⟩,
          ['1', '0', '0']⟩] =
        "2024-01-01T10:00:00,40.00,90.00,100\n".toList ++
          "2024-01-02T10:00:00,60.00,80.00,100\n".toList := by decide
    rw [he] at h
    rw [h, Option.map_some', stats_result_sessions]
    rfl

/-- C18, amended: a text without a comma before a row of the stats file (so
every line without a comma, a blank line among them) is skipped without
aborting the scan, but a row whose wpm field does not begin a number ends the
scan.  For every sequence of well-formed rows, each behind a text without a
comma, `compute_aggregate_stats` returns the same `sessions`, `avg_wpm`,
`best_wpm` and `avg_acc` as on the rows alone, with `sessions` the number of
rows, also when a text without a comma follows the last row; and when the rows
are followed by a row whose wpm field begins with a character `c` that is
neither white space nor a digit, a sign, a point or one of `i`, `I`, `n`, `N`,
and by any further text, it still returns what it returns on the rows before
that row alone: the rows behind it are not counted. -/
theorem C18_malformed_rows_amended {D : Type} (ops : DoubleOps D)
    (items : List (CStr × StatsRow)) (junk ts : CStr) (c : Char) (more : CStr)
    (hitems : ∀ it ∈ items, ',' ∉ it.1 ∧ row_wf it.2)
    (hjunk : ',' ∉ junk) (hts : ',' ∉ ts)
    (hc : isspace c = false ∧ isdigit c = false ∧ c ∉ ['+', '-', '.', 'i', 'I', 'n', 'N']) :
    (∃ a, compute_aggregate_stats ops (some (rows_text (items.map Prod.snd))) = some a ∧
      a.sessions = items.length) ∧
    compute_aggregate_stats ops (some (junk_text items ++ junk)) =
      compute_aggregate_stats ops (some (rows_text (items.map Prod.snd))) ∧
    compute_aggregate_stats ops (some (junk_text items ++ (ts ++ ',' :: c :: more))) =
      compute_aggregate_stats ops (some (rows_text (items.map Prod.snd))) := by
  have hwf : ∀ r ∈ items.map Prod.snd, row_wf r := by
    intro r hr
    obtain ⟨it, hit, rfl⟩ := List.mem_map.mp hr
    exact (hitems it hit).2
  have h0 := compute_rows ops (items.map Prod.snd) hwf
  have hj := dropWhile_isspace_no_comma junk hjunk
  have hb := fscanf_row_bad_both ts (c :: more) hts
    (scan_double_not_number c more hc.1 hc.2.1 hc.2.2)
  refine ⟨⟨_, h0, ?_⟩, ?_, ?_⟩
  · rw [stats_result_sessions, List.length_map]
  · rw [h0]
    exact compute_junk_tail ops items hitems junk hj.1 hj.2
  · rw [h0]
    exact compute_junk_tail ops items hitems _ hb.1 hb.2

/-- C18, amended, witness: the rows (40.00, 90.00, 100) and (60.00, 80.00,
100) with a blank line and the line `garbage` before the second one, then
either the line `see notes`, or the row `x,abc,1,1` and a further well-formed
row. -/
theorem C18_malformed_rows_amended_witness :
    (∀ it ∈ [(([] : CStr), (⟨"2024-01-01T10:00:00".toList, ⟨['4', '0'], ['0', '0']⟩,
          ⟨['9', '0'], ['0', '0']⟩, ['1', '0', '0']⟩ : StatsRow)),
        ("\ngarbage\n".toList, ⟨"2024-01-02T10:00:00".toList, ⟨['6', '0'], ['0', '0']⟩,
          ⟨['8', '0'], ['0', '0']⟩, ['1', '0', '0']⟩)],
      ',' ∉ it.1 ∧ row_wf it.2) ∧
    ',' ∉ "see notes\n".toList ∧ ',' ∉ ['x'] ∧
    (isspace 'a' = false ∧ isdigit 'a' = false ∧ 'a' ∉ ['+', '-', '.', 'i', 'I', 'n', 'N']) ∧
    ∀ (D : Type) (ops : DoubleOps D),
      (∃ a, compute_aggregate_stats ops (some
          ("2024-01-01T10:00:00,40.00,90.00,100\n".toList ++
            "2024-01-02T10:00:00,60.00,80.00,100\n".toList)) = some a ∧
        a.sessions = 2) ∧
      compute_aggregate_stats ops (some
          ("2024-01-01T10:00:00,40.00,90.00,100\n".toList ++ "\ngarbage\n".toList ++
            "2024-01-02T10:00:00,60.00,80.00,100\n".toList ++ "see notes\n".toList)) =
        compute_aggregate_stats ops (some
          ("2024-01-01T10:00:00,40.00,90.00,100\n".toList ++
            "2024-01-02T10:00:00,60.00,80.00,100\n".toList)) ∧
      compute_aggregate_stats ops (some
          ("2024-01-01T10:00:00,40.00,90.00,100\n".toList ++ "\ngarbage\n".toList ++
            "2024-01-02T10:00:00,60.00,80.00,100\n".toList ++ "x,abc,1,1\n".toList ++
            "2024-01-03T10:00:00,70.00,85.00,100\n".toList)) =
        compute_aggregate_stats ops (some
          ("2024-01-01T10:00:00,40.00,90.00,100\n".toList ++
            "2024-01-02T10:00:00,60.00,80.00,100\n".toList)) :=
  ⟨by decide, by decide, by decide, by decide, fun D ops =>
    C18_malformed_rows_amended ops
      [(([] : CStr), (⟨"2024-01-01T10:00:00".toList, ⟨['4', '0'], ['0', '0']⟩,
          ⟨['9', '0'], ['0', '0']⟩, ['1', '0', '0']⟩ : StatsRow)),
        ("\ngarbage\n".toList, ⟨"2024-01-02T10:00:00".toList, ⟨['6', '0'], ['0', '0']⟩,
          ⟨['8', '0'], ['0', '0']⟩, ['1', '0', '0']⟩)]
      "see notes\n".toList ['x'] 'a' "bc,1,1\n2024-01-03T10:00:00,70.00,85.00,100\n".toList
      (by decide) (by decide) (by decide) (by decide)⟩

/-- C19, on the failing inputs: `trim_newline` of `main.c` cuts the line `a`,
carriage return, `b` (no newline at its end) down to `a`, and leaves the line
`abc`, carriage return, as it is; `trim_newline` of `main2.c` returns the first
line unchanged and the second as `abc`, as the claim states; both turn `abc`,
carriage return, newline into `abc`. -/
theorem C19_trim_newline_divergence :
    Main.trim_newline ['a', '\r', 'b'] = ['a'] ∧
    Main.trim_newline ['a', 'b', 'c', '\r'] = ['a', 'b', 'c', '\r'] ∧
    Main2.trim_newline ['a', '\r', 'b'] = ['a', '\r', 'b'] ∧
    Main2.trim_newline ['a', 'b', 'c', '\r'] = ['a', 'b', 'c'] ∧
    Main.trim_newline ['a', 'b', 'c', '\r', '\n'] = ['a', 'b', 'c'] ∧
    Main2.trim_newline ['a', 'b', 'c', '\r', '\n'] = ['a', 'b', 'c'] := by
  refine ⟨by decide, by decide, by decide, by decide, by decide, by decide⟩

/-- C20, as stated, fails: for the target `a` and the typed line "ab" the
repetition leaves the character map unchanged, and "ab" is not the
one-character string `a`. -/
theorem C20_char_training_counterexample :
    training_char_rep [] [] 'a' (some ['a', 'b']) = ([], []) ∧ ['a', 'b'] ≠ ['a'] := by
  refine ⟨by decide, by decide⟩

/-- C20, amended: in character-focus training each repetition checks the
first character of the typed line: for every target character `c` (not NUL)
and typed line `t`, the repetition leaves the character map unchanged if and
only if `t` starts with `c`, and otherwise increases the count of `c` by
exactly 1 and changes no other key; the word map is never changed. -/
theorem C20_char_training_amended (mwords mchars : Map) (c : Char) (t : CStr)
    (hc : c ≠ NUL) :
    ((training_char_rep mwords mchars c (some t)).2 = mchars ↔ t.head? = some c) ∧
    (t.head? ≠ some c →
      ∀ k, map_get (training_char_rep mwords mchars c (some t)).2 k =
        if k = [c] then some (map_count mchars [c] + 1) else map_get mchars k) ∧
    (training_char_rep mwords mchars c (some t)).1 = mwords := by
  have hhead : t.getD 0 NUL = c ↔ t.head? = some c := by
    cases t with
    | nil =>
      simp only [List.getD_nil, List.head?_nil]
      constructor
      · intro h
        exact absurd h.symm hc
      · intro h
        simp at h
    | cons x t => simp
  unfold training_char_rep
  simp only [Option.getD_some]
  by_cases h : t.getD 0 NUL = c
  · have h2 := hhead.mp h
    rw [if_neg (not_not.mpr h)]
    exact ⟨⟨fun _ => h2, fun _ => rfl⟩, fun hne => absurd h2 hne, rfl⟩
  · have h2 : ¬ t.head? = some c := fun e => h (hhead.mpr e)
    rw [if_pos h]
    refine ⟨⟨fun e => absurd e (map_add_char_ne mchars c), fun e => absurd e h2⟩, ?_, rfl⟩
    intro _ k
    simp only [map_add_char, map_add, cstr_char c hc]
    exact map_get_add_scan mchars [c] k 1

/-- C20, witness: for the target `a`, the typed line "b" adds 1 to the count of
`a` in the map `a -> 2` and the typed line "a" leaves the map as it is. -/
theorem C20_char_training_amended_witness :
    'a' ≠ NUL ∧
    map_get (training_char_rep [] [⟨['a'], 2⟩] 'a' (some ['b'])).2 ['a'] = some 3 ∧
    (training_char_rep [] [⟨['a'], 2⟩] 'a' (some ['a'])).2 = [⟨['a'], 2⟩] :=
  ⟨by decide,
   (C20_char_training_amended [] [⟨['a'], 2⟩] 'a' ['b'] (by decide)).2.1 (by decide) ['a'],
   (C20_char_training_amended [] [⟨['a'], 2⟩] 'a' ['a'] (by decide)).1.mpr rfl⟩

/-- C21, as stated, fails: the line "12abc" is not a positive decimal integer
and chooses 12 items and 12 rounds, not the defaults 10 and 2; the line "3.9"
chooses 3 repetitions, not the default 5. -/
theorem C21_input_counts_counterexample :
    practice_item_count "12abc".toList = some 12 ∧
    training_rounds "12abc".toList = some 12 ∧
    training_reps "3.9".toList = some 3 ∧
    ¬ (∀ c ∈ "12abc".toList, '0' ≤ c ∧ c ≤ '9') ∧
    ¬ (∀ c ∈ "3.9".toList, '0' ≤ c ∧ c ≤ '9') := by
  refine ⟨by decide, by decide, by decide, by decide, by decide⟩

/-- C21, amended: for every operator input line for which `atoi` is defined
(the value it reads is in the range of `int`), the chosen count is the value
`v` that `atoi` reads from the line - the decimal integer at its start, behind
leading white space and an optional sign, up to the first byte that is not a
digit - when `v` is positive, and otherwise the fixed default: 10 practice
items, 2 word-training rounds, 5 character repetitions.  For a line of
decimal digits `v` is the integer typed; for the empty line and for a line
that starts with no white space, sign or digit `v` is 0. -/
theorem C21_input_counts_amended (line : CStr) (v : Int) (hv : atoi line = some v) :
    practice_item_count line = some (if 0 < v then v else 10) ∧
    training_rounds line = some (if 0 < v then v else 2) ∧
    training_reps line = some (if 0 < v then v else 5) ∧
    ((∀ c ∈ line, '0' ≤ c ∧ c ≤ '9') → v = (decimal_value line : Int)) ∧
    (line = [] → v = 0) ∧
    (∀ (c : Char) (rest : CStr), line = c :: rest → isspace c = false → c ≠ '-' → c ≠ '+' →
      ¬ ('0' ≤ c ∧ c ≤ '9') → v = 0) := by
  have hval := atoi_value line v hv
  have hif : ∀ d : Int, (if v ≤ 0 then d else v) = (if 0 < v then v else d) := by
    intro d
    by_cases h : 0 < v
    · have h2 : ¬ v ≤ 0 := by omega
      simp [h, h2]
    · have h2 : v ≤ 0 := by omega
      simp [h, h2]
  refine ⟨?_, ?_, ?_, ?_, ?_, ?_⟩
  · simp only [practice_item_count, hv, Option.map_some', hif]
  · simp only [training_rounds, hv, Option.map_some', hif]
  · simp only [training_reps, hv, Option.map_some', hif]
  · intro h
    rw [hval, atol_all_digits line h]
  · intro h
    rw [hval, h]
    rfl
  · intro c rest h hs hm hp hd
    rw [hval, h]
    exact atol_not_number c rest hs hm hp hd

/-- C21, witness: the line "25" chooses 25 items, rounds and repetitions, and
25 is the integer that its digits denote; the line "abc" chooses the defaults
10, 2 and 5. -/
theorem C21_input_counts_amended_witness :
    atoi "25".toList = some 25 ∧ atoi "abc".toList = some 0 ∧
    practice_item_count "25".toList = some 25 ∧
    training_rounds "abc".toList = some 2 ∧
    training_reps "abc".toList = some 5 ∧
    (25 : Int) = (decimal_value "25".toList : Int) ∧
    (0 : Int) = 0 :=
  ⟨by decide, by decide,
   (C21_input_counts_amended "25".toList 25 (by decide)).1,
   (C21_input_counts_amended "abc".toList 0 (by decide)).2.1,
   (C21_input_counts_amended "abc".toList 0 (by decide)).2.2.1,
   (C21_input_counts_amended "25".toList 25 (by decide)).2.2.2.1 (by decide),
   (C21_input_counts_amended "abc".toList 0 (by decide)).2.2.2.2.2 'a' "bc".toList rfl
     (by decide) (by decide) (by decide) (by decide)⟩

/-- C22: the two versions disagree on the character mistakes for inputs of
unequal length: for the reference "ab" and the typed line "a", from empty maps,
`compare_and_update` of `main.c` leaves the character map `b -> 1` and that of
`main2.c` leaves the empty character map. -/
theorem C22_versions_disagree :
    ∃ ref typed : CStr, ref.length ≠ typed.length ∧
      ∃ res1 mw1 mc1 res2 mw2 mc2,
        Main.compare_and_update (some ref) (some typed) [] [] = some (res1, mw1, mc1) ∧
        Main2.compare_and_update (some ref) (some typed) [] [] = some (res2, mw2, mc2) ∧
        mc1 = [⟨['b'], 1⟩] ∧ mc2 = [] ∧ mc1 ≠ mc2 :=
  ⟨"ab".toList, "a".toList, by decide,
   ⟨1, 2, 0, 1⟩, [⟨"ab".toList, 1⟩], [⟨['b'], 1⟩], ⟨1, 2, 0, 1⟩, [⟨"ab".toList, 1⟩], [],
   by decide, by decide, rfl, rfl, by decide⟩

/-- C23: for every `ref` and `typed`, `compare_and_update` (of `main.c` and of
`main2.c`) returns `correct_chars <= min(length(ref), length(typed))` and
`correct_words <= total_words`; hence the accuracy `correct_chars /
length(typed) * 100` of a non-empty typed line lies between 0 and 100, and so
does the accuracy of the summed totals of a session of `main.c` in which
something was typed. -/
theorem C23_accuracy_bounds (ref typed : CStr) (mwords mchars : Map)
    (items : List (CStr × CStr)) :
    (∃ res mw mc,
      Main.compare_and_update (some ref) (some typed) mwords mchars = some (res, mw, mc) ∧
      res.correct_chars ≤ min ref.length typed.length ∧
      res.correct_words ≤ res.total_words ∧
      (typed ≠ [] → 0 ≤ accuracy res.correct_chars typed.length ∧
        accuracy res.correct_chars typed.length ≤ 100)) ∧
    (∃ res mw mc,
      Main2.compare_and_update (some ref) (some typed) mwords mchars = some (res, mw, mc) ∧
      res.correct_chars ≤ min ref.length typed.length ∧
      res.correct_words ≤ res.total_words ∧
      (typed ≠ [] → 0 ≤ accuracy res.correct_chars typed.length ∧
        accuracy res.correct_chars typed.length ≤ 100)) ∧
    (∃ t mw mc,
      Main.practice_loop items ⟨0, 0, 0, 0⟩ mwords mchars = some (t, mw, mc) ∧
      t.total_correct_chars ≤ t.total_chars_typed ∧
      t.total_correct_words ≤ t.total_words ∧
      (0 < t.total_chars_typed →
        0 ≤ accuracy t.total_correct_chars t.total_chars_typed ∧
        accuracy t.total_correct_chars t.total_chars_typed ≤ 100)) := by
  have hmin := agree_count_le ref typed
  have hacc : typed ≠ [] → 0 ≤ accuracy (Main.agree_count ref typed) typed.length ∧
      accuracy (Main.agree_count ref typed) typed.length ≤ 100 := by
    intro hne
    exact accuracy_bounds _ _ (Nat.le_trans hmin (Nat.min_le_right _ _))
      (List.length_pos.mpr hne)
  refine ⟨?_, ?_, ?_⟩
  · exact ⟨_, _, _, Main.compare_and_update_eq ref typed mwords mchars, hmin,
      word_hits_le _ _, hacc⟩
  · obtain ⟨r, wk, ck, h1, _, h3, h4⟩ := Main2.word_loop_closed (ref.length + 1) ref typed
      ⟨Main.agree_count ref typed, ref.length, 0, 0⟩ (Nat.lt_succ_self _)
    refine ⟨r, add_keys mwords wk, add_keys mchars ck, ?_, ?_, h3 (Nat.le_refl _), ?_⟩
    · rw [Main2.compare_and_update2_chars]
      exact h4 mwords mchars
    · rw [h1]
      exact hmin
    · rw [h1]
      exact hacc
  · obtain ⟨t, mw, mc, h1, h2, h3⟩ := Main.practice_loop_totals items ⟨0, 0, 0, 0⟩ mwords mchars
      (Nat.le_refl _) (Nat.le_refl _)
    exact ⟨t, mw, mc, h1, h2, h3, fun hpos => accuracy_bounds _ _ h2 hpos⟩

/-- C23, witness: for the reference "the" and the typed line "teh" both
versions return one correct character of at most three and no correct word of
one, and the accuracy of the item is between 0 and 100. -/
theorem C23_accuracy_bounds_witness :
    "teh".toList ≠ [] ∧
    ∃ res mw mc,
      Main.compare_and_update (some "the".toList) (some "teh".toList) [] [] =
        some (res, mw, mc) ∧
      res.correct_chars ≤ min "the".toList.length "teh".toList.length ∧
      res.correct_words ≤ res.total_words ∧
      0 ≤ accuracy res.correct_chars "teh".toList.length ∧
      accuracy res.correct_chars "teh".toList.length ≤ 100 := by
  obtain ⟨res, mw, mc, h1, h2, h3, h4⟩ :=
    (C23_accuracy_bounds "the".toList "teh".toList [] [] []).1
  exact ⟨by decide, res, mw, mc, h1, h2, h3, (h4 (by decide)).1, (h4 (by decide)).2⟩

/-- C24: in the practice flow of `main2.c`, recording the word mistakes of an
item in a fresh per-item map and then merging that map into the global word
map with `map_add(key, count)` for each entry in order leaves the same global
word map (same entries, counts and order), the same result and the same
character map as `compare_and_update` called with the global word map, for
every `ref`, `typed` and initial maps (with unique keys or not). -/
theorem C24_per_item_merge (ref typed : CStr) (mwords mchars : Map) :
    ∃ res mw mc,
      Main2.compare_and_update (some ref) (some typed) mwords mchars = some (res, mw, mc) ∧
      Main2.practice_item ref typed mwords mchars = some (res, mw, mc) := by
  obtain ⟨r, wk, ck, _, _, _, h4⟩ := Main2.word_loop_closed (ref.length + 1) ref typed
    ⟨Main.agree_count ref typed, ref.length, 0, 0⟩ (Nat.lt_succ_self _)
  refine ⟨r, add_keys mwords wk, add_keys mchars ck, ?_, ?_⟩
  · rw [Main2.compare_and_update2_chars]
    exact h4 mwords mchars
  · unfold Main2.practice_item
    rw [Main2.compare_and_update2_chars, h4 map_init mchars]
    simp only
    rw [merge_loop_eq, merge_words_add_keys]
    rfl

/-- C25: for every `ref` and `typed` of at most 255 bytes whose only white
space characters are space and tab, `compare_and_update` of `main.c` and of
`main2.c` return the same `CompareResult` and leave the same word map, the one
obtained from the initial word map by `map_add(_, w, 1)` for the mistaken
reference tokens `w` in their order. -/
theorem C25_versions_agree_on_words (ref typed : CStr) (mwords mchars : Map)
    (hr : ref.length ≤ 255) (ht : typed.length ≤ 255)
    (hwr : ∀ c ∈ ref, isspace c = true → c = ' ' ∨ c = '\t')
    (hwt : ∀ c ∈ typed, isspace c = true → c = ' ' ∨ c = '\t') :
    ∃ res mw mc1 mc2,
      Main.compare_and_update (some ref) (some typed) mwords mchars = some (res, mw, mc1) ∧
      Main2.compare_and_update (some ref) (some typed) mwords mchars = some (res, mw, mc2) ∧
      mw = add_keys mwords
        (Main.word_keys (tokens_by is_blank ref) (tokens_by is_blank typed)) := by
  obtain ⟨mc2, h2⟩ := Main2.word_loop_tokens (ref.length + 1) ref typed
    ⟨Main.agree_count ref typed, ref.length, 0, 0⟩ mwords mchars (Nat.lt_succ_self _) hr ht
  rw [Main.pair_words_eq, tokens_isspace_eq_blank ref hwr,
    tokens_isspace_eq_blank typed hwt] at h2
  have h1 := Main.compare_and_update_eq ref typed mwords mchars
  rw [ref_tokens_short ref hr, ref_tokens_short typed ht] at h1
  refine ⟨_, _, _, mc2, h1, ?_, rfl⟩
  rw [Main2.compare_and_update2_chars, h2]
  simp

/-- C25, witness: for the reference "the cat" and the typed line of "the", a
tab and "cot", both versions return the same result and leave the word map
`cat -> 1`. -/
theorem C25_versions_agree_on_words_witness :
    "the cat".toList.length ≤ 255 ∧ "the\tcot".toList.length ≤ 255 ∧
    ∃ res mw mc1 mc2,
      Main.compare_and_update (some "the cat".toList) (some "the\tcot".toList) [] [] =
        some (res, mw, mc1) ∧
      Main2.compare_and_update (some "the cat".toList) (some "the\tcot".toList) [] [] =
        some (res, mw, mc2) ∧
      mw = [⟨"cat".toList, 1⟩] := by
  obtain ⟨res, mw, mc1, mc2, h1, h2, h3⟩ :=
    C25_versions_agree_on_words "the cat".toList "the\tcot".toList [] []
      (by decide) (by decide) (by decide) (by decide)
  refine ⟨by decide, by decide, res, mw, mc1, mc2, h1, h2, ?_⟩
  rw [h3]
  decide

end TypingTrainer
